import Mathlib

/-!
# fontdiff: paragraph layout and line-diff engine

A shallow embedding of `src/fontdiff/paragraph.cc`, `src/fontdiff/line.cc` and
`src/fontdiff/line.h`.

Conventions of the embedding:

* `int32_t` text offsets are `Int` and `size_t` indices are `Nat`. Offsets never exceed
  the length of an ICU string (below `2^31`) and an index never exceeds the size of a
  vector, so no operation on them wraps.
* `FT_F26Dot6` metrics are `Int`, and `FT_F26Dot6` is a `signed long`: every sum or
  difference of metrics that the code computes is taken in two's complement at 64 bits
  (`wrapLong`). Statements that need the mathematical sum carry the bound under which
  the value fits.
* A pointer that the code tests against `NULL` is an `Option`.
* A `while` loop whose trip count is bounded by its own arguments is a structurally
  recursive function over that bound; a lemma shows that the loop condition is false
  when the function returns.
-/

namespace Fontdiff

/-! ## Data model -/

/-- The value of a `signed long` computation whose mathematical result is `x`: two's
complement at 64 bits. -/
def wrapLong (x : Int) : Int :=
  (x + 9223372036854775808) % 18446744073709551616 - 9223372036854775808

/-- The value `x` fits a `signed long`. -/
def IsLong (x : Int) : Prop :=
  -9223372036854775808 ≤ x ∧ x < 9223372036854775808

instance (x : Int) : Decidable (IsLong x) := by
  unfold IsLong; infer_instance

/-- A handle of a `Language` object (pointer identity). -/
abbrev Language := Nat

/-- A handle of a `Font` object (pointer identity). -/
abbrev Font := Nat

/-- The part of `Style` the paragraph reads: its identity and `GetLanguage()`. -/
structure Style where
  id : Nat
  language : Option Language
deriving DecidableEq, Repr, Inhabited

/-- The struct `Paragraph::Span`: exclusive end offset and style pointer. -/
structure Span where
  limit : Int
  style : Option Style
deriving DecidableEq, Repr, Inhabited

/-- The expression `spans_[i].limit`. -/
def limitAt (spans : List Span) (i : Nat) : Int :=
  (spans.getD i default).limit

/-- The start offset of span `i`: `spans_[i - 1].limit`, or `0` for the first span. -/
def prevLimit (spans : List Span) (i : Nat) : Int :=
  if 0 < i then limitAt spans (i - 1) else 0

/-- The limit of the last span (`0` when there is no span). -/
def lastLimit (spans : List Span) : Int :=
  prevLimit spans spans.length

/-- The limits of the spans do not decrease from one span to the next. -/
def NonDecreasingLimits (spans : List Span) : Prop :=
  List.Pairwise (fun a b => a ≤ b) (spans.map Span.limit)

instance (spans : List Span) : Decidable (NonDecreasingLimits spans) := by
  unfold NonDecreasingLimits; infer_instance

/-- The limits of the spans grow strictly from one span to the next. -/
def StrictlyIncreasingLimits (spans : List Span) : Prop :=
  List.Pairwise (fun a b => a < b) (spans.map Span.limit)

instance (spans : List Span) : Decidable (StrictlyIncreasingLimits spans) := by
  unfold StrictlyIncreasingLimits; infer_instance

/-! ## `Paragraph::FindSpan` -/

/-- The loop of `Paragraph::FindSpan` on the state `(lo, hi)`, run for at most `n` rounds. -/
def FindSpanLoop (spans : List Span) (pos : Int) : Nat → Nat → Nat → Nat × Nat
  | 0, lo, hi => (lo, hi)
  | n + 1, lo, hi =>
    if lo < hi then
      let mid := (lo + hi) / 2
      if pos < limitAt spans mid then
        FindSpanLoop spans pos n lo mid
      else
        FindSpanLoop spans pos n (mid + 1) hi
    else (lo, hi)

/-- The function `Paragraph::FindSpan`: `lo = 0`, `hi = spans_.size()`, return `lo`.
The interval `hi - lo` shrinks in every round, so `spans_.size()` rounds suffice. -/
def FindSpan (spans : List Span) (pos : Int) : Nat :=
  (FindSpanLoop spans pos spans.length 0 spans.length).1

/-! ## Shaped runs (`shaped_text.h`, used through its interface) -/

/-- A value of `hb_script_t`. -/
abbrev Script := Nat

/-- The HarfBuzz tag `Zyyy`. -/
def HB_SCRIPT_COMMON : Script := 0x5A797979

/-- The HarfBuzz tag `Zinh`. -/
def HB_SCRIPT_INHERITED : Script := 0x5A696E68

/-- The HarfBuzz value `HB_SCRIPT_INVALID` (`HB_TAG_NONE`). -/
def HB_SCRIPT_INVALID : Script := 0

/-- One shaped glyph: the text offset it belongs to and its horizontal advance. -/
structure Glyph where
  cluster : Int
  xAdvance : Int
deriving DecidableEq, Repr, Inhabited

/-- What the shaping engine derives for one segment: glyph advances and the vertical
extent of the font. -/
structure Shaping where
  glyphs : List Glyph
  ascender : Int
  descender : Int
deriving DecidableEq, Repr, Inhabited

/-- Modelled from the spec: the class `ShapedText` (`shaped_text.h` and `shaped_text.cc`
are not among the sources). A Shaped Run is `{ textStart, textEnd, bidiLevel, script,
font, style }` plus derived shaping data (glyph advances, ascender, descender). -/
structure ShapedText where
  start : Int
  limit : Int
  bidiLevel : Nat
  script : Script
  font : Font
  style : Style
  glyphs : List Glyph
  ascender : Int
  descender : Int
deriving DecidableEq, Repr, Inhabited

namespace ShapedText

def GetStart (t : ShapedText) : Int := t.start

def GetLimit (t : ShapedText) : Int := t.limit

def GetAscender (t : ShapedText) : Int := t.ascender

def GetDescender (t : ShapedText) : Int := t.descender

/-- Modelled from the spec: `ShapedText::GetXAdvance(start, limit)`, the run's partial
advance over `[start, limit)`: the sum of the advances of the glyphs whose text offset
lies in `[start, limit)`. -/
def GetXAdvance (t : ShapedText) (start limit : Int) : Int :=
  ((t.glyphs.filter (fun g => decide (start ≤ g.cluster) && decide (g.cluster < limit))).map
    Glyph.xAdvance).sum

/-- The glyphs of the run belong to text offsets of the run's own range. -/
def ClustersInRange (t : ShapedText) : Prop :=
  ∀ g ∈ t.glyphs, t.start ≤ g.cluster ∧ g.cluster < t.limit

instance (t : ShapedText) : Decidable t.ClustersInRange := by
  unfold ClustersInRange; infer_instance

/-- The advance of the run over `[start, limit)` is its advance over that range clamped to
the run's own range. -/
def ClampStable (t : ShapedText) (start limit : Int) : Prop :=
  t.GetXAdvance start limit = t.GetXAdvance (max start t.GetStart) (min limit t.GetLimit)

instance (t : ShapedText) (start limit : Int) : Decidable (t.ClampStable start limit) := by
  unfold ClampStable; infer_instance

/-- Modelled from the spec: `ShapedText::IsCovering(start, limit)`, the coverage query:
the run's own range overlaps `[start, limit)`, that is, the run starts before `limit` and
ends after `start`. -/
def IsCovering (t : ShapedText) (start limit : Int) : Bool :=
  decide (t.start < limit) && decide (start < t.limit)

end ShapedText

/-! ## `line.h`, `line.cc` -/

/-- The struct `Line::Run`: a placement of a shaped run on the line. -/
structure Run where
  text : ShapedText
  x : Int
  start : Int
  limit : Int
deriving DecidableEq, Repr, Inhabited

/-- The struct `Line::Highlight`. -/
structure Highlight where
  x : Int
  width : Int
  color : Nat
deriving DecidableEq, Repr, Inhabited

/-- The members of the class `Line`. -/
structure Line where
  runs : List Run
  highlights : List Highlight
  width : Int
  xAdvance : Int
  ascender : Int
  descender : Int
  backgroundColor : Nat
deriving DecidableEq, Repr, Inhabited

namespace Line

/-- The constructor `Line::Line(width)`. -/
def new (width : Int) : Line :=
  { runs := [], highlights := [], width := width, xAdvance := 0, ascender := 0,
    descender := 0, backgroundColor := 0xffffff }

def GetWidth (l : Line) : Int := l.width

def GetAscender (l : Line) : Int := l.ascender

def GetDescender (l : Line) : Int := l.descender

/-- The method `Line::GetHeight`. -/
def GetHeight (l : Line) : Int := wrapLong (l.GetAscender - l.GetDescender)

/-- The method `Line::AddShapedText`. -/
def AddShapedText (l : Line) (text : ShapedText) (start limit : Int) : Line :=
  let run : Run :=
    { text := text, x := l.xAdvance, start := max start text.GetStart,
      limit := min limit text.GetLimit }
  { l with
    runs := l.runs ++ [run]
    xAdvance := wrapLong (l.xAdvance + text.GetXAdvance start limit)
    ascender := max l.ascender text.GetAscender
    descender := min l.descender text.GetDescender }

/-- The method `Line::AddHighlight`. -/
def AddHighlight (l : Line) (x width : Int) (color : Nat) : Line :=
  let h : Highlight := { x := x, width := width, color := color }
  { l with highlights := l.highlights ++ [h] }

/-- The method `Line::SetBackgroundColor`. -/
def SetBackgroundColor (l : Line) (rgb : Nat) : Line :=
  { l with backgroundColor := rgb }

end Line

/-- A call of one of the two mutators of a `Line` that the paragraph uses. -/
inductive LineOp where
  | addShapedText (text : ShapedText) (start limit : Int)
  | addHighlight (x width : Int) (color : Nat)
deriving DecidableEq, Repr

/-- Performs one call on a line. -/
def LineOp.apply (l : Line) : LineOp → Line
  | .addShapedText text start limit => l.AddShapedText text start limit
  | .addHighlight x width color => l.AddHighlight x width color

/-- Performs a sequence of calls, first to last. -/
def applyOps (l : Line) (ops : List LineOp) : Line :=
  ops.foldl LineOp.apply l

/-- The partial advance of a placement over its recorded sub-range. -/
def Run.advance (r : Run) : Int :=
  r.text.GetXAdvance r.start r.limit

/-- The advance that a call adds to the line: `text->GetXAdvance(start, limit)` at the
arguments of an `AddShapedText` call, nothing for an `AddHighlight` call. -/
def LineOp.advance : LineOp → Int
  | .addShapedText text start limit => text.GetXAdvance start limit
  | .addHighlight _ _ _ => 0

/-- The run of an `AddShapedText` call answers the arguments of the call with its advance
over the clamped range. -/
def LineOp.Stable : LineOp → Prop
  | .addShapedText text start limit => text.ClampStable start limit
  | .addHighlight _ _ _ => True

instance (op : LineOp) : Decidable op.Stable := by
  cases op <;> unfold LineOp.Stable <;> infer_instance

/-- The ascender and the descender of the run are below `2^62` in size. FreeType derives
both from 16-bit font units and a 16.16 scale, which keeps them far below this bound. -/
def ShapedText.MetricsBounded (t : ShapedText) : Prop :=
  -4611686018427387904 ≤ t.GetDescender ∧ t.GetAscender < 4611686018427387904

instance (t : ShapedText) : Decidable t.MetricsBounded := by
  unfold ShapedText.MetricsBounded; infer_instance

/-- The run of an `AddShapedText` call has bounded metrics. -/
def LineOp.MetricsBounded : LineOp → Prop
  | .addShapedText text _ _ => text.MetricsBounded
  | .addHighlight _ _ _ => True

instance (op : LineOp) : Decidable op.MetricsBounded := by
  cases op <;> unfold LineOp.MetricsBounded <;> infer_instance

/-! ## Collaborators of the paragraph -/

/-- The struct `DeltaRange` of the line differ, as `AddLine` reads it. -/
structure DeltaRange where
  x : Int
  width : Int
deriving DecidableEq, Repr, Inhabited

/-- The part of `FontCollection` the paragraph calls: `FindFont(codepoint, style, hint)`,
which answers `none` for `NULL`. -/
structure FontCollection where
  FindFont : Nat → Style → Option Font → Option Font

/-- The external engines, as functions of their arguments.

* `fromUTF8`: `icu::UnicodeString::fromUTF8`, bytes to UTF-16 code units.
* `script`: `hb_unicode_script` of a code point.
* `shape`: the shaping done by the constructor of `ShapedText` for
  `(text, start, limit, bidiLevel, script, font, style)`.
* `getLogicalRun`: `ubidi_getLogicalRun` after `ubidi_setPara` on the text, at a start
  offset; `none` when the call leaves its output arguments untouched.
* `visualRuns`: `ubidi_setLine` on `[start, limit)` followed by `ubidi_countRuns` and
  `ubidi_getVisualRun` for every index: the `(runStart, runLength)` pairs in visual order.
* `GetLineBreaker`: `Language::GetLineBreaker`; the break iterator is given by the
  boundaries it reports on a text, in the order in which `next()` walks them.
* `FindDeltas`: the line differ, returning `(hasDeltas, removals, additions)`.
* `pageHeight`, `marginWidth`: the constants of `DiffJob`. -/
structure Env where
  fromUTF8 : List Nat → List Nat
  script : Nat → Script
  shape : List Nat → Int → Int → Nat → Script → Font → Style → Shaping
  getLogicalRun : List Nat → Int → Option (Int × Nat)
  visualRuns : List Nat → Int → Int → List (Int × Int)
  GetLineBreaker : Language → Option (List Nat → List Int)
  FindDeltas : Line → Line → Bool × List DeltaRange × List DeltaRange
  pageHeight : Int
  marginWidth : Int

/-- A line placed on a page at `(x, y)`. -/
structure PlacedLine where
  line : Line
  x : Int
  y : Int
deriving DecidableEq, Repr, Inhabited

/-- Modelled from the spec: the class `Page` (`page.h` is not among the sources): the
lines placed so far, in order, and the vertical cursor `GetY()`. -/
structure Page where
  lines : List PlacedLine
  y : Int
deriving DecidableEq, Repr, Inhabited

namespace Page

def GetY (p : Page) : Int := p.y

/-- Modelled from the spec: `Page::AddLine(line, x, y)` takes the line at the placement
the caller supplies and moves the cursor below it (the cursor is an `FT_F26Dot6`). -/
def AddLine (p : Page) (line : Line) (x y : Int) : Page :=
  { lines := p.lines ++ [{ line := line, x := x, y := y }],
    y := wrapLong (y + line.GetHeight) }

end Page

/-- Modelled from the spec: the class `DiffJob` (`diff_job.h` is not among the sources):
the has-diffs flag, the pages already left behind, and the current page. -/
structure DiffJob where
  hasDiffs : Bool
  finished : List Page
  current : Page
deriving DecidableEq, Repr, Inhabited

namespace DiffJob

/-- Modelled from the spec: `DiffJob::SetHasDiffs`, an idempotent, monotonic flag. -/
def SetHasDiffs (j : DiffJob) : DiffJob := { j with hasDiffs := true }

def GetCurrentPage (j : DiffJob) : Page := j.current

/-- Modelled from the spec: `DiffJob::AddPage` starts a new, empty page, which becomes the
current page. -/
def AddPage (env : Env) (j : DiffJob) : DiffJob :=
  { j with finished := j.finished ++ [j.current],
           current := { lines := [], y := env.marginWidth } }

/-- All pages of the job, in order. -/
def pages (j : DiffJob) : List Page := j.finished ++ [j.current]

/-- All lines handed to the pages of the job, in order. -/
def placedLines (j : DiffJob) : List Line :=
  (j.pages.map (fun p => p.lines.map PlacedLine.line)).flatten

end DiffJob

/-! ## `paragraph.cc` -/

/-- The members of the class `Paragraph` (the job is passed separately). `text` holds the
UTF-16 code units of `text_`. -/
structure Paragraph where
  text : List Nat
  spans : List Span
  beforeFonts : Option FontCollection
  afterFonts : Option FontCollection
  beforeRuns : List ShapedText
  afterRuns : List ShapedText

namespace Paragraph

/-- The constructor `Paragraph::Paragraph`. -/
def new (beforeFonts afterFonts : Option FontCollection) : Paragraph :=
  { text := [], spans := [], beforeFonts := beforeFonts, afterFonts := afterFonts,
    beforeRuns := [], afterRuns := [] }

/-- The expression `text_.length()`. -/
def length (p : Paragraph) : Int := (p.text.length : Int)

/-- The local string `s` of `Paragraph::AppendSpan` after its loop: the bytes of the
input with every line feed and carriage return replaced by a space. -/
def normalized (text : List Nat) : List Nat :=
  text.map (fun c => if c = 10 ∨ c = 13 then 32 else c)

/-- The code units that `Paragraph::AppendSpan` appends for an input. -/
def appended (env : Env) (text : List Nat) : List Nat :=
  env.fromUTF8 (normalized text)

/-- The method `Paragraph::AppendSpan`; `text` holds the bytes of the string piece. -/
def AppendSpan (env : Env) (p : Paragraph) (text : List Nat) (style : Option Style) :
    Paragraph :=
  let text' := p.text ++ appended env text
  let span : Span := { limit := (text'.length : Int), style := style }
  { p with text := text', spans := p.spans ++ [span] }

/-- A sequence of `AppendSpan` calls on a paragraph, first to last. -/
def AppendSpans (env : Env) (p : Paragraph) (calls : List (List Nat × Option Style)) :
    Paragraph :=
  calls.foldl (fun q c => q.AppendSpan env c.1 c.2) p

end Paragraph

/-- ICU's `UnicodeString::char32At` (`U16_GET`): the code point that contains the code
unit at `pos`; an unpaired surrogate is returned as it is, and an offset outside the text
gives `0xFFFF`. -/
def char32At (text : List Nat) (pos : Int) : Nat :=
  if 0 ≤ pos ∧ pos < (text.length : Int) then
    let i := pos.toNat
    let c := text.getD i 0
    if 0xD800 ≤ c ∧ c < 0xDC00 then
      let c2 := text.getD (i + 1) 0
      if i + 1 < text.length ∧ 0xDC00 ≤ c2 ∧ c2 < 0xE000 then
        (c - 0xD800) * 0x400 + (c2 - 0xDC00) + 0x10000
      else c
    else if 0xDC00 ≤ c ∧ c < 0xE000 then
      let c1 := text.getD (i - 1) 0
      if 0 < i ∧ 0xD800 ≤ c1 ∧ c1 < 0xDC00 then
        (c1 - 0xD800) * 0x400 + (c - 0xDC00) + 0x10000
      else c
    else c
  else 0xFFFF

/-- The expression `new ShapedText(text, start, limit, bidiLevel, script, font, style)`. -/
def ShapedText.create (env : Env) (text : List Nat) (start limit : Int) (bidiLevel : Nat)
    (script : Script) (font : Font) (style : Style) : ShapedText :=
  let sh := env.shape text start limit bidiLevel script font style
  { start := start, limit := limit, bidiLevel := bidiLevel, script := script, font := font,
    style := style, glyphs := sh.glyphs, ascender := sh.ascender,
    descender := sh.descender }

/-- The local variables of the loop of `Paragraph::ShapeSpan` and the result vector. -/
structure ShapeState where
  pos : Int
  last : Int
  lastFont : Option Font
  lastScript : Script
  result : List ShapedText
deriving DecidableEq, Repr, Inhabited

/-- One round of the `while (pos < limit)` loop of `Paragraph::ShapeSpan`. -/
def ShapeSpanStep (env : Env) (text : List Nat) (bidiLevel : Nat) (fonts : FontCollection)
    (style : Style) (st : ShapeState) : ShapeState :=
  let curChar := char32At text st.pos
  let curScript0 := env.script curChar
  let curScript :=
    if curScript0 = HB_SCRIPT_COMMON ∨ curScript0 = HB_SCRIPT_INHERITED then st.lastScript
    else curScript0
  let curFont := fonts.FindFont curChar style st.lastFont
  let st1 : ShapeState :=
    if curFont ≠ st.lastFont ∨ curScript ≠ st.lastScript then
      { st with
        result :=
          match st.lastFont with
          | some f =>
            if st.last < st.pos then
              st.result ++
                [ShapedText.create env text st.last st.pos bidiLevel st.lastScript f style]
            else st.result
          | none => st.result
        lastFont := curFont
        lastScript := curScript
        last := st.pos }
    else st
  { st1 with pos := if curChar > 0xFFFF then st.pos + 1 + 1 else st.pos + 1 }

/-- The `while (pos < limit)` loop of `Paragraph::ShapeSpan`, run for at most `n` rounds. -/
def ShapeSpanLoop (env : Env) (text : List Nat) (limit : Int) (bidiLevel : Nat)
    (fonts : FontCollection) (style : Style) : Nat → ShapeState → ShapeState
  | 0, st => st
  | n + 1, st =>
    if st.pos < limit then
      ShapeSpanLoop env text limit bidiLevel fonts style n
        (ShapeSpanStep env text bidiLevel fonts style st)
    else st

/-- The method `Paragraph::ShapeSpan`; `result` is the vector behind the pointer and the
value returned is that vector after the call. `pos` grows in every round, so
`limit - start` rounds suffice. -/
def ShapeSpan (env : Env) (text : List Nat) (start limit : Int) (bidiLevel : Nat)
    (fonts : Option FontCollection) (style : Option Style)
    (result : Option (List ShapedText)) : Option (List ShapedText) :=
  match fonts, style, result with
  | some fonts, some style, some res =>
    if start ≥ limit then some res
    else
      let st := ShapeSpanLoop env text limit bidiLevel fonts style (limit - start).toNat
        { pos := start, last := start, lastFont := none, lastScript := HB_SCRIPT_INVALID,
          result := res }
      match st.lastFont with
      | some f =>
        if st.last < limit then
          some (st.result ++
            [ShapedText.create env text st.last limit bidiLevel st.lastScript f style])
        else some st.result
      | none => some st.result
  | _, _, _ => result

namespace Paragraph

/-- The `while` loop of `Paragraph::ShapeBidiRun`, over the spans from `spanIndex` on. -/
def ShapeBidiRunLoop (env : Env) (limit : Int) (bidiLevel : Nat) :
    List Span → Int → Paragraph → Paragraph
  | [], _, p => p
  | span :: rest, spanStart, p =>
    if spanStart < limit then
      let spanLimit := min limit span.limit
      let p1 := { p with beforeRuns :=
        (ShapeSpan env p.text spanStart spanLimit bidiLevel p.beforeFonts span.style
          (some p.beforeRuns)).getD p.beforeRuns }
      let p2 := { p1 with afterRuns :=
        (ShapeSpan env p1.text spanStart spanLimit bidiLevel p1.afterFonts span.style
          (some p1.afterRuns)).getD p1.afterRuns }
      ShapeBidiRunLoop env limit bidiLevel rest span.limit p2
    else p

/-- The method `Paragraph::ShapeBidiRun`. Its local `spanIndexLimit` is computed and never
read, so it is left out. -/
def ShapeBidiRun (env : Env) (p : Paragraph) (start limit : Int) (bidiLevel : Nat) :
    Paragraph :=
  let limit := min limit p.length
  if start ≥ limit then p
  else
    let spanIndex := if start > 0 then FindSpan p.spans start else 0
    let spanStart := max (if spanIndex > 0 then limitAt p.spans (spanIndex - 1) else 0) start
    ShapeBidiRunLoop env limit bidiLevel (p.spans.drop spanIndex) spanStart p

/-- The value `BreakIterator::DONE`. -/
def DONE : Int := -1

/-- The method `Paragraph::FindPotentialLineBreaks(start, limit, language, breaks)`;
`breaks` is the vector behind the pointer and the value returned is that vector after the
call. `following(offset)` moves to the first reported boundary above `offset`, `next()`
to the one reported after it. -/
def FindPotentialLineBreaksIn (env : Env) (p : Paragraph) (start limit : Int)
    (language : Option Language) (breaks : Option (List Int)) : Option (List Int) :=
  match language, breaks with
  | some language, some bs =>
    if start ≥ limit then some bs
    else
      match env.GetLineBreaker language with
      | some breaker =>
        let offset := if start > 0 then start - 1 else 0
        let fromCur := (breaker p.text).dropWhile (fun b => decide (b ≤ offset))
        some (bs ++ fromCur.takeWhile (fun cur => decide (cur ≠ DONE) && decide (cur < limit)))
      | none => some bs
  | _, _ => breaks

/-- The `for` loop of `Paragraph::FindPotentialLineBreaks(breaks)` over the spans, on the
state `(curLang, runStart, curLangStart, breaks)`. The result is `none` when a span has a
null style, which the loop dereferences. -/
def FindPotentialLineBreaksLoop (env : Env) (p : Paragraph) :
    List Span → Option Language → Int → Int → List Int →
      Option (Option Language × Int × Int × List Int)
  | [], curLang, runStart, curLangStart, breaks =>
    some (curLang, runStart, curLangStart, breaks)
  | span :: rest, curLang, runStart, curLangStart, breaks =>
    match span.style with
    | none => none
    | some style =>
      let spanLang := style.language
      if spanLang ≠ curLang then
        let breaks1 := (FindPotentialLineBreaksIn env p curLangStart runStart curLang
          (some breaks)).getD breaks
        FindPotentialLineBreaksLoop env p rest spanLang span.limit runStart breaks1
      else
        FindPotentialLineBreaksLoop env p rest curLang span.limit curLangStart breaks

/-- The method `Paragraph::FindPotentialLineBreaks(breaks)`, called on an empty vector. -/
def FindPotentialLineBreaks (env : Env) (p : Paragraph) : Option (List Int) :=
  match FindPotentialLineBreaksLoop env p p.spans none 0 0 [] with
  | some (curLang, _, curLangStart, breaks) =>
    some ((FindPotentialLineBreaksIn env p curLangStart p.length curLang
      (some breaks)).getD breaks)
  | none => none

/-- The three output arguments of `Paragraph::MeasureText`. -/
structure Measure where
  xAdvance : Int
  ascender : Int
  descender : Int
deriving DecidableEq, Repr, Inhabited

/-- The run sequence `before ? beforeRuns_ : afterRuns_`. -/
def runsOf (p : Paragraph) (before : Bool) : List ShapedText :=
  if before then p.beforeRuns else p.afterRuns

/-- The method `Paragraph::MeasureText`. -/
def MeasureText (p : Paragraph) (before : Bool) (start limit : Int) : Measure :=
  (p.runsOf before).foldl
    (fun m run =>
      { xAdvance := wrapLong (m.xAdvance + run.GetXAdvance start limit)
        ascender := max m.ascender run.GetAscender
        descender := min m.descender run.GetDescender })
    { xAdvance := 0, ascender := 0, descender := 0 }

/-- The value `lineWidth` that `Layout` compares with `width` for a candidate line. -/
def lineWidth (p : Paragraph) (start limit : Int) : Int :=
  max (p.MeasureText true start limit).xAdvance (p.MeasureText false start limit).xAdvance

/-- The method `Paragraph::AddRunsToLine`. -/
def AddRunsToLine (p : Paragraph) (before : Bool) (start limit : Int) (line : Line) : Line :=
  (p.runsOf before).foldl
    (fun l run => if run.IsCovering start limit then l.AddShapedText run start limit else l)
    line

/-- The loop of `Paragraph::AddLine` over the visual runs of the line: the before-line and
the after-line it builds. -/
def buildLines (env : Env) (p : Paragraph) (width start limit : Int) : Line × Line :=
  (env.visualRuns p.text start limit).foldl
    (fun ls r =>
      (p.AddRunsToLine true (start + r.1) (start + r.1 + r.2) ls.1,
       p.AddRunsToLine false (start + r.1) (start + r.1 + r.2) ls.2))
    (Line.new width, Line.new width)

/-- The loop of `Paragraph::AddLine` over `removals`. -/
def markRemovals (beforeLine : Line) (removals : List DeltaRange) : Line :=
  removals.foldl (fun l range => l.AddHighlight range.x range.width 0xe5e5e5) beforeLine

/-- The method `Paragraph::AddLine`, as a function of the job. `paraBidi` and `lineBidi`
are the two handles, `none` for `NULL`. -/
def AddLine (env : Env) (p : Paragraph) (job : DiffJob) (paraBidi lineBidi : Option Unit)
    (width start limit : Int) : DiffJob :=
  if paraBidi.isNone || lineBidi.isNone || decide (start ≥ limit) then job
  else
    let numRuns := (env.visualRuns p.text start limit).length
    let lines := p.buildLines env width start limit
    if numRuns > 0 then
      let deltas := env.FindDeltas lines.1 lines.2
      let hasDeltas := deltas.1
      let removals := deltas.2.1
      let height0 := lines.2.GetHeight
      let job1 := if hasDeltas then job.SetHasDiffs else job
      let height := if hasDeltas then wrapLong (height0 + lines.1.GetHeight) else height0
      let beforeLine := if hasDeltas then markRemovals lines.1 removals else lines.1
      let job2 :=
        if wrapLong (job1.GetCurrentPage.GetY + height) ≥
            wrapLong (env.pageHeight - env.marginWidth) then
          job1.AddPage env
        else job1
      let job3 :=
        if hasDeltas then
          { job2 with current :=
              job2.current.AddLine beforeLine env.marginWidth job2.current.GetY }
        else job2
      { job3 with current :=
          job3.current.AddLine lines.2 env.marginWidth job3.current.GetY }
    else job

/-- The loop of `Paragraph::Layout` over the bidi logical runs, on the state
`(start, limit, bidiLevel)`, run for at most `n` rounds; `none` when the engine has not
ended the walk by then. -/
def ShapeLogicalRuns (env : Env) : Nat → Paragraph → Int → Int → Nat → Option Paragraph
  | 0, _, _, _, _ => none
  | n + 1, p, start, limit, bidiLevel =>
    let r := (env.getLogicalRun p.text start).getD (limit, bidiLevel)
    if r.1 ≤ start then some p
    else ShapeLogicalRuns env n (p.ShapeBidiRun env start r.1 r.2) r.1 r.1 r.2

/-- The loop of `Paragraph::Layout` over the potential line breaks, on the state
`(lineStart, lastBreakPos, lineBreaks)`. -/
def LineBreakLoop (p : Paragraph) (width : Int) :
    List Int → Int → Int → List Int → Int × Int × List Int
  | [], lineStart, lastBreakPos, lineBreaks => (lineStart, lastBreakPos, lineBreaks)
  | breakPos :: rest, lineStart, lastBreakPos, lineBreaks =>
    if p.lineWidth lineStart breakPos > width then
      LineBreakLoop p width rest lastBreakPos breakPos
        (if lastBreakPos > 0 then lineBreaks ++ [lastBreakPos] else lineBreaks)
    else
      LineBreakLoop p width rest lineStart breakPos lineBreaks

/-- The vector `lineBreaks` of `Paragraph::Layout` after `push_back(text_.length())`. -/
def LineBreaks (p : Paragraph) (width : Int) (potentialLineBreaks : List Int) : List Int :=
  (LineBreakLoop p width potentialLineBreaks 0 0 []).2.2 ++ [p.length]

/-- The loop of `Paragraph::Layout` over `lineBreaks`: the `(start, pos)` arguments of its
`AddLine` calls so far and the value of `start` when it ends. -/
def LineRangeLoop (length : Int) : List Int → Int → List (Int × Int) → Int × List (Int × Int)
  | [], start, calls => (start, calls)
  | pos :: rest, start, calls =>
    if pos ≥ length then (start, calls)
    else LineRangeLoop length rest pos (calls ++ [(start, pos)])

/-- The `(start, limit)` arguments of all `AddLine` calls of `Paragraph::Layout`, in
order, the call after the loop included. -/
def LineRanges (length : Int) (lineBreaks : List Int) : List (Int × Int) :=
  let r := LineRangeLoop length lineBreaks 0 []
  r.2 ++ [(r.1, length)]

/-- The `AddLine` calls of `Paragraph::Layout` for given potential line breaks. -/
def LayoutRanges (p : Paragraph) (width : Int) (potentialLineBreaks : List Int) :
    List (Int × Int) :=
  LineRanges p.length (p.LineBreaks width potentialLineBreaks)

/-- Runs `AddLine` on each range, first to last. -/
def AddLines (env : Env) (p : Paragraph) (job : DiffJob) (width : Int)
    (ranges : List (Int × Int)) : DiffJob :=
  ranges.foldl (fun j r => p.AddLine env j (some ()) (some ()) width r.1 r.2) job

/-- The shaping phase of `Paragraph::Layout`: `start = 0`, `limit = 1`, `bidiLevel = 0`.
A bidi engine whose runs are non-empty ends the walk within `length + 2` rounds. -/
def ShapeParagraph (env : Env) (p : Paragraph) : Option Paragraph :=
  ShapeLogicalRuns env (p.text.length + 2) p 0 1 0

/-- The method `Paragraph::Layout`, with both bidi handles opened successfully: the
paragraph and the job after the call. -/
def Layout (env : Env) (p : Paragraph) (job : DiffJob) (width : Int) :
    Option (Paragraph × DiffJob) :=
  match ShapeParagraph env p with
  | none => none
  | some p1 =>
    match p1.FindPotentialLineBreaks env with
    | none => none
    | some potentialLineBreaks =>
      some (p1, p1.AddLines env job width (p1.LayoutRanges width potentialLineBreaks))

end Paragraph

/-! ## A sample environment and sample paragraphs -/

/-- The HarfBuzz tag `Latn`. -/
def HB_SCRIPT_LATIN : Script := 0x4C61746E

/-- The offsets `first, first + 1, ...` of `units`, each with the advance `adv`. -/
def sampleGlyphs (adv : Int) : List Nat → Int → List Glyph
  | [], _ => []
  | _ :: rest, first => { cluster := first, xAdvance := adv } :: sampleGlyphs adv rest (first + 1)

/-- The line boundaries of a sample text: after every space that a non-space follows. -/
def sampleBoundaries : List Nat → Int → List Int
  | [], _ => []
  | [_], _ => []
  | c :: d :: rest, i =>
    if c = 32 ∧ d ≠ 32 then (i + 1) :: sampleBoundaries (d :: rest) (i + 1)
    else sampleBoundaries (d :: rest) (i + 1)

/-- A sample set of collaborators for left-to-right ASCII text: one glyph of advance 10
per code unit, one logical and one visual run, breaks after spaces and at the text end,
and a differ that reports the whole of both lines when they are not equal. -/
def sampleEnv : Env :=
  { fromUTF8 := fun bytes => bytes.map (fun b => if b < 128 then b else 0xFFFD)
    script := fun c => if c = 32 then HB_SCRIPT_COMMON else HB_SCRIPT_LATIN
    shape := fun text start limit _ _ font _ =>
      { glyphs := sampleGlyphs (10 * ((font : Int) + 1))
          ((text.drop start.toNat).take (limit - start).toNat) start
        ascender := 8, descender := -2 }
    getLogicalRun := fun text start =>
      if 0 ≤ start ∧ start < (text.length : Int) then some ((text.length : Int), 0) else none
    visualRuns := fun _ start limit => [(0, limit - start)]
    GetLineBreaker := fun _ => some (fun text => sampleBoundaries text 0 ++ [(text.length : Int)])
    FindDeltas := fun before after =>
      if before = after then (false, [], [])
      else (true, [{ x := 0, width := before.xAdvance }], [{ x := 0, width := after.xAdvance }])
    pageHeight := 1000
    marginWidth := 20 }

/-- A font collection that answers every code point with the one font `f`. -/
def singleFont (f : Font) : FontCollection :=
  { FindFont := fun _ _ _ => some f }

/-- A sample style with language `0`. -/
def sampleStyle : Style := { id := 0, language := some 0 }

/-- The job before any line is placed. -/
def emptyJob : DiffJob :=
  { hasDiffs := false, finished := [], current := { lines := [], y := 20 } }

/-- The bytes of `Hello world`. -/
def helloWorld : List Nat := [72, 101, 108, 108, 111, 32, 119, 111, 114, 108, 100]

/-- The paragraph `Hello world` in one span, with the same font before and after. -/
def helloParagraph : Paragraph :=
  (Paragraph.new (some (singleFont 0)) (some (singleFont 0))).AppendSpan sampleEnv helloWorld
    (some sampleStyle)

/-- The paragraph `Hello`, with font `0` before and font `1` after. -/
def changedParagraph : Paragraph :=
  (Paragraph.new (some (singleFont 0)) (some (singleFont 1))).AppendSpan sampleEnv
    [72, 101, 108, 108, 111] (some sampleStyle)

/-- The lines on the pages of the job that `Layout` returns; no line when it does not
return. -/
def layoutLines (env : Env) (p : Paragraph) (job : DiffJob) (width : Int) : List Line :=
  match p.Layout env job width with
  | some r => r.2.placedLines
  | none => []

/-- A highlight lies inside the horizontal extent `[0, width)` of its line. -/
def Highlight.Contained (h : Highlight) (line : Line) : Prop :=
  0 ≤ h.x ∧ h.x + h.width ≤ line.GetWidth

instance (h : Highlight) (line : Line) : Decidable (h.Contained line) := by
  unfold Highlight.Contained; infer_instance

/-- A delta range lies inside `[0, width)`. -/
def DeltaRange.Within (r : DeltaRange) (width : Int) : Prop :=
  0 ≤ r.x ∧ r.x + r.width ≤ width

instance (r : DeltaRange) (width : Int) : Decidable (r.Within width) := by
  unfold DeltaRange.Within; infer_instance

/-- A text of 23 code units with a space before the offsets 6, 11 and 20. -/
def scenarioText : List Nat :=
  [72, 101, 108, 108, 111, 32, 119, 111, 114, 108, 32,
   97, 98, 99, 100, 101, 102, 103, 104, 32, 120, 121, 122]

/-- The paragraph of `scenarioText` in one span, shaped as one bidi run `[0, 23)` with
the same font before and after. -/
def scenarioParagraph : Paragraph :=
  ((Paragraph.new (some (singleFont 0)) (some (singleFont 0))).AppendSpan sampleEnv
    scenarioText (some sampleStyle)).ShapeBidiRun sampleEnv 0 23 0

/-- Three spans with the limits 3, 3 and 7. -/
def sampleSpans : List Span :=
  [{ limit := 3, style := some sampleStyle }, { limit := 3, style := none },
   { limit := 7, style := some sampleStyle }]

/-- The contract of the bidi engine for `ubidi_getLogicalRun` on a text: at a start offset
inside the text it yields a run that ends after the offset and inside the text; at any
other offset it leaves its output arguments untouched. -/
def BidiContract (env : Env) (text : List Nat) : Prop :=
  ∀ start : Int,
    match env.getLogicalRun text start with
    | some r => 0 ≤ start ∧ start < r.1 ∧ r.1 ≤ (text.length : Int)
    | none => ¬ (0 ≤ start ∧ start < (text.length : Int))

/-- The two guards of `AddLine` for the range `r`: the range is not empty and the bidi
engine reports at least one visual run for it. -/
def Paragraph.emits (env : Env) (p : Paragraph) (r : Int × Int) : Bool :=
  decide (r.1 < r.2) && !(env.visualRuns p.text r.1 r.2).isEmpty

/-- A font collection with font `0` for every code point except the space, for which it
has none. -/
def gappyFont : FontCollection :=
  { FindFont := fun c _ _ => if c = 32 then none else some 0 }

/-- The paragraph `Hello` with font `0` before and font `1` after, shaped: one run of
advance 50 before and one of advance 100 after. -/
def changedShaped : Paragraph :=
  changedParagraph.ShapeBidiRun sampleEnv 0 5 0

/-- A job whose current page has its cursor at 975, five units above the line at which
`AddLine` turns the page. -/
def fullJob : DiffJob :=
  { hasDiffs := false, finished := [], current := { lines := [], y := 975 } }

/-- The run that the sample shaping engine makes of `[start, limit)` of `Hello world` with
font `0`. -/
def helloRun (start limit : Int) : ShapedText :=
  ShapedText.create sampleEnv helloWorld start limit 0 HB_SCRIPT_LATIN 0 sampleStyle

/-- Calls on a line for the range `[2, 9)` of `Hello world`: the run of `Hello `, a
highlight, and the run of `world`. Both runs reach beyond the range. -/
def sampleOps : List LineOp :=
  [.addShapedText (helloRun 0 6) 2 9, .addHighlight 0 10 0xe5e5e5,
   .addShapedText (helloRun 6 11) 2 9]

/-- A sample style without a language. -/
def plainStyle : Style := { id := 1, language := none }

/-- The paragraph `ab cd ef gh` in two spans: `ab cd ` with language `0` and `ef gh`
without a language. -/
def mixedParagraph : Paragraph :=
  (Paragraph.new (some (singleFont 0)) (some (singleFont 0))).AppendSpans sampleEnv
    [([97, 98, 32, 99, 100, 32], some sampleStyle), ([101, 102, 32, 103, 104], some plainStyle)]

/-- A font collection with two fonts for every code point that keeps to its hint: it
answers with the hinted font when there is one and with font `0` otherwise. -/
def stickyFont : FontCollection :=
  { FindFont := fun _ _ hint => some (hint.getD 0) }

/-- A font collection whose answer depends on the style: with style `0` it has font `0`
for every code point except `c`, with any other style it has font `1` for `c` alone. -/
def styleFont : FontCollection :=
  { FindFont := fun c sty _ =>
      if sty.id = 0 then (if c = 99 then none else some 0)
      else (if c = 99 then some 1 else none) }

/-- The paragraph ` abc` in two spans: ` ab` with the sample style and `c` with the style
without a language, both run sequences with the font collection `styleFont`. -/
def styledParagraph : Paragraph :=
  (Paragraph.new (some styleFont) (some styleFont)).AppendSpans sampleEnv
    [([32, 97, 98], some sampleStyle), ([99], some plainStyle)]

/-! ## Notions used in the statements about spans, breaks and lines -/

/-- The contract of the decoder `fromUTF8` that the text normalisation relies on: a line
feed or carriage return comes out only where the byte `0x0A` or `0x0D` went in. -/
def Utf8Contract (env : Env) : Prop :=
  ∀ bytes : List Nat,
    (10 ∉ bytes → 10 ∉ env.fromUTF8 bytes) ∧ (13 ∉ bytes → 13 ∉ env.fromUTF8 bytes)

/-- The span facts that hold of every paragraph: the limits do not decrease, none is
negative, and the last one is the text length. -/
def Paragraph.SpansOk (p : Paragraph) : Prop :=
  NonDecreasingLimits p.spans ∧ (∀ s ∈ p.spans, 0 ≤ s.limit) ∧ lastLimit p.spans = p.length

/-- The ranges `(start, c1), (c1, c2), ...` between consecutive offsets: the first starts
at `start` and each one starts where the one before ended. -/
def consecutiveRanges : Int → List Int → List (Int × Int)
  | _, [] => []
  | start, pos :: rest => (start, pos) :: consecutiveRanges pos rest

/-- The last of the offsets `start, c1, c2, ...`. -/
def endOf : Int → List Int → Int
  | start, [] => start
  | _, pos :: rest => endOf pos rest

/-- No potential break lies strictly between `a` and `b`. -/
def NoBreakBetween (breaks : List Int) (a b : Int) : Prop :=
  ∀ c ∈ breaks, ¬ (a < c ∧ c < b)

/-! ## Notions used in the statements about shaping -/

/-- A lead (high) surrogate code unit. -/
def IsLead (c : Nat) : Prop := 0xD800 ≤ c ∧ c < 0xDC00

/-- A trail (low) surrogate code unit. -/
def IsTrail (c : Nat) : Prop := 0xDC00 ≤ c ∧ c < 0xE000

instance (c : Nat) : Decidable (IsLead c) := by unfold IsLead; infer_instance

instance (c : Nat) : Decidable (IsTrail c) := by unfold IsTrail; infer_instance

/-- Well-formed UTF-16: every code unit is below `0x10000`, every lead surrogate is
followed by a trail surrogate and every trail surrogate follows a lead surrogate. -/
def WellFormedUtf16 (text : List Nat) : Prop :=
  ∀ i, i < text.length →
    text.getD i 0 < 0x10000 ∧
    (IsLead (text.getD i 0) → i + 1 < text.length ∧ IsTrail (text.getD (i + 1) 0)) ∧
    (IsTrail (text.getD i 0) → 0 < i ∧ IsLead (text.getD (i - 1) 0))

instance (text : List Nat) : Decidable (WellFormedUtf16 text) := by
  unfold WellFormedUtf16; infer_instance

/-- The offset `pos` lies between the two code units of a surrogate pair. -/
def InsidePair (text : List Nat) (pos : Int) : Prop :=
  0 < pos ∧ pos < (text.length : Int) ∧ IsLead (text.getD (pos.toNat - 1) 0) ∧
    IsTrail (text.getD pos.toNat 0)

instance (text : List Nat) (pos : Int) : Decidable (InsidePair text pos) := by
  unfold InsidePair; infer_instance

/-- The offset `pos` is a code-point boundary of the text. -/
def CodePointBoundary (text : List Nat) (pos : Int) : Prop := ¬ InsidePair text pos

instance (text : List Nat) (pos : Int) : Decidable (CodePointBoundary text pos) := by
  unfold CodePointBoundary; infer_instance

/-- The value of `curFont` in the round of the loop of `ShapeSpan` that starts in `st`. -/
def scanFont (text : List Nat) (fonts : FontCollection) (style : Style) (st : ShapeState) :
    Option Font :=
  fonts.FindFont (char32At text st.pos) style st.lastFont

/-- The value of `curScript`, after Common and Inherited have taken the previous script,
in the round of the loop of `ShapeSpan` that starts in `st`. -/
def scanScript (env : Env) (text : List Nat) (st : ShapeState) : Script :=
  if env.script (char32At text st.pos) = HB_SCRIPT_COMMON ∨
      env.script (char32At text st.pos) = HB_SCRIPT_INHERITED then st.lastScript
  else env.script (char32At text st.pos)

/-- The states in which the rounds of the loop of `ShapeSpan` start, first to last. -/
def ShapeSpanScan (env : Env) (text : List Nat) (limit : Int) (bidiLevel : Nat)
    (fonts : FontCollection) (style : Style) : Nat → ShapeState → List ShapeState
  | 0, _ => []
  | n + 1, st =>
    if st.pos < limit then
      st :: ShapeSpanScan env text limit bidiLevel fonts style n
        (ShapeSpanStep env text bidiLevel fonts style st)
    else []

/-- The state in which the loop of `ShapeSpan` starts. -/
def ShapeState.initial (start : Int) (result : List ShapedText) : ShapeState :=
  { pos := start, last := start, lastFont := none, lastScript := HB_SCRIPT_INVALID,
    result := result }

/-- The runs lie one after the other between `a` and `b`, none of them empty: `a` is
related by `R` to the first start, each limit to the next start, and the last limit to
`b`. With `R` the order `≤` the runs are ordered and do not overlap; with `R` the equality
they cover `[a, b)` without a gap. -/
def RunsBetween (R : Int → Int → Prop) : List ShapedText → Int → Int → Prop
  | [], a, b => R a b
  | r :: rest, a, b => R a r.start ∧ r.start < r.limit ∧ RunsBetween R rest r.limit b

/-- The end of `ShapeSpan` after its loop: the result vector with the segment that is
still open in `st` emitted, when it has a font and is not empty. -/
def closeSegment (env : Env) (text : List Nat) (limit : Int) (bidiLevel : Nat)
    (style : Style) (st : ShapeState) : List ShapedText :=
  match st.lastFont with
  | some f =>
    if st.last < limit then
      st.result ++ [ShapedText.create env text st.last limit bidiLevel st.lastScript f style]
    else st.result
  | none => st.result

/-- The font resolver returns a font for the code point at every offset of `[s, l)`,
whatever the hint. -/
def Renderable (text : List Nat) (fonts : FontCollection) (style : Style) (s l : Int) :
    Prop :=
  ∀ (pos : Int) (hint : Option Font), s ≤ pos → pos < l →
    fonts.FindFont (char32At text pos) style hint ≠ none

instance (p : Paragraph) : Decidable p.SpansOk := by
  unfold Paragraph.SpansOk; infer_instance

/-- The runs are ordered by text offset: each is not empty and lies inside `[0, length)`,
and each ends before, or where, the next one starts. -/
def OrderedRuns (runs : List ShapedText) (length : Int) : Prop :=
  (∀ r ∈ runs, 0 ≤ r.start ∧ r.start < r.limit ∧ r.limit ≤ length) ∧
    List.Chain' (fun r r' => r.limit ≤ r'.start) runs

/-- The runs cover `[0, length)` without a gap: the first starts at `0`, each starts where
the one before ended, and the last ends at `length`. -/
def CoveringRuns (runs : List ShapedText) (length : Int) : Prop :=
  List.Chain' (fun r r' => r.limit = r'.start) runs ∧
    (∀ r, runs.head? = some r → r.start = 0) ∧
    (∀ r, runs.getLast? = some r → r.limit = length) ∧
    (0 < length → runs ≠ [])

/-- The code units of `a`, `U+1F600` (a surrogate pair) and `b`. -/
def pairText : List Nat := [97, 0xD83D, 0xDE00, 98]

/-! ## Notions used in the statements about potential line breaks -/

/-- The language of span `i`: `spans_[i].style->GetLanguage()`. -/
def langAt (spans : List Span) (i : Nat) : Option Language :=
  (spans.getD i default).style.bind Style.language

/-- The spans `i, ..., j` form a maximal same-language stretch of language `lang`: they
all have that language, and the span before `i` and the span after `j`, where there is
one, have another. Its text range is `[prevLimit spans i, limitAt spans j)`. -/
def IsStretch (spans : List Span) (i j : Nat) (lang : Option Language) : Prop :=
  i ≤ j ∧ j < spans.length ∧ (∀ k, i ≤ k → k ≤ j → langAt spans k = lang) ∧
    (i = 0 ∨ langAt spans (i - 1) ≠ lang) ∧
    (j + 1 = spans.length ∨ langAt spans (j + 1) ≠ lang)

/-- The offset `b` is inside the text, lies in the range of a maximal same-language
stretch whose language is not null, and the line breaker of that language reports it. -/
def PotentialBreak (env : Env) (p : Paragraph) (b : Int) : Prop :=
  0 < b ∧ b < p.length ∧ ∃ i j language breaker,
    IsStretch p.spans i j (some language) ∧
    prevLimit p.spans i ≤ b ∧ b < limitAt p.spans j ∧
    env.GetLineBreaker language = some breaker ∧ b ∈ breaker p.text

/-- Every line breaker reports strictly increasing offsets on `text`. -/
def SortedBreakers (env : Env) (text : List Nat) : Prop :=
  ∀ language breaker, env.GetLineBreaker language = some breaker →
    (breaker text).Pairwise (fun a b => a < b)

/-- The language `lang` is not null and its line breaker reports `b` on `text`. -/
def Reported (env : Env) (text : List Nat) (lang : Option Language) (b : Int) : Prop :=
  ∃ language breaker, lang = some language ∧ env.GetLineBreaker language = some breaker ∧
    b ∈ breaker text

/-! ## Invariants used in the proofs -/

/-- The facts about the spans that every `AppendSpan` call keeps. -/
structure SpanInv (env : Env) (calls : List (List Nat × Option Style)) (q : Paragraph) :
    Prop where
  nondecreasing : NonDecreasingLimits q.spans
  bounded : ∀ a ∈ q.spans, a.limit ≤ q.length
  last : lastLimit q.spans = q.length
  reached : q.spans ≠ [] → ∃ a ∈ q.spans, a.limit = q.length
  count : q.spans.length = calls.length
  strict : StrictlyIncreasingLimits q.spans ↔
    ∀ c ∈ calls.tail, Paragraph.appended env c.1 ≠ []

/-- What the shaping phase keeps of a paragraph: text, spans and font collections, and
the equality of the two run sequences when the two font collections are equal. -/
structure Keeps (p q : Paragraph) : Prop where
  text : q.text = p.text
  spans : q.spans = p.spans
  beforeFonts : q.beforeFonts = p.beforeFonts
  afterFonts : q.afterFonts = p.afterFonts
  sameRuns : p.beforeFonts = p.afterFonts → p.beforeRuns = p.afterRuns →
    q.beforeRuns = q.afterRuns

/-- What the runs `new` satisfy that `ShapeBidiRun` appends to one run sequence while it
walks the spans from index `k` on, between the offsets `a` and `b`: they lie one after the
other from `a` on; each lies inside `[a, b)` and inside one span, whose style it
carries; and they cover `[a, b)` without a gap when the spans reach `b`, every span has a
style and the font resolver, asked with the style of a span, returns a font at every
offset of that span inside `[a, b)`. -/
structure RunsOfSpans (text : List Nat) (spans : List Span) (fonts : Option FontCollection)
    (k : Nat) (a b : Int) (new : List ShapedText) : Prop where
  ordered : ∃ c, RunsBetween (fun x y => x ≤ y) new a c
  inSpan : ∀ run ∈ new, a ≤ run.start ∧ run.start < run.limit ∧ run.limit ≤ b ∧
    ∃ i, k ≤ i ∧ i < spans.length ∧ prevLimit spans i ≤ run.start ∧
      run.limit ≤ limitAt spans i ∧ (spans.getD i default).style = some run.style
  covers : ∀ fc, fonts = some fc →
    (∀ i, k ≤ i → i < spans.length →
      ∃ sty, (spans.getD i default).style = some sty ∧
        Renderable text fc sty (max a (prevLimit spans i)) (min b (limitAt spans i))) →
    a ≤ b → b ≤ lastLimit spans → RunsBetween (fun x y => x = y) new a b

/-- What holds, in the state `st` of the loop of `ShapeSpan`, of the runs `new` emitted so
far and of the states `past` in which the earlier rounds started: every emitted run is not
empty, ends at or before the open segment, starts at a scanned position, and every
position scanned inside it got the run's font and script; the scanned positions lie
before the current one; every position scanned inside the open segment got the font and
script of the open segment. -/
structure ScanInv (env : Env) (text : List Nat) (fonts : FontCollection) (style : Style)
    (res : List ShapedText) (past : List ShapeState) (st : ShapeState)
    (new : List ShapedText) : Prop where
  result : st.result = res ++ new
  runs : ∀ run ∈ new, run.start < run.limit ∧ run.limit ≤ st.last ∧
    (∃ s ∈ past, s.pos = run.start) ∧
    ∀ s ∈ past, run.start ≤ s.pos → s.pos < run.limit →
      scanFont text fonts style s = some run.font ∧ scanScript env text s = run.script
  before : ∀ s ∈ past, s.pos < st.pos
  lastLe : st.last ≤ st.pos
  openSegment : ∀ s ∈ past, st.last ≤ s.pos →
    scanFont text fonts style s = st.lastFont ∧ scanScript env text s = st.lastScript
  opened : st.lastFont = none ∨ ∃ s ∈ past, s.pos = st.last

/-- What holds at the head of the loop of `FindPotentialLineBreaks(breaks)` before span
`k`: `runStart` is the start of span `k`; the current language stretch starts at
`curLangStart`, not after `runStart`; `breaks` is strictly increasing and holds exactly the
positive offsets below `curLangStart` that lie in a span whose language reports them; and
every span before `k` that reaches beyond `curLangStart` has the language `curLang`. -/
structure BreakInv (env : Env) (p : Paragraph) (k : Nat) (curLang : Option Language)
    (runStart curLangStart : Int) (breaks : List Int) : Prop where
  atStart : runStart = prevLimit p.spans k
  nonneg : 0 ≤ curLangStart
  notAfter : curLangStart ≤ runStart
  sorted : breaks.Pairwise (fun a b => a < b)
  mem : ∀ b, b ∈ breaks ↔ 0 < b ∧ b < curLangStart ∧ ∃ i, i < k ∧
    prevLimit p.spans i ≤ b ∧ b < limitAt p.spans i ∧
    Reported env p.text (langAt p.spans i) b
  pending : ∀ i, i < k → ∀ b, prevLimit p.spans i ≤ b → b < limitAt p.spans i →
    curLangStart ≤ b → langAt p.spans i = curLang

/-! ## Theorems -/

theorem limitAt_mono {spans : List Span} (hs : NonDecreasingLimits spans)
    {i j : Nat} (hij : i ≤ j) (hj : j < spans.length) :
    limitAt spans i ≤ limitAt spans j := by
  rcases Nat.eq_or_lt_of_le hij with h | h
  · subst h; exact le_refl _
  · have hi : i < spans.length := lt_trans h hj
    have hp := List.pairwise_iff_getElem.mp hs i j (by simpa using hi) (by simpa using hj) h
    simpa [limitAt, List.getD_eq_getElem?_getD, List.getElem?_eq_getElem hi,
      List.getElem?_eq_getElem hj] using hp

/-- The loop of `FindSpan` exits with its condition `lo < hi` false once it has run for
`hi - lo` rounds. -/
theorem FindSpanLoop_exit (spans : List Span) (pos : Int) :
    ∀ (n lo hi : Nat), hi - lo ≤ n →
      ¬ ((FindSpanLoop spans pos n lo hi).1 < (FindSpanLoop spans pos n lo hi).2) := by
  intro n
  induction n with
  | zero =>
    intro lo hi hn
    simp only [FindSpanLoop]
    omega
  | succ n ih =>
    intro lo hi hn
    simp only [FindSpanLoop]
    by_cases hlt : lo < hi
    · simp only [hlt, if_true]
      split
      · exact ih _ _ (by omega)
      · exact ih _ _ (by omega)
    · simp only [hlt, if_false]
      exact not_false

/-- The loop of `FindSpan` exits with its condition `lo < hi` false, the result is
between the initial bounds, and the two search invariants hold. -/
theorem FindSpanLoop_spec (spans : List Span) (pos : Int)
    (hs : NonDecreasingLimits spans) :
    ∀ (n lo hi : Nat), hi - lo ≤ n → lo ≤ hi → hi ≤ spans.length →
      (∀ j, j < lo → limitAt spans j ≤ pos) →
      (hi < spans.length → pos < limitAt spans hi) →
      let r := FindSpanLoop spans pos n lo hi
      r.1 = r.2 ∧ r.1 ≤ spans.length ∧
        (∀ j, j < r.1 → limitAt spans j ≤ pos) ∧
        (r.1 < spans.length → pos < limitAt spans r.1) := by
  intro n
  induction n with
  | zero =>
    intro lo hi hn hle hsz hlo hhi
    have : lo = hi := by omega
    subst this
    simp only [FindSpanLoop]
    exact ⟨trivial, hsz, hlo, hhi⟩
  | succ n ih =>
    intro lo hi hn hle hsz hlo hhi
    simp only [FindSpanLoop]
    by_cases hlt : lo < hi
    · simp only [hlt, if_true]
      have hmid1 : lo ≤ (lo + hi) / 2 := by omega
      have hmid2 : (lo + hi) / 2 < hi := by omega
      by_cases hc : pos < limitAt spans ((lo + hi) / 2)
      · simp only [hc, if_true]
        exact ih lo ((lo + hi) / 2) (by omega) hmid1 (by omega) hlo (fun _ => hc)
      · simp only [hc, if_false]
        refine ih ((lo + hi) / 2 + 1) hi (by omega) (by omega) hsz ?_ hhi
        intro j hj
        have h1 : limitAt spans j ≤ limitAt spans ((lo + hi) / 2) :=
          limitAt_mono hs (by omega) (by omega)
        exact le_trans h1 (not_lt.mp hc)
    · have : lo = hi := by omega
      subst this
      simp only [lt_irrefl, if_false]
      exact ⟨trivial, hsz, hlo, hhi⟩

/-- C1: on spans whose limits do not decrease, `FindSpan pos` is the least index `i`
with `pos < spans[i].limit`, and `spans.size()` when no span has a limit above `pos`;
for `0 ≤ pos < length` (the last limit) it is a valid index and the unique one with
`spans[i-1].limit ≤ pos < spans[i].limit`, reading `spans[-1].limit` as `0`. -/
theorem FindSpan_least_index (spans : List Span) (pos : Int)
    (hs : NonDecreasingLimits spans) :
    (FindSpan spans pos ≤ spans.length ∧
      (∀ j, j < FindSpan spans pos → limitAt spans j ≤ pos) ∧
      (FindSpan spans pos < spans.length → pos < limitAt spans (FindSpan spans pos)) ∧
      ((∀ j, j < spans.length → limitAt spans j ≤ pos) → FindSpan spans pos = spans.length)) ∧
    (0 ≤ pos → pos < lastLimit spans →
      FindSpan spans pos < spans.length ∧
      prevLimit spans (FindSpan spans pos) ≤ pos ∧
      pos < limitAt spans (FindSpan spans pos) ∧
      ∀ j, j < spans.length → prevLimit spans j ≤ pos → pos < limitAt spans j →
        j = FindSpan spans pos) := by
  have h := FindSpanLoop_spec spans pos hs spans.length 0 spans.length
    (by omega) (by omega) (le_refl _) (by intro j hj; omega) (by intro h; omega)
  simp only at h
  obtain ⟨_, hle, hlow, hup⟩ := h
  change FindSpan spans pos ≤ _ at hle
  change ∀ j, j < FindSpan spans pos → _ at hlow
  change FindSpan spans pos < _ → pos < limitAt spans (FindSpan spans pos) at hup
  refine ⟨⟨hle, hlow, hup, ?_⟩, ?_⟩
  · intro hall
    by_contra hne
    have hlt : FindSpan spans pos < spans.length := lt_of_le_of_ne hle hne
    have := hall _ hlt
    have := hup hlt
    omega
  · intro h0 hlast
    have hlt : FindSpan spans pos < spans.length := by
      by_contra hge
      have heq : FindSpan spans pos = spans.length := by omega
      have hpos : 0 < spans.length := by
        by_contra hz
        have hz0 : spans.length = 0 := by omega
        simp [lastLimit, prevLimit, hz0] at hlast
        omega
      have := hlow (spans.length - 1) (by omega)
      simp only [lastLimit, prevLimit, hpos, if_true] at hlast
      omega
    refine ⟨hlt, ?_, hup hlt, ?_⟩
    · unfold prevLimit
      split
      · exact hlow _ (by omega)
      · exact h0
    · intro j hj hprev hj2
      by_contra hne
      rcases Nat.lt_or_gt_of_ne hne with hjl | hjg
      · have := hlow j hjl
        omega
      · have h1 : limitAt spans (FindSpan spans pos) ≤ limitAt spans (j - 1) :=
          limitAt_mono hs (by omega) (by omega)
        have hj0 : 0 < j := by omega
        simp only [prevLimit, hj0, if_true] at hprev
        have := hup hlt
        omega

/-- A use of the binary search on the limits `[3, 3, 7]` at offset 4. -/
theorem FindSpan_least_index_witness :
    NonDecreasingLimits sampleSpans ∧ (0 : Int) ≤ 4 ∧ 4 < lastLimit sampleSpans ∧
    FindSpan sampleSpans 4 < sampleSpans.length ∧
    prevLimit sampleSpans (FindSpan sampleSpans 4) ≤ 4 ∧
    4 < limitAt sampleSpans (FindSpan sampleSpans 4) :=
  ⟨by decide, by decide, by decide,
    ((FindSpan_least_index sampleSpans 4 (by decide)).2 (by decide) (by decide)).1,
    ((FindSpan_least_index sampleSpans 4 (by decide)).2 (by decide) (by decide)).2.1,
    ((FindSpan_least_index sampleSpans 4 (by decide)).2 (by decide) (by decide)).2.2.1⟩

/-! ### Spans after `AppendSpan` -/

theorem AppendSpans_snoc (env : Env) (p : Paragraph) (calls : List (List Nat × Option Style))
    (c : List Nat × Option Style) :
    p.AppendSpans env (calls ++ [c]) = (p.AppendSpans env calls).AppendSpan env c.1 c.2 := by
  simp [Paragraph.AppendSpans, List.foldl_append]

theorem limitAt_snoc (spans : List Span) (x : Span) :
    limitAt (spans ++ [x]) spans.length = x.limit := by
  simp [limitAt, List.getD_eq_getElem?_getD]

theorem lastLimit_snoc (spans : List Span) (x : Span) :
    lastLimit (spans ++ [x]) = x.limit := by
  simp [lastLimit, prevLimit, limitAt_snoc]

theorem AppendSpans_inv (env : Env) (beforeFonts afterFonts : Option FontCollection)
    (calls : List (List Nat × Option Style)) :
    SpanInv env calls ((Paragraph.new beforeFonts afterFonts).AppendSpans env calls) := by
  induction calls using List.reverseRecOn with
  | nil =>
    refine ⟨?_, ?_, ?_, ?_, ?_, ?_⟩ <;>
      simp [Paragraph.AppendSpans, Paragraph.new, NonDecreasingLimits,
        StrictlyIncreasingLimits, lastLimit, prevLimit, Paragraph.length]
  | append_singleton calls c ih =>
    rw [AppendSpans_snoc]
    generalize (Paragraph.new beforeFonts afterFonts).AppendSpans env calls = q at ih
    obtain ⟨hnd, hb, hl, hr, hc, hs⟩ := ih
    have hlen : (q.AppendSpan env c.1 c.2).length =
        q.length + ((Paragraph.appended env c.1).length : Int) := by
      simp [Paragraph.AppendSpan, Paragraph.length]
    have hspans : (q.AppendSpan env c.1 c.2).spans =
        q.spans ++ [{ limit := (q.AppendSpan env c.1 c.2).length, style := c.2 }] := by
      simp [Paragraph.AppendSpan, Paragraph.length]
    have hk : (0 : Int) ≤ ((Paragraph.appended env c.1).length : Int) := Int.natCast_nonneg _
    refine ⟨?_, ?_, ?_, ?_, ?_, ?_⟩
    · rw [hspans]
      unfold NonDecreasingLimits at hnd ⊢
      rw [List.map_append, List.pairwise_append]
      refine ⟨hnd, by simp, ?_⟩
      intro a ha b hb'
      simp only [List.map_cons, List.map_nil, List.mem_singleton] at hb'
      obtain ⟨sp, hsp, rfl⟩ := List.mem_map.mp ha
      have := hb sp hsp
      omega
    · rw [hspans]
      intro a ha
      rcases List.mem_append.mp ha with h | h
      · have := hb a h
        omega
      · simp only [List.mem_singleton] at h
        subst h
        exact le_refl _
    · rw [hspans, lastLimit_snoc]
    · intro _
      rw [hspans]
      exact ⟨_, List.mem_append_right _ (List.mem_singleton_self _), rfl⟩
    · rw [hspans]
      simp [hc]
    · rw [hspans]
      unfold StrictlyIncreasingLimits at hs ⊢
      rw [List.map_append, List.pairwise_append]
      simp only [List.map_cons, List.map_nil, List.pairwise_singleton, true_and,
        List.mem_singleton, forall_eq, List.mem_map, forall_exists_index, and_imp,
        forall_apply_eq_imp_iff₂]
      cases calls with
      | nil =>
        have hq : q.spans = [] := List.length_eq_zero.mp (by simpa using hc)
        simp [hq]
      | cons c0 cs =>
        have hne : q.spans ≠ [] := by
          intro h
          rw [h] at hc
          simp at hc
        obtain ⟨a0, ha0, ha0l⟩ := hr hne
        simp only [List.cons_append, List.tail_cons, List.mem_append, List.mem_singleton]
          at hs ⊢
        constructor
        · rintro ⟨h1, h2⟩ c' hc'
          rcases hc' with hc' | rfl
          · exact (hs.mp h1) c' (by simpa using hc')
          · intro hnil
            have := h2 a0 ha0
            rw [hlen, hnil, ha0l] at this
            simp at this
        · intro h
          refine ⟨hs.mpr (fun c' hc' => h c' (Or.inl (by simpa using hc'))), ?_⟩
          intro a ha
          have h1 := hb a ha
          have h2 : Paragraph.appended env c.1 ≠ [] := h c (Or.inr rfl)
          have h3 : 0 < (Paragraph.appended env c.1).length := List.length_pos.mpr h2
          rw [hlen]
          omega

/-- C2, counterexample: a one-letter span followed by a span with empty text gives the
limits `[1, 1]`, which are not strictly increasing. -/
theorem AppendSpan_empty_text_not_strict :
    ¬ StrictlyIncreasingLimits
      ((Paragraph.new none none).AppendSpans sampleEnv
        [([97], some sampleStyle), ([], some sampleStyle)]).spans := by
  decide

/-- C2, amended: after every sequence of `AppendSpan` calls on a new paragraph the limits
of the spans do not decrease and the last one equals the text length (`0` and an empty
text when there is no span); they are strictly increasing exactly when every call after
the first appended at least one code unit. -/
theorem AppendSpans_limits (env : Env) (beforeFonts afterFonts : Option FontCollection)
    (calls : List (List Nat × Option Style)) :
    NonDecreasingLimits ((Paragraph.new beforeFonts afterFonts).AppendSpans env calls).spans ∧
    lastLimit ((Paragraph.new beforeFonts afterFonts).AppendSpans env calls).spans =
      ((Paragraph.new beforeFonts afterFonts).AppendSpans env calls).length ∧
    (StrictlyIncreasingLimits
        ((Paragraph.new beforeFonts afterFonts).AppendSpans env calls).spans ↔
      ∀ c ∈ calls.tail, Paragraph.appended env c.1 ≠ []) :=
  let h := AppendSpans_inv env beforeFonts afterFonts calls
  ⟨h.nondecreasing, h.last, h.strict⟩

/-- Two spans with non-empty texts: the limits `[1, 3]` are strictly increasing. -/
theorem AppendSpans_limits_witness :
    StrictlyIncreasingLimits
      ((Paragraph.new none none).AppendSpans sampleEnv
        [([97], some sampleStyle), ([98, 99], none)]).spans :=
  (AppendSpans_limits sampleEnv none none [([97], some sampleStyle), ([98, 99], none)]).2.2.mpr
    (by decide)

/-! ### Lines: advance, vertical bounds, highlights -/

theorem applyOps_snoc (l : Line) (ops : List LineOp) (op : LineOp) :
    applyOps l (ops ++ [op]) = LineOp.apply (applyOps l ops) op := by
  simp [applyOps, List.foldl_append]

/-- Wrapping leaves a value that fits a `signed long` as it is. -/
theorem wrapLong_of_isLong (x : Int) (h : IsLong x) : wrapLong x = x := by
  unfold IsLong at h
  unfold wrapLong
  omega

/-- A wrapped value fits a `signed long`. -/
theorem wrapLong_isLong (x : Int) : IsLong (wrapLong x) := by
  unfold IsLong wrapLong
  omega

/-- Wrapping after each addition gives the same as wrapping once at the end. -/
theorem wrapLong_add_left (a b : Int) : wrapLong (wrapLong a + b) = wrapLong (a + b) := by
  unfold wrapLong
  omega

/-- A run whose glyphs belong to its own range answers every range with its advance over
the clamped range. -/
theorem ClampStable_of_clusters (t : ShapedText) (h : t.ClustersInRange) (start limit : Int) :
    t.ClampStable start limit := by
  unfold ShapedText.ClampStable ShapedText.GetXAdvance ShapedText.GetStart
    ShapedText.GetLimit
  congr 2
  apply List.filter_congr
  intro g hg
  have hb := h g hg
  by_cases h1 : start ≤ g.cluster <;> by_cases h2 : g.cluster < limit <;>
    simp [h1, h2, hb.1, hb.2]

/-- The `xAdvance` of a new line after a sequence of calls: the sum of the advances that
the calls added, in `signed long` arithmetic. -/
theorem applyOps_xAdvance (width : Int) (ops : List LineOp) :
    (applyOps (Line.new width) ops).xAdvance = wrapLong ((ops.map LineOp.advance).sum) := by
  induction ops using List.reverseRecOn with
  | nil => simp [applyOps, Line.new, wrapLong]
  | append_singleton ops op ih =>
    rw [applyOps_snoc]
    cases op with
    | addShapedText text start limit =>
      simp only [LineOp.apply, Line.AddShapedText, List.map_append, List.sum_append,
        List.map_cons, List.map_nil, List.sum_cons, List.sum_nil, add_zero, LineOp.advance]
      rw [ih, wrapLong_add_left]
    | addHighlight x width color =>
      simpa [LineOp.apply, Line.AddHighlight, LineOp.advance] using ih

/-- When every run answers the arguments of its call with its advance over the clamped
range, the advances that the calls added are the advances of the recorded placements over
their recorded ranges. -/
theorem applyOps_advances (l : Line) (ops : List LineOp) (hst : ∀ op ∈ ops, op.Stable) :
    ((applyOps l ops).runs.map Run.advance).sum =
      (l.runs.map Run.advance).sum + (ops.map LineOp.advance).sum := by
  induction ops using List.reverseRecOn with
  | nil => simp [applyOps]
  | append_singleton ops op ih =>
    have ih1 := ih (fun o ho => hst o (List.mem_append_left _ ho))
    have hop : op.Stable := hst op (List.mem_append_right _ (List.mem_singleton_self op))
    rw [applyOps_snoc]
    cases op with
    | addShapedText text start limit =>
      have hcl : text.GetXAdvance (max start text.GetStart) (min limit text.GetLimit) =
          text.GetXAdvance start limit := hop.symm
      simp only [LineOp.apply, Line.AddShapedText, List.map_append, List.sum_append,
        List.map_cons, List.map_nil, List.sum_cons, List.sum_nil, add_zero, Run.advance,
        LineOp.advance]
      rw [hcl]
      simp only [Run.advance] at ih1
      rw [ih1]
      ring
    | addHighlight x width color =>
      simpa [LineOp.apply, Line.AddHighlight, LineOp.advance] using ih1

theorem applyOps_vertical (l : Line) (h : l.descender ≤ 0 ∧ 0 ≤ l.ascender)
    (ops : List LineOp) :
    (applyOps l ops).descender ≤ 0 ∧ 0 ≤ (applyOps l ops).ascender := by
  induction ops using List.reverseRecOn with
  | nil => simpa [applyOps] using h
  | append_singleton ops op ih =>
    rw [applyOps_snoc]
    cases op with
    | addShapedText text start limit =>
      simp only [LineOp.apply, Line.AddShapedText]
      exact ⟨le_trans (min_le_left _ _) ih.1, le_trans ih.2 (le_max_left _ _)⟩
    | addHighlight x width color =>
      simpa [LineOp.apply, Line.AddHighlight] using ih

/-- The metrics of a line stay below `2^62` in size when those of the runs added to it
do. -/
theorem applyOps_metrics (l : Line)
    (h : -4611686018427387904 ≤ l.descender ∧ l.ascender < 4611686018427387904)
    (ops : List LineOp) (hm : ∀ op ∈ ops, op.MetricsBounded) :
    -4611686018427387904 ≤ (applyOps l ops).descender ∧
      (applyOps l ops).ascender < 4611686018427387904 := by
  induction ops using List.reverseRecOn with
  | nil => simpa [applyOps] using h
  | append_singleton ops op ih =>
    have ih1 := ih (fun o ho => hm o (List.mem_append_left _ ho))
    have hop : op.MetricsBounded :=
      hm op (List.mem_append_right _ (List.mem_singleton_self op))
    rw [applyOps_snoc]
    cases op with
    | addShapedText text start limit =>
      have hb : -4611686018427387904 ≤ text.GetDescender ∧
          text.GetAscender < 4611686018427387904 := hop
      simp only [LineOp.apply, Line.AddShapedText]
      exact ⟨le_min ih1.1 hb.1, max_lt ih1.2 hb.2⟩
    | addHighlight x width color =>
      simpa [LineOp.apply, Line.AddHighlight] using ih1

/-- C9: after every sequence of `AddShapedText` and `AddHighlight` calls on a new line,
`ascender ≥ 0 ≥ descender`; one more `AddShapedText` does not lower the ascender or raise
the descender, and afterwards the ascender is at least the run's and the descender at
most the run's. `GetHeight` subtracts in `signed long` arithmetic: when the metrics of
the runs added are below `2^62` in size, it is `ascender - descender` and not
negative. -/
theorem Line_vertical_bounds (width : Int) (ops : List LineOp) (text : ShapedText)
    (start limit : Int) (hm : ∀ op ∈ ops, op.MetricsBounded) :
    (0 ≤ (applyOps (Line.new width) ops).ascender ∧
      (applyOps (Line.new width) ops).descender ≤ 0 ∧
      (applyOps (Line.new width) ops).GetHeight =
        (applyOps (Line.new width) ops).ascender -
          (applyOps (Line.new width) ops).descender ∧
      0 ≤ (applyOps (Line.new width) ops).GetHeight) ∧
    ((applyOps (Line.new width) ops).ascender ≤
        ((applyOps (Line.new width) ops).AddShapedText text start limit).ascender ∧
      ((applyOps (Line.new width) ops).AddShapedText text start limit).descender ≤
        (applyOps (Line.new width) ops).descender) ∧
    (text.GetAscender ≤
        ((applyOps (Line.new width) ops).AddShapedText text start limit).ascender ∧
      ((applyOps (Line.new width) ops).AddShapedText text start limit).descender ≤
        text.GetDescender) := by
  have h := applyOps_vertical (Line.new width) (by simp [Line.new]) ops
  have hb := applyOps_metrics (Line.new width) (by simp [Line.new]) ops hm
  have hh : (applyOps (Line.new width) ops).GetHeight =
      (applyOps (Line.new width) ops).ascender -
        (applyOps (Line.new width) ops).descender := by
    simp only [Line.GetHeight, Line.GetAscender, Line.GetDescender]
    apply wrapLong_of_isLong
    unfold IsLong
    omega
  refine ⟨⟨h.2, h.1, hh, ?_⟩, ⟨?_, ?_⟩, ⟨?_, ?_⟩⟩
  · rw [hh]
    omega
  · exact le_max_left _ _
  · exact min_le_left _ _
  · exact le_max_right _ _
  · exact min_le_right _ _

/-- The calls `sampleOps` on a new line: the runs have ascender 8 and descender -2, and the
line has height 10. -/
theorem Line_vertical_bounds_witness :
    (∀ op ∈ sampleOps, op.MetricsBounded) ∧
    ((applyOps (Line.new 200) sampleOps).ascender = 8 ∧
      (applyOps (Line.new 200) sampleOps).descender = -2) ∧
    (applyOps (Line.new 200) sampleOps).GetHeight =
      (applyOps (Line.new 200) sampleOps).ascender -
        (applyOps (Line.new 200) sampleOps).descender ∧
    0 ≤ (applyOps (Line.new 200) sampleOps).GetHeight :=
  ⟨by decide, ⟨by decide, by decide⟩,
    (Line_vertical_bounds 200 sampleOps (helloRun 6 11) 9 20 (by decide)).1.2.2⟩

theorem markRemovals_highlights (line : Line) (removals : List DeltaRange) :
    (Paragraph.markRemovals line removals).highlights =
      line.highlights ++
        removals.map (fun r => ({ x := r.x, width := r.width, color := 0xe5e5e5 } : Highlight)) ∧
    (Paragraph.markRemovals line removals).width = line.width := by
  unfold Paragraph.markRemovals
  induction removals generalizing line with
  | nil => simp
  | cons r rest ih =>
    simp only [List.foldl_cons, List.map_cons]
    obtain ⟨h1, h2⟩ := ih (line.AddHighlight r.x r.width 0xe5e5e5)
    rw [h1, h2]
    simp [Line.AddHighlight]

theorem AddRunsToLine_highlights (p : Paragraph) (before : Bool) (start limit : Int)
    (line : Line) :
    (p.AddRunsToLine before start limit line).highlights = line.highlights ∧
    (p.AddRunsToLine before start limit line).width = line.width := by
  unfold Paragraph.AddRunsToLine
  generalize p.runsOf before = runs
  induction runs generalizing line with
  | nil => simp
  | cons run rest ih =>
    simp only [List.foldl_cons]
    split
    · obtain ⟨h1, h2⟩ := ih (line.AddShapedText run start limit)
      rw [h1, h2]
      simp [Line.AddShapedText]
    · exact ih line

theorem buildLines_highlights (env : Env) (p : Paragraph) (width start limit : Int) :
    (p.buildLines env width start limit).1.highlights = [] ∧
    (p.buildLines env width start limit).1.width = width ∧
    (p.buildLines env width start limit).2.highlights = [] ∧
    (p.buildLines env width start limit).2.width = width := by
  unfold Paragraph.buildLines
  generalize env.visualRuns p.text start limit = vis
  have key : ∀ (ls : Line × Line), ls.1.highlights = [] ∧ ls.1.width = width ∧
      ls.2.highlights = [] ∧ ls.2.width = width →
      (vis.foldl (fun (ls : Line × Line) (r : Int × Int) =>
        (p.AddRunsToLine true (start + r.1) (start + r.1 + r.2) ls.1,
         p.AddRunsToLine false (start + r.1) (start + r.1 + r.2) ls.2)) ls).1.highlights = [] ∧
      (vis.foldl (fun (ls : Line × Line) (r : Int × Int) =>
        (p.AddRunsToLine true (start + r.1) (start + r.1 + r.2) ls.1,
         p.AddRunsToLine false (start + r.1) (start + r.1 + r.2) ls.2)) ls).1.width = width ∧
      (vis.foldl (fun (ls : Line × Line) (r : Int × Int) =>
        (p.AddRunsToLine true (start + r.1) (start + r.1 + r.2) ls.1,
         p.AddRunsToLine false (start + r.1) (start + r.1 + r.2) ls.2)) ls).2.highlights = [] ∧
      (vis.foldl (fun (ls : Line × Line) (r : Int × Int) =>
        (p.AddRunsToLine true (start + r.1) (start + r.1 + r.2) ls.1,
         p.AddRunsToLine false (start + r.1) (start + r.1 + r.2) ls.2)) ls).2.width = width := by
    induction vis with
    | nil => intro ls h; simpa using h
    | cons r rest ih =>
      intro ls h
      simp only [List.foldl_cons]
      apply ih
      obtain ⟨h1, h2, h3, h4⟩ := h
      have a := AddRunsToLine_highlights p true (start + r.1) (start + r.1 + r.2) ls.1
      have b := AddRunsToLine_highlights p false (start + r.1) (start + r.1 + r.2) ls.2
      exact ⟨a.1.trans h1, a.2.trans h2, b.1.trans h3, b.2.trans h4⟩
  exact key _ (by simp [Line.new])

/-- C10, counterexample: the paragraph `Hello` has no potential break, so at width 30 it
is laid out as one line of advance 50 before and 100 after; the differ reports the removal
range `[0, 50)`, and `AddLine` stores it as a highlight with `x + width = 50` on a line
of width 30. -/
theorem AddLine_highlight_outside_line :
    ¬ (∀ line ∈ layoutLines sampleEnv changedParagraph emptyJob 30,
        ∀ h ∈ line.highlights, h.Contained line) := by
  decide

/-! ### `AddLine`: what is handed to the page -/

/-- The effect of `AddLine`, once past its guards, on the flag, on the pages left behind
and on the lines of the current page. -/
theorem AddLine_places (env : Env) (p : Paragraph) (job : DiffJob)
    (width start limit : Int) (hlt : start < limit)
    (hruns : env.visualRuns p.text start limit ≠ []) :
    (p.AddLine env job (some ()) (some ()) width start limit).hasDiffs =
      (job.hasDiffs ||
        (env.FindDeltas (p.buildLines env width start limit).1
          (p.buildLines env width start limit).2).1) ∧
    (p.AddLine env job (some ()) (some ()) width start limit).finished =
      (if wrapLong (job.current.GetY +
            (if (env.FindDeltas (p.buildLines env width start limit).1
                  (p.buildLines env width start limit).2).1
              then wrapLong ((p.buildLines env width start limit).2.GetHeight +
                (p.buildLines env width start limit).1.GetHeight)
              else (p.buildLines env width start limit).2.GetHeight))
          ≥ wrapLong (env.pageHeight - env.marginWidth)
        then job.finished ++ [job.current] else job.finished) ∧
    (p.AddLine env job (some ()) (some ()) width start limit).current.lines.map
        PlacedLine.line =
      (if wrapLong (job.current.GetY +
            (if (env.FindDeltas (p.buildLines env width start limit).1
                  (p.buildLines env width start limit).2).1
              then wrapLong ((p.buildLines env width start limit).2.GetHeight +
                (p.buildLines env width start limit).1.GetHeight)
              else (p.buildLines env width start limit).2.GetHeight))
          ≥ wrapLong (env.pageHeight - env.marginWidth)
        then [] else job.current.lines.map PlacedLine.line) ++
      (if (env.FindDeltas (p.buildLines env width start limit).1
            (p.buildLines env width start limit).2).1
        then [Paragraph.markRemovals (p.buildLines env width start limit).1
                (env.FindDeltas (p.buildLines env width start limit).1
                  (p.buildLines env width start limit).2).2.1,
              (p.buildLines env width start limit).2]
        else [(p.buildLines env width start limit).2]) := by
  have hgt : ¬ (start ≥ limit) := by omega
  have hnum : (env.visualRuns p.text start limit).length > 0 :=
    List.length_pos.mpr hruns
  unfold Paragraph.AddLine
  simp only [Option.isNone_some, Bool.false_or, decide_eq_true_eq, hgt, if_false, hnum,
    if_true]
  generalize (p.buildLines env width start limit).1 = before
  generalize (p.buildLines env width start limit).2 = after
  generalize env.FindDeltas before after = deltas
  cases hd : deltas.1
  · simp only [Bool.false_eq_true, if_false, Bool.or_false, DiffJob.GetCurrentPage,
      DiffJob.AddPage, Page.AddLine, Page.GetY]
    split_ifs <;> simp
  · simp only [if_true, Bool.or_true, DiffJob.GetCurrentPage, DiffJob.SetHasDiffs,
      DiffJob.AddPage, Page.AddLine, Page.GetY]
    split_ifs <;> simp

/-- The loop over the removals adds the removal ranges to the highlights of the line, in
order and as they are, and changes nothing else. -/
theorem markRemovals_eq (line : Line) (removals : List DeltaRange) :
    Paragraph.markRemovals line removals =
      { line with
        highlights := (line.highlights ++ removals.map (fun r =>
          ({ x := r.x, width := r.width, color := 0xe5e5e5 } : Highlight))) } := by
  unfold Paragraph.markRemovals
  induction removals generalizing line with
  | nil => simp
  | cons r rest ih =>
    simp only [List.foldl_cons, List.map_cons]
    rw [ih (line.AddHighlight r.x r.width 0xe5e5e5)]
    simp [Line.AddHighlight]

/-- C10, amended: `AddHighlight(x, width, color)` stores exactly `(x, width, color)`.
`AddLine` on a non-empty range with a visual run appends to the current page, when the
differ reports no deltas, the after-line alone, and when it reports deltas, the
before-line followed by the after-line. Both lines are built without highlights and with
the width passed to `AddLine`; the before-line handed over is the before-line built, with
exactly the removal ranges of the differ as highlights, unchanged and in order, with
colour `0xe5e5e5`; the after-line gets none. So the highlights of the lines handed over
lie inside `[0, line width)` exactly when, in the case of deltas, the removal ranges of
the differ lie inside `[0, width)`. -/
theorem AddLine_stored_highlights (env : Env) (p : Paragraph) (job : DiffJob)
    (width start limit : Int) (hlt : start < limit)
    (hruns : env.visualRuns p.text start limit ≠ []) :
    (∀ (l : Line) (x w : Int) (color : Nat),
      (l.AddHighlight x w color).highlights =
        l.highlights ++ [{ x := x, width := w, color := color }]) ∧
    ((p.buildLines env width start limit).1.highlights = [] ∧
      (p.buildLines env width start limit).1.width = width ∧
      (p.buildLines env width start limit).2.highlights = [] ∧
      (p.buildLines env width start limit).2.width = width) ∧
    ∃ (base handed : List Line),
      (p.AddLine env job (some ()) (some ()) width start limit).current.lines.map
        PlacedLine.line = base ++ handed ∧
      handed =
        (if (env.FindDeltas (p.buildLines env width start limit).1
              (p.buildLines env width start limit).2).1
          then [{ (p.buildLines env width start limit).1 with
                  highlights :=
                    ((env.FindDeltas (p.buildLines env width start limit).1
                        (p.buildLines env width start limit).2).2.1.map (fun r =>
                      ({ x := r.x, width := r.width, color := 0xe5e5e5 } : Highlight))) },
                (p.buildLines env width start limit).2]
          else [(p.buildLines env width start limit).2]) ∧
      ((∀ line ∈ handed, ∀ h ∈ line.highlights, h.Contained line) ↔
        ((env.FindDeltas (p.buildLines env width start limit).1
              (p.buildLines env width start limit).2).1 = true →
          ∀ r ∈ (env.FindDeltas (p.buildLines env width start limit).1
              (p.buildLines env width start limit).2).2.1, r.Within width)) := by
  have hplace := (AddLine_places env p job width start limit hlt hruns).2.2
  have hb := buildLines_highlights env p width start limit
  have hm := markRemovals_eq (p.buildLines env width start limit).1
    (env.FindDeltas (p.buildLines env width start limit).1
      (p.buildLines env width start limit).2).2.1
  rw [hb.1, List.nil_append] at hm
  rw [hm] at hplace
  refine ⟨fun l x w color => rfl, hb, _, _, hplace, rfl, ?_⟩
  cases hd : (env.FindDeltas (p.buildLines env width start limit).1
      (p.buildLines env width start limit).2).1
  · simp [hb.2.2.1]
  · simp [hb.2.2.1, Highlight.Contained, DeltaRange.Within, Line.GetWidth, hb.2.1]

/-- The shaped sample paragraph with changed fonts, at width 200: the differ reports
deltas with the removal range `[0, 50)`; the before-line is handed over with that range
as its one highlight, followed by the after-line without highlights, and the highlight
lies inside the line. -/
theorem AddLine_stored_highlights_witness :
    ((0 : Int) < 5 ∧ sampleEnv.visualRuns changedShaped.text 0 5 ≠ []) ∧
    (sampleEnv.FindDeltas (changedShaped.buildLines sampleEnv 200 0 5).1
        (changedShaped.buildLines sampleEnv 200 0 5).2 =
      (true, [{ x := 0, width := 50 }], [{ x := 0, width := 100 }])) ∧
    ((changedShaped.AddLine sampleEnv emptyJob (some ()) (some ()) 200 0 5).current.lines.map
        (fun l => l.line.highlights) =
      [[{ x := 0, width := 50, color := 0xe5e5e5 }], []]) ∧
    ∃ (base handed : List Line),
      (changedShaped.AddLine sampleEnv emptyJob (some ()) (some ()) 200 0 5).current.lines.map
        PlacedLine.line = base ++ handed ∧
      handed =
        [{ (changedShaped.buildLines sampleEnv 200 0 5).1 with
            highlights := [{ x := 0, width := 50, color := 0xe5e5e5 }] },
          (changedShaped.buildLines sampleEnv 200 0 5).2] ∧
      ∀ line ∈ handed, ∀ h ∈ line.highlights, h.Contained line :=
  ⟨⟨by decide, by decide⟩, by decide, by decide,
    (AddLine_stored_highlights sampleEnv changedShaped emptyJob 200 0 5 (by decide)
      (by decide)).2.2.elim
      (fun base h => h.elim (fun handed h =>
        ⟨base, handed, h.1, h.2.1.trans (by decide), h.2.2.mpr (by decide)⟩))⟩

/-- C6: `AddLine` on a non-empty range with at least one visual run always hands the
after-line to a page; it hands the before-line (with the removal highlights) to a page
exactly when the differ returned `hasDeltas = true`, and then sets the has-diffs flag and
requests the height `afterHeight + beforeHeight` instead of `afterHeight` (sums and
differences of metrics in `signed long` arithmetic, as the code computes them); both lines
go to the one page chosen before either is placed, the before-line right before the
after-line. -/
theorem AddLine_handoff (env : Env) (p : Paragraph) (job : DiffJob)
    (width start limit : Int) (hlt : start < limit)
    (hruns : env.visualRuns p.text start limit ≠ []) :
    (p.AddLine env job (some ()) (some ()) width start limit).hasDiffs =
      (job.hasDiffs ||
        (env.FindDeltas (p.buildLines env width start limit).1
          (p.buildLines env width start limit).2).1) ∧
    (p.AddLine env job (some ()) (some ()) width start limit).finished =
      (if wrapLong (job.current.GetY +
            (if (env.FindDeltas (p.buildLines env width start limit).1
                  (p.buildLines env width start limit).2).1
              then wrapLong ((p.buildLines env width start limit).2.GetHeight +
                (p.buildLines env width start limit).1.GetHeight)
              else (p.buildLines env width start limit).2.GetHeight))
          ≥ wrapLong (env.pageHeight - env.marginWidth)
        then job.finished ++ [job.current] else job.finished) ∧
    (p.AddLine env job (some ()) (some ()) width start limit).current.lines.map
        PlacedLine.line =
      (if wrapLong (job.current.GetY +
            (if (env.FindDeltas (p.buildLines env width start limit).1
                  (p.buildLines env width start limit).2).1
              then wrapLong ((p.buildLines env width start limit).2.GetHeight +
                (p.buildLines env width start limit).1.GetHeight)
              else (p.buildLines env width start limit).2.GetHeight))
          ≥ wrapLong (env.pageHeight - env.marginWidth)
        then [] else job.current.lines.map PlacedLine.line) ++
      (if (env.FindDeltas (p.buildLines env width start limit).1
            (p.buildLines env width start limit).2).1
        then [Paragraph.markRemovals (p.buildLines env width start limit).1
                (env.FindDeltas (p.buildLines env width start limit).1
                  (p.buildLines env width start limit).2).2.1,
              (p.buildLines env width start limit).2]
        else [(p.buildLines env width start limit).2]) :=
  AddLine_places env p job width start limit hlt hruns

/-- The shaped sample paragraph with changed fonts, on a page whose cursor is at 975: the
two lines are not empty and differ, so the differ reports deltas; the flag is set, the
height requested is `10 + 10`, which turns the page, and the before-line with its
highlight and the after-line are the first two lines of the new page. -/
theorem AddLine_handoff_witness :
    ((0 : Int) < 5 ∧ sampleEnv.visualRuns changedShaped.text 0 5 ≠ []) ∧
    ((changedShaped.buildLines sampleEnv 200 0 5).1.xAdvance = 50 ∧
      (changedShaped.buildLines sampleEnv 200 0 5).2.xAdvance = 100 ∧
      (sampleEnv.FindDeltas (changedShaped.buildLines sampleEnv 200 0 5).1
        (changedShaped.buildLines sampleEnv 200 0 5).2).1 = true) ∧
    (changedShaped.AddLine sampleEnv fullJob (some ()) (some ()) 200 0 5).hasDiffs = true ∧
    (changedShaped.AddLine sampleEnv fullJob (some ()) (some ()) 200 0 5).finished =
      [fullJob.current] ∧
    (changedShaped.AddLine sampleEnv fullJob (some ()) (some ()) 200 0 5).current.lines.map
        PlacedLine.line =
      [Paragraph.markRemovals (changedShaped.buildLines sampleEnv 200 0 5).1
          [{ x := 0, width := 50 }],
        (changedShaped.buildLines sampleEnv 200 0 5).2] :=
  ⟨⟨by decide, by decide⟩, ⟨by decide, by decide, by decide⟩,
    (AddLine_handoff sampleEnv changedShaped fullJob 200 0 5 (by decide)
      (by decide)).1.trans (by decide),
    (AddLine_handoff sampleEnv changedShaped fullJob 200 0 5 (by decide)
      (by decide)).2.1.trans (by decide),
    (AddLine_handoff sampleEnv changedShaped fullJob 200 0 5 (by decide)
      (by decide)).2.2.trans (by decide)⟩

/-! ### The line-breaking loop of `Layout` -/

/-- C3, at the failing input: `Hello world` in one span with the sample collaborators
(advance 10 per code unit) and width 70. The only potential break is 6; `[0, 6)` measures
60 and fits, so no break is committed, and `Layout` calls `AddLine` once, for `[0, 11)`,
which measures 110 and has the potential break 6 inside. -/
theorem Layout_last_line_not_measured :
    (helloParagraph.ShapeParagraph sampleEnv).map
        (fun p => (p.FindPotentialLineBreaks sampleEnv, p.LayoutRanges 70 [6],
          p.lineWidth 0 6, p.lineWidth 0 11)) =
      some (some [6], [(0, 11)], 60, 110) := by
  decide

/-- C4: when the text has at least 20 code units, the potential breaks are
`[6, 11, 20]`, the candidates `[0, 6)` and `[0, 11)` measure at most `width` and `[0, 20)`
measures more, the loop commits the one lookback break 11 and then the text end, and
`AddLine` is called for exactly the two ranges `[0, 11)` and `[11, length)`. -/
theorem Layout_lookback_scenario (p : Paragraph) (width : Int) (hlen : 20 ≤ p.length)
    (h6 : p.lineWidth 0 6 ≤ width) (h11 : p.lineWidth 0 11 ≤ width)
    (h20 : width < p.lineWidth 0 20) :
    p.LineBreaks width [6, 11, 20] = [11, p.length] ∧
    p.LayoutRanges width [6, 11, 20] = [(0, 11), (11, p.length)] := by
  have hb : p.LineBreaks width [6, 11, 20] = [11, p.length] := by
    simp [Paragraph.LineBreaks, Paragraph.LineBreakLoop, not_lt.mpr h6, not_lt.mpr h11, h20]
  refine ⟨hb, ?_⟩
  have h1 : ¬ ((11 : Int) ≥ p.length) := by omega
  simp [Paragraph.LayoutRanges, hb, Paragraph.LineRanges, Paragraph.LineRangeLoop, h1]

/-- The sample text of 23 code units at width 150, where `[0, 6)`, `[0, 11)` and
`[0, 20)` measure 60, 110 and 200. -/
theorem Layout_lookback_scenario_witness :
    (20 ≤ scenarioParagraph.length ∧ scenarioParagraph.lineWidth 0 6 ≤ 150 ∧
      scenarioParagraph.lineWidth 0 11 ≤ 150 ∧ 150 < scenarioParagraph.lineWidth 0 20) ∧
    scenarioParagraph.FindPotentialLineBreaks sampleEnv = some [6, 11, 20] ∧
    scenarioParagraph.LineBreaks 150 [6, 11, 20] = [11, scenarioParagraph.length] ∧
    scenarioParagraph.LayoutRanges 150 [6, 11, 20] = [(0, 11), (11, scenarioParagraph.length)] :=
  ⟨by decide, by decide,
    Layout_lookback_scenario scenarioParagraph 150 (by decide) (by decide) (by decide)
      (by decide)⟩

/-! ### The shaping phase keeps the paragraph and treats both font versions alike -/

theorem ShapeSpanStep_pos (env : Env) (text : List Nat) (bidiLevel : Nat)
    (fonts : FontCollection) (style : Style) (st : ShapeState) :
    st.pos + 1 ≤ (ShapeSpanStep env text bidiLevel fonts style st).pos := by
  simp only [ShapeSpanStep]
  split <;> omega

/-- The loop of `ShapeSpan` exits with its condition `pos < limit` false once it has run
for `limit - pos` rounds. -/
theorem ShapeSpanLoop_exit (env : Env) (text : List Nat) (limit : Int) (bidiLevel : Nat)
    (fonts : FontCollection) (style : Style) :
    ∀ (n : Nat) (st : ShapeState), (limit - st.pos).toNat ≤ n →
      ¬ ((ShapeSpanLoop env text limit bidiLevel fonts style n st).pos < limit) := by
  intro n
  induction n with
  | zero =>
    intro st hn
    simp only [ShapeSpanLoop]
    omega
  | succ n ih =>
    intro st hn
    simp only [ShapeSpanLoop]
    split
    · apply ih
      have := ShapeSpanStep_pos env text bidiLevel fonts style st
      omega
    · assumption

theorem Keeps.refl (p : Paragraph) : Keeps p p :=
  ⟨rfl, rfl, rfl, rfl, fun _ h => h⟩

theorem Keeps.trans {p q r : Paragraph} (h1 : Keeps p q) (h2 : Keeps q r) : Keeps p r :=
  ⟨h2.text.trans h1.text, h2.spans.trans h1.spans, h2.beforeFonts.trans h1.beforeFonts,
    h2.afterFonts.trans h1.afterFonts,
    fun hf hr => h2.sameRuns (h1.beforeFonts.trans (hf.trans h1.afterFonts.symm))
      (h1.sameRuns hf hr)⟩

theorem ShapeBidiRunLoop_keeps (env : Env) (limit : Int) (bidiLevel : Nat) :
    ∀ (spans : List Span) (spanStart : Int) (p : Paragraph),
      Keeps p (Paragraph.ShapeBidiRunLoop env limit bidiLevel spans spanStart p) := by
  intro spans
  induction spans with
  | nil => intro spanStart p; exact Keeps.refl p
  | cons span rest ih =>
    intro spanStart p
    simp only [Paragraph.ShapeBidiRunLoop]
    split
    · refine Keeps.trans ?_ (ih _ _)
      refine ⟨rfl, rfl, rfl, rfl, ?_⟩
      intro hf hr
      simp only
      rw [hf, hr]
    · exact Keeps.refl p

theorem ShapeBidiRun_keeps (env : Env) (p : Paragraph) (start limit : Int)
    (bidiLevel : Nat) : Keeps p (p.ShapeBidiRun env start limit bidiLevel) := by
  unfold Paragraph.ShapeBidiRun
  simp only
  split
  · exact Keeps.refl p
  · exact ShapeBidiRunLoop_keeps env _ _ _ _ _

theorem ShapeLogicalRuns_keeps (env : Env) :
    ∀ (n : Nat) (p : Paragraph) (start limit : Int) (bidiLevel : Nat) (q : Paragraph),
      Paragraph.ShapeLogicalRuns env n p start limit bidiLevel = some q → Keeps p q := by
  intro n
  induction n with
  | zero => intro p start limit bidiLevel q h; simp [Paragraph.ShapeLogicalRuns] at h
  | succ n ih =>
    intro p start limit bidiLevel q h
    simp only [Paragraph.ShapeLogicalRuns] at h
    split at h
    · simp only [Option.some.injEq] at h
      subst h
      exact Keeps.refl p
    · exact Keeps.trans (ShapeBidiRun_keeps env p start _ _) (ih _ _ _ _ _ h)

theorem ShapeLogicalRuns_done (env : Env) (n : Nat) (p : Paragraph) (start limit : Int)
    (bidiLevel : Nat) (hout : env.getLogicalRun p.text start = none) (hle : limit ≤ start) :
    Paragraph.ShapeLogicalRuns env (n + 1) p start limit bidiLevel = some p := by
  simp [Paragraph.ShapeLogicalRuns, hout, hle]

/-- With a bidi engine that keeps its contract the walk over the logical runs ends within
`length - start + 2` rounds. -/
theorem ShapeLogicalRuns_terminates (env : Env) (text : List Nat)
    (hb : BidiContract env text) :
    ∀ (n : Nat) (p : Paragraph) (start limit : Int) (bidiLevel : Nat),
      p.text = text → 0 ≤ start → ((text.length : Int) - start).toNat + 2 ≤ n →
      ∃ q, Paragraph.ShapeLogicalRuns env n p start limit bidiLevel = some q := by
  intro n
  induction n with
  | zero => intro p start limit bidiLevel _ _ hn; omega
  | succ n ih =>
    intro p start limit bidiLevel ht h0 hn
    have hc := hb start
    cases hrun : env.getLogicalRun text start with
    | none =>
      rw [hrun] at hc
      simp only at hc
      by_cases hle : limit ≤ start
      · exact ⟨p, ShapeLogicalRuns_done env n p start limit bidiLevel (ht ▸ hrun) hle⟩
      · have hstep : Paragraph.ShapeLogicalRuns env (n + 1) p start limit bidiLevel =
            Paragraph.ShapeLogicalRuns env n (p.ShapeBidiRun env start limit bidiLevel)
              limit limit bidiLevel := by
          simp [Paragraph.ShapeLogicalRuns, ht, hrun, hle]
        rw [hstep]
        have hc2 := hb limit
        cases hrun2 : env.getLogicalRun text limit with
        | some r =>
          rw [hrun2] at hc2
          simp only at hc2
          exfalso
          apply hc
          omega
        | none =>
          obtain ⟨m, rfl⟩ : ∃ m, n = m + 1 := ⟨n - 1, by omega⟩
          refine ⟨_, ShapeLogicalRuns_done env m _ limit limit bidiLevel ?_ (le_refl _)⟩
          rw [(ShapeBidiRun_keeps env p start limit bidiLevel).text, ht]
          exact hrun2
    | some r =>
      rw [hrun] at hc
      simp only at hc
      have hgt : ¬ (r.1 ≤ start) := by omega
      have hstep : Paragraph.ShapeLogicalRuns env (n + 1) p start limit bidiLevel =
          Paragraph.ShapeLogicalRuns env n (p.ShapeBidiRun env start r.1 r.2)
            r.1 r.1 r.2 := by
        simp [Paragraph.ShapeLogicalRuns, ht, hrun, hgt]
      rw [hstep]
      apply ih
      · rw [(ShapeBidiRun_keeps env p start r.1 r.2).text, ht]
      · omega
      · omega

theorem ShapeParagraph_returns (env : Env) (p : Paragraph)
    (hb : BidiContract env p.text) :
    ∃ q, p.ShapeParagraph env = some q ∧ Keeps p q := by
  obtain ⟨q, hq⟩ := ShapeLogicalRuns_terminates env p.text hb (p.text.length + 2) p 0 1 0
    rfl (le_refl _) (by simp)
  exact ⟨q, hq, ShapeLogicalRuns_keeps env _ _ _ _ _ _ hq⟩

theorem FindPotentialLineBreaksLoop_returns (env : Env) (p : Paragraph) :
    ∀ (spans : List Span) (curLang : Option Language) (runStart curLangStart : Int)
      (breaks : List Int), (∀ s ∈ spans, s.style ≠ none) →
      ∃ r, Paragraph.FindPotentialLineBreaksLoop env p spans curLang runStart curLangStart
        breaks = some r := by
  intro spans
  induction spans with
  | nil => intro curLang runStart curLangStart breaks _; exact ⟨_, rfl⟩
  | cons span rest ih =>
    intro curLang runStart curLangStart breaks hs
    have hrest : ∀ s ∈ rest, s.style ≠ none := fun s h => hs s (List.mem_cons_of_mem _ h)
    cases hst : span.style with
    | none => exact absurd hst (hs span (List.mem_cons_self _ _))
    | some style =>
      simp only [Paragraph.FindPotentialLineBreaksLoop, hst]
      split
      · exact ih _ _ _ _ hrest
      · exact ih _ _ _ _ hrest

theorem FindPotentialLineBreaks_returns (env : Env) (p : Paragraph)
    (hs : ∀ s ∈ p.spans, s.style ≠ none) :
    ∃ bs, p.FindPotentialLineBreaks env = some bs := by
  obtain ⟨r, hr⟩ := FindPotentialLineBreaksLoop_returns env p p.spans none 0 0 [] hs
  unfold Paragraph.FindPotentialLineBreaks
  rw [hr]
  exact ⟨_, rfl⟩

/-! ### Lines of a paragraph whose two run sequences are equal -/

theorem AppendSpans_keeps (env : Env) (p : Paragraph)
    (calls : List (List Nat × Option Style)) :
    (p.AppendSpans env calls).beforeFonts = p.beforeFonts ∧
    (p.AppendSpans env calls).afterFonts = p.afterFonts ∧
    (p.AppendSpans env calls).beforeRuns = p.beforeRuns ∧
    (p.AppendSpans env calls).afterRuns = p.afterRuns := by
  induction calls using List.reverseRecOn with
  | nil => simp [Paragraph.AppendSpans]
  | append_singleton calls c ih =>
    rw [AppendSpans_snoc]
    simpa [Paragraph.AppendSpan] using ih

theorem buildLines_same (env : Env) (p : Paragraph) (width start limit : Int)
    (hruns : p.beforeRuns = p.afterRuns) :
    (p.buildLines env width start limit).1 = (p.buildLines env width start limit).2 := by
  have hsame : ∀ (a b : Int) (line : Line),
      p.AddRunsToLine true a b line = p.AddRunsToLine false a b line := by
    intro a b line
    simp [Paragraph.AddRunsToLine, Paragraph.runsOf, hruns]
  unfold Paragraph.buildLines
  generalize env.visualRuns p.text start limit = vis
  have key : ∀ (ls : Line × Line), ls.1 = ls.2 →
      (vis.foldl (fun (ls : Line × Line) (r : Int × Int) =>
        (p.AddRunsToLine true (start + r.1) (start + r.1 + r.2) ls.1,
         p.AddRunsToLine false (start + r.1) (start + r.1 + r.2) ls.2)) ls).1 =
      (vis.foldl (fun (ls : Line × Line) (r : Int × Int) =>
        (p.AddRunsToLine true (start + r.1) (start + r.1 + r.2) ls.1,
         p.AddRunsToLine false (start + r.1) (start + r.1 + r.2) ls.2)) ls).2 := by
    induction vis with
    | nil => intro ls h; simpa using h
    | cons r rest ih =>
      intro ls h
      simp only [List.foldl_cons]
      apply ih
      simp only
      rw [h, hsame]
  exact key _ rfl

theorem placedLines_addLine (job : DiffJob) (line : Line) (x y : Int) :
    ({ job with current := job.current.AddLine line x y } : DiffJob).placedLines =
      job.placedLines ++ [line] := by
  simp [DiffJob.placedLines, DiffJob.pages, Page.AddLine]

theorem placedLines_addPage (env : Env) (job : DiffJob) :
    (job.AddPage env).placedLines = job.placedLines := by
  simp [DiffJob.placedLines, DiffJob.pages, DiffJob.AddPage]

/-- On a paragraph whose two run sequences are equal, with a differ that reports no delta
between a line and itself, `AddLine` leaves the flag as it is and hands over the
after-line alone, and only when it gets past its guards. -/
theorem AddLine_same (env : Env) (p : Paragraph) (job : DiffJob) (width start limit : Int)
    (hruns : p.beforeRuns = p.afterRuns) (hdiff : ∀ l, (env.FindDeltas l l).1 = false) :
    (p.AddLine env job (some ()) (some ()) width start limit).hasDiffs = job.hasDiffs ∧
    (p.AddLine env job (some ()) (some ()) width start limit).placedLines =
      job.placedLines ++
        (if p.emits env (start, limit) then [(p.buildLines env width start limit).2]
         else []) := by
  have hl := buildLines_same env p width start limit hruns
  unfold Paragraph.AddLine Paragraph.emits
  by_cases hge : start ≥ limit
  · have : ¬ start < limit := by omega
    simp [hge, this]
  · have hlt : start < limit := by omega
    by_cases hvis : env.visualRuns p.text start limit = []
    · simp [hge, hlt, hvis]
    · have hnum : (env.visualRuns p.text start limit).length > 0 := List.length_pos.mpr hvis
      have hd : (env.FindDeltas (p.buildLines env width start limit).1
          (p.buildLines env width start limit).2).1 = false := by
        rw [hl]; exact hdiff _
      simp only [Option.isNone_some, Bool.false_or, decide_eq_true_eq, hge, if_false, hnum,
        if_true, hd, Bool.false_eq_true, hlt, decide_True, Bool.true_and, Bool.not_eq_true',
        List.isEmpty_eq_false.mpr hvis, Bool.not_false]
      split
      · exact ⟨rfl, by rw [placedLines_addLine, placedLines_addPage]⟩
      · exact ⟨rfl, by rw [placedLines_addLine]⟩

theorem AddLines_same (env : Env) (p : Paragraph) (width : Int)
    (hruns : p.beforeRuns = p.afterRuns) (hdiff : ∀ l, (env.FindDeltas l l).1 = false) :
    ∀ (ranges : List (Int × Int)) (job : DiffJob),
      (p.AddLines env job width ranges).hasDiffs = job.hasDiffs ∧
      (p.AddLines env job width ranges).placedLines =
        job.placedLines ++
          (ranges.filter (p.emits env)).map (fun r => (p.buildLines env width r.1 r.2).2) := by
  intro ranges
  induction ranges with
  | nil => intro job; simp [Paragraph.AddLines]
  | cons r rest ih =>
    intro job
    have h1 := AddLine_same env p job width r.1 r.2 hruns hdiff
    have h2 := ih (p.AddLine env job (some ()) (some ()) width r.1 r.2)
    unfold Paragraph.AddLines at h2 ⊢
    simp only [List.foldl_cons]
    rw [h2.1, h2.2, h1.1, h1.2]
    refine ⟨rfl, ?_⟩
    by_cases he : p.emits env r = true
    · simp [List.filter_cons, he]
    · simp [List.filter_cons, he]

/-- When every candidate line that starts at 0 fits, the loop over the potential breaks
commits nothing and leaves `lineStart` at 0. -/
theorem LineBreakLoop_all_fit (p : Paragraph) (width : Int) :
    ∀ (bs : List Int) (lastBreakPos : Int) (lineBreaks : List Int),
      (∀ b ∈ bs, p.lineWidth 0 b ≤ width) →
      (Paragraph.LineBreakLoop p width bs 0 lastBreakPos lineBreaks).1 = 0 ∧
      (Paragraph.LineBreakLoop p width bs 0 lastBreakPos lineBreaks).2.2 = lineBreaks := by
  intro bs
  induction bs with
  | nil => intro lastBreakPos lineBreaks _; exact ⟨rfl, rfl⟩
  | cons b rest ih =>
    intro lastBreakPos lineBreaks h
    have hb : ¬ (p.lineWidth 0 b > width) := not_lt.mpr (h b (List.mem_cons_self _ _))
    simp only [Paragraph.LineBreakLoop, hb, if_false]
    exact ih _ _ (fun c hc => h c (List.mem_cons_of_mem _ hc))

theorem Layout_eq (env : Env) (p q : Paragraph) (job : DiffJob) (width : Int)
    (bs : List Int) (hq : p.ShapeParagraph env = some q)
    (hbs : q.FindPotentialLineBreaks env = some bs) :
    p.Layout env job width =
      some (q, q.AddLines env job width (q.LayoutRanges width bs)) := by
  unfold Paragraph.Layout
  rw [hq]
  simp only
  rw [hbs]

theorem sampleEnv_bidi (text : List Nat) : BidiContract sampleEnv text := by
  intro start
  have hrun : sampleEnv.getLogicalRun text start =
      if 0 ≤ start ∧ start < (text.length : Int) then some ((text.length : Int), 0)
      else none := rfl
  by_cases h : 0 ≤ start ∧ start < (text.length : Int)
  · rw [hrun, if_pos h]
    exact ⟨h.1, h.2, le_refl _⟩
  · rw [hrun, if_neg h]
    exact h

theorem sampleEnv_differ (l : Line) : (sampleEnv.FindDeltas l l).1 = false := by
  simp [sampleEnv]

/-- C5: a paragraph built with one font collection for both versions, laid out with a
bidi engine that keeps its contract, non-null styles and a differ that reports no delta
between a line and itself: `Layout` returns, the two run sequences are equal, for every
line range the before-line equals the after-line and the differ reports no delta, the
has-diffs flag keeps its value, and the lines handed to the pages are exactly the
after-lines of the ranges on which `AddLine` gets past its guards. -/
theorem Layout_diff_identity (env : Env) (fonts : Option FontCollection)
    (calls : List (List Nat × Option Style)) (job : DiffJob) (width : Int) (p : Paragraph)
    (hp : p = (Paragraph.new fonts fonts).AppendSpans env calls)
    (hbidi : BidiContract env p.text) (hstyle : ∀ s ∈ p.spans, s.style ≠ none)
    (hdiff : ∀ l, (env.FindDeltas l l).1 = false) :
    ∃ (q : Paragraph) (job' : DiffJob) (bs : List Int),
      p.Layout env job width = some (q, job') ∧
      q.FindPotentialLineBreaks env = some bs ∧
      q.beforeRuns = q.afterRuns ∧
      (∀ w start limit,
        (q.buildLines env w start limit).1 = (q.buildLines env w start limit).2) ∧
      (∀ w start limit,
        (env.FindDeltas (q.buildLines env w start limit).1
          (q.buildLines env w start limit).2).1 = false) ∧
      job'.hasDiffs = job.hasDiffs ∧
      job'.placedLines = job.placedLines ++
        ((q.LayoutRanges width bs).filter (q.emits env)).map
          (fun r => (q.buildLines env width r.1 r.2).2) := by
  obtain ⟨q, hq, hk⟩ := ShapeParagraph_returns env p hbidi
  obtain ⟨bs, hbs⟩ := FindPotentialLineBreaks_returns env q (by rw [hk.spans]; exact hstyle)
  have hfr := AppendSpans_keeps env (Paragraph.new fonts fonts) calls
  rw [← hp] at hfr
  have hruns : q.beforeRuns = q.afterRuns :=
    hk.sameRuns (hfr.1.trans hfr.2.1.symm) (hfr.2.2.1.trans hfr.2.2.2.symm)
  have hlines := AddLines_same env q width hruns hdiff (q.LayoutRanges width bs) job
  refine ⟨q, _, bs, Layout_eq env p q job width bs hq hbs, hbs, hruns, ?_, ?_, hlines.1,
    hlines.2⟩
  · intro w start limit
    exact buildLines_same env q w start limit hruns
  · intro w start limit
    rw [buildLines_same env q w start limit hruns]
    exact hdiff _

/-- The paragraph `Hello world` with one font for both versions: no flag is set and the
job receives the after-lines only. -/
theorem Layout_diff_identity_witness :
    BidiContract sampleEnv helloParagraph.text ∧
    (∀ s ∈ helloParagraph.spans, s.style ≠ none) ∧
    (∀ l, (sampleEnv.FindDeltas l l).1 = false) ∧
    ∃ (q : Paragraph) (job' : DiffJob) (bs : List Int),
      helloParagraph.Layout sampleEnv emptyJob 70 = some (q, job') ∧
      q.FindPotentialLineBreaks sampleEnv = some bs ∧
      q.beforeRuns = q.afterRuns ∧
      (∀ w start limit,
        (q.buildLines sampleEnv w start limit).1 = (q.buildLines sampleEnv w start limit).2) ∧
      (∀ w start limit,
        (sampleEnv.FindDeltas (q.buildLines sampleEnv w start limit).1
          (q.buildLines sampleEnv w start limit).2).1 = false) ∧
      job'.hasDiffs = emptyJob.hasDiffs ∧
      job'.placedLines = emptyJob.placedLines ++
        ((q.LayoutRanges 70 bs).filter (q.emits sampleEnv)).map
          (fun r => (q.buildLines sampleEnv 70 r.1 r.2).2) :=
  ⟨sampleEnv_bidi _, by decide, sampleEnv_differ,
    Layout_diff_identity sampleEnv (some (singleFont 0)) [(helloWorld, some sampleStyle)]
      emptyJob 70 helloParagraph rfl (sampleEnv_bidi _) (by decide) sampleEnv_differ⟩

theorem helloParagraph_fits :
    ∀ q bs, helloParagraph.ShapeParagraph sampleEnv = some q →
      q.FindPotentialLineBreaks sampleEnv = some bs → ∀ b ∈ bs, q.lineWidth 0 b ≤ 200 := by
  intro q bs hq hbs b hb
  have hD : (match helloParagraph.ShapeParagraph sampleEnv with
      | some q =>
        (match q.FindPotentialLineBreaks sampleEnv with
          | some bs => bs.all (fun b => decide (q.lineWidth 0 b ≤ 200))
          | none => true)
      | none => true) = true := by decide
  rw [hq] at hD
  simp only at hD
  rw [hbs] at hD
  simp only [List.all_eq_true, decide_eq_true_eq] at hD
  exact hD b hb

/-- C7: a non-empty paragraph, a bidi engine that keeps its contract and non-null styles,
and a width that every candidate `[0, breakPos)` of the shaped paragraph fits: `Layout`
returns, commits no lookback break and calls `AddLine` exactly once, for `[0, length)`.
When in addition the two font collections are equal, the differ reports no delta between a
line and itself and the bidi engine reports a visual run for the line, the differ's
`hasDeltas` is false, the flag keeps its value and exactly one line is handed over, the
after-line. -/
theorem Layout_single_line (env : Env) (beforeFonts afterFonts : Option FontCollection)
    (calls : List (List Nat × Option Style)) (job : DiffJob) (width : Int) (p : Paragraph)
    (hp : p = (Paragraph.new beforeFonts afterFonts).AppendSpans env calls)
    (hne : 0 < p.length)
    (hbidi : BidiContract env p.text) (hstyle : ∀ s ∈ p.spans, s.style ≠ none)
    (hfit : ∀ q bs, p.ShapeParagraph env = some q → q.FindPotentialLineBreaks env = some bs →
      ∀ b ∈ bs, q.lineWidth 0 b ≤ width) :
    ∃ (q : Paragraph) (bs : List Int),
      p.ShapeParagraph env = some q ∧ q.FindPotentialLineBreaks env = some bs ∧
      q.length = p.length ∧
      q.LineBreaks width bs = [q.length] ∧
      q.LayoutRanges width bs = [(0, q.length)] ∧
      p.Layout env job width =
        some (q, q.AddLine env job (some ()) (some ()) width 0 q.length) ∧
      (beforeFonts = afterFonts → (∀ l, (env.FindDeltas l l).1 = false) →
        env.visualRuns p.text 0 p.length ≠ [] →
        (env.FindDeltas (q.buildLines env width 0 q.length).1
          (q.buildLines env width 0 q.length).2).1 = false ∧
        (q.AddLine env job (some ()) (some ()) width 0 q.length).hasDiffs = job.hasDiffs ∧
        (q.AddLine env job (some ()) (some ()) width 0 q.length).placedLines =
          job.placedLines ++ [(q.buildLines env width 0 q.length).2]) := by
  obtain ⟨q, hq, hk⟩ := ShapeParagraph_returns env p hbidi
  obtain ⟨bs, hbs⟩ := FindPotentialLineBreaks_returns env q (by rw [hk.spans]; exact hstyle)
  have hlen : q.length = p.length := by simp [Paragraph.length, hk.text]
  have hloop := LineBreakLoop_all_fit q width bs 0 [] (hfit q bs hq hbs)
  have hbreaks : q.LineBreaks width bs = [q.length] := by
    simp [Paragraph.LineBreaks, hloop.2]
  have hranges : q.LayoutRanges width bs = [(0, q.length)] := by
    simp [Paragraph.LayoutRanges, hbreaks, Paragraph.LineRanges, Paragraph.LineRangeLoop]
  refine ⟨q, bs, hq, hbs, hlen, hbreaks, hranges, ?_, ?_⟩
  · rw [Layout_eq env p q job width bs hq hbs, hranges]
    simp [Paragraph.AddLines]
  · intro hfonts hdiff hvis
    have hfr := AppendSpans_keeps env (Paragraph.new beforeFonts afterFonts) calls
    rw [← hp] at hfr
    have hruns : q.beforeRuns = q.afterRuns := by
      apply hk.sameRuns
      · rw [hfr.1, hfr.2.1]; exact hfonts
      · rw [hfr.2.2.1, hfr.2.2.2]; rfl
    have hsame := AddLine_same env q job width 0 q.length hruns hdiff
    have hemit : q.emits env (0, q.length) = true := by
      have h0 : (0 : Int) < q.length := by omega
      have hv : env.visualRuns q.text 0 q.length ≠ [] := by
        rw [hk.text, hlen]; exact hvis
      simp [Paragraph.emits, h0, hv]
    refine ⟨?_, hsame.1, ?_⟩
    · rw [buildLines_same env q width 0 q.length hruns]
      exact hdiff _
    · rw [hsame.2, hemit]
      simp

/-- The paragraph `Hello world` at width 200, where its one candidate `[0, 6)` fits:
`Layout` returns, with one `AddLine` call. -/
theorem Layout_single_line_witness :
    (0 < helloParagraph.length ∧ BidiContract sampleEnv helloParagraph.text ∧
      (∀ s ∈ helloParagraph.spans, s.style ≠ none)) ∧
    ∃ (q : Paragraph) (bs : List Int),
      q.LayoutRanges 200 bs = [(0, q.length)] ∧
      helloParagraph.Layout sampleEnv emptyJob 200 =
        some (q, q.AddLine sampleEnv emptyJob (some ()) (some ()) 200 0 q.length) :=
  ⟨⟨by decide, sampleEnv_bidi _, by decide⟩,
    (Layout_single_line sampleEnv (some (singleFont 0)) (some (singleFont 0))
      [(helloWorld, some sampleStyle)] emptyJob 200 helloParagraph rfl (by decide)
      (sampleEnv_bidi _) (by decide) helloParagraph_fits).elim
      (fun q h => h.elim (fun bs h => ⟨q, bs, h.2.2.2.2.1, h.2.2.2.2.2.1⟩))⟩

/-- The line of `Hello world` at width 200 is handed over once, as the after-line. -/
theorem helloParagraph_one_line :
    (layoutLines sampleEnv helloParagraph emptyJob 200).length = 1 ∧
    (layoutLines sampleEnv helloParagraph emptyJob 200).map Line.xAdvance = [110] := by
  decide

/-! ### `AppendSpan`: what one call changes -/

theorem sampleEnv_utf8 : Utf8Contract sampleEnv := by
  intro bytes
  have key : ∀ c : Nat, c < 128 → c ∉ bytes → c ∉ sampleEnv.fromUTF8 bytes := by
    intro c hc hnot hmem
    simp only [sampleEnv, List.mem_map] at hmem
    obtain ⟨b, hb, hbc⟩ := hmem
    split at hbc
    · subst hbc; exact hnot hb
    · omega
  exact ⟨key 10 (by decide), key 13 (by decide)⟩

theorem normalized_clean (text : List Nat) :
    10 ∉ Paragraph.normalized text ∧ 13 ∉ Paragraph.normalized text := by
  constructor <;>
  · intro hmem
    simp only [Paragraph.normalized, List.mem_map] at hmem
    obtain ⟨b, _, hb⟩ := hmem
    split at hb <;> omega

theorem AppendSpans_clean (env : Env) (hdec : Utf8Contract env)
    (beforeFonts afterFonts : Option FontCollection)
    (calls : List (List Nat × Option Style)) :
    10 ∉ ((Paragraph.new beforeFonts afterFonts).AppendSpans env calls).text ∧
    13 ∉ ((Paragraph.new beforeFonts afterFonts).AppendSpans env calls).text := by
  induction calls using List.reverseRecOn with
  | nil => simp [Paragraph.AppendSpans, Paragraph.new]
  | append_singleton calls c ih =>
    rw [AppendSpans_snoc]
    have hn := normalized_clean c.1
    have hd := hdec (Paragraph.normalized c.1)
    simp only [Paragraph.AppendSpan, Paragraph.appended, List.mem_append, not_or]
    exact ⟨⟨ih.1, hd.1 hn.1⟩, ⟨ih.2, hd.2 hn.2⟩⟩

/-- C11: with a decoder that yields a line feed or carriage return only where the byte
went in, the text after every sequence of `AppendSpan` calls holds neither; one call hands
to the decoder the input bytes with every line feed and carriage return replaced by one
space, the length and all other bytes unchanged, appends the decoded units to the text,
records exactly one new span, whose limit is the new text length and whose style is the
given one, and leaves the earlier text, the earlier spans, the font collections and the
runs as they were. -/
theorem AppendSpan_normalises (env : Env) (hdec : Utf8Contract env)
    (beforeFonts afterFonts : Option FontCollection)
    (calls : List (List Nat × Option Style)) (p : Paragraph) (text : List Nat)
    (style : Option Style) :
    (10 ∉ ((Paragraph.new beforeFonts afterFonts).AppendSpans env calls).text ∧
      13 ∉ ((Paragraph.new beforeFonts afterFonts).AppendSpans env calls).text) ∧
    ((Paragraph.normalized text).length = text.length ∧
      (∀ i, i < text.length →
        (Paragraph.normalized text).getD i 0 =
          if text.getD i 0 = 10 ∨ text.getD i 0 = 13 then 32 else text.getD i 0) ∧
      10 ∉ Paragraph.normalized text ∧ 13 ∉ Paragraph.normalized text) ∧
    ((p.AppendSpan env text style).text =
        p.text ++ env.fromUTF8 (Paragraph.normalized text) ∧
      (p.AppendSpan env text style).spans =
        p.spans ++ [{ limit := (p.AppendSpan env text style).length, style := style }] ∧
      (p.AppendSpan env text style).beforeFonts = p.beforeFonts ∧
      (p.AppendSpan env text style).afterFonts = p.afterFonts ∧
      (p.AppendSpan env text style).beforeRuns = p.beforeRuns ∧
      (p.AppendSpan env text style).afterRuns = p.afterRuns) := by
  refine ⟨AppendSpans_clean env hdec beforeFonts afterFonts calls,
    ⟨by simp [Paragraph.normalized], ?_, normalized_clean text⟩,
    ⟨rfl, rfl, rfl, rfl, rfl, rfl⟩⟩
  intro i hi
  simp [Paragraph.normalized, List.getD_eq_getElem?_getD, List.getElem?_eq_getElem hi]

/-- The sample decoder keeps the contract, and `a`, line feed, `b` in one call gives the
text `a b`. -/
theorem AppendSpan_normalises_witness :
    Utf8Contract sampleEnv ∧
    ((Paragraph.new none none).AppendSpan sampleEnv [97, 10, 98] none).text =
      [] ++ sampleEnv.fromUTF8 (Paragraph.normalized [97, 10, 98]) ∧
    ((Paragraph.new none none).AppendSpan sampleEnv [97, 10, 98] none).text = [97, 32, 98] :=
  ⟨sampleEnv_utf8,
    (AppendSpan_normalises sampleEnv sampleEnv_utf8 none none [] (Paragraph.new none none)
      [97, 10, 98] none).2.2.1,
    by decide⟩

/-! ### The two loops of `Layout` over the breaks -/

theorem consecutiveRanges_snoc (start : Int) (cs : List Int) (x : Int) :
    consecutiveRanges start (cs ++ [x]) = consecutiveRanges start cs ++ [(endOf start cs, x)] := by
  induction cs generalizing start with
  | nil => rfl
  | cons c rest ih => simp [consecutiveRanges, endOf, ih]

theorem endOf_snoc (start : Int) (cs : List Int) (x : Int) : endOf start (cs ++ [x]) = x := by
  induction cs generalizing start with
  | nil => rfl
  | cons c rest ih => simp [endOf, ih]

/-- The breaks that the loop commits are positive and form a sublist of `lastBreakPos`
followed by the breaks still to come. -/
theorem LineBreakLoop_commits (p : Paragraph) (width : Int) :
    ∀ (bs : List Int) (lineStart lastBreakPos : Int) (lineBreaks : List Int),
      ∃ committed, (Paragraph.LineBreakLoop p width bs lineStart lastBreakPos lineBreaks).2.2 =
          lineBreaks ++ committed ∧
        committed.Sublist (lastBreakPos :: bs) ∧ ∀ c ∈ committed, 0 < c := by
  intro bs
  induction bs with
  | nil =>
    intro lineStart lastBreakPos lineBreaks
    exact ⟨[], by simp [Paragraph.LineBreakLoop], List.nil_sublist _, by simp⟩
  | cons b rest ih =>
    intro lineStart lastBreakPos lineBreaks
    simp only [Paragraph.LineBreakLoop]
    split
    · by_cases hl : lastBreakPos > 0
      · obtain ⟨cs, h1, h2, h3⟩ := ih lastBreakPos b (lineBreaks ++ [lastBreakPos])
        refine ⟨lastBreakPos :: cs, ?_, h2.cons₂ _, ?_⟩
        · simp [hl, h1]
        · intro c hc
          rcases List.mem_cons.mp hc with rfl | hc
          · exact hl
          · exact h3 c hc
      · obtain ⟨cs, h1, h2, h3⟩ := ih lastBreakPos b lineBreaks
        exact ⟨cs, by simp [hl, h1], h2.cons _, h3⟩
    · obtain ⟨cs, h1, h2, h3⟩ := ih lineStart b lineBreaks
      exact ⟨cs, h1, h2.cons _, h3⟩

/-- The loop over `lineBreaks` calls `AddLine` for the consecutive ranges between the
breaks below the text length, up to the first break that is not below it. -/
theorem LineRangeLoop_below (length : Int) :
    ∀ (cs : List Int) (start : Int) (calls : List (Int × Int)), (∀ c ∈ cs, c < length) →
      Paragraph.LineRangeLoop length (cs ++ [length]) start calls =
        (endOf start cs, calls ++ consecutiveRanges start cs) := by
  intro cs
  induction cs with
  | nil => intro start calls _; simp [Paragraph.LineRangeLoop, endOf, consecutiveRanges]
  | cons c rest ih =>
    intro start calls h
    have hc : ¬ (c ≥ length) := not_le.mpr (h c (List.mem_cons_self _ _))
    have hstep : Paragraph.LineRangeLoop length ((c :: rest) ++ [length]) start calls =
        Paragraph.LineRangeLoop length (rest ++ [length]) c (calls ++ [(start, c)]) := by
      simp [Paragraph.LineRangeLoop, hc]
    rw [hstep, ih _ _ (fun d hd => h d (List.mem_cons_of_mem _ hd))]
    simp [endOf, consecutiveRanges]

theorem consecutiveRanges_nonempty :
    ∀ (cs : List Int) (start : Int), (start :: cs).Pairwise (fun a b => a < b) →
      ∀ r ∈ consecutiveRanges start cs, r.1 < r.2 := by
  intro cs
  induction cs with
  | nil => intro start _ r hr; simp [consecutiveRanges] at hr
  | cons c rest ih =>
    intro start h r hr
    simp only [consecutiveRanges, List.mem_cons] at hr
    rcases hr with rfl | hr
    · exact (List.pairwise_cons.mp h).1 c (List.mem_cons_self _ _)
    · exact ih c (List.pairwise_cons.mp h).2 r hr

/-- C19: for a paragraph of positive length and strictly increasing potential breaks
inside `(0, length)`, the vector `lineBreaks` is a strictly increasing sublist of the
potential breaks followed by the text length, and the ranges passed to `AddLine` are the
consecutive ranges between `0`, the committed breaks and the text length: the first starts
at `0`, each starts where the one before ended, the last ends at the text length, and
none is empty. -/
theorem Layout_lines_partition (p : Paragraph) (width : Int) (bs : List Int)
    (hlen : 0 < p.length) (hsorted : bs.Pairwise (fun a b => a < b))
    (hin : ∀ b ∈ bs, 0 < b ∧ b < p.length) :
    ∃ committed : List Int,
      p.LineBreaks width bs = committed ++ [p.length] ∧
      committed.Sublist bs ∧
      (committed ++ [p.length]).Pairwise (fun a b => a < b) ∧
      p.LayoutRanges width bs = consecutiveRanges 0 (committed ++ [p.length]) ∧
      (∀ r ∈ p.LayoutRanges width bs, r.1 < r.2) ∧
      (p.LayoutRanges width bs).head?.map Prod.fst = some 0 ∧
      (p.LayoutRanges width bs).getLast?.map Prod.snd = some p.length := by
  obtain ⟨cs, h1, h2, h3⟩ := LineBreakLoop_commits p width bs 0 0 []
  have hsub : cs.Sublist bs := by
    rcases List.sublist_cons_iff.mp h2 with h | ⟨r, hr, _⟩
    · exact h
    · have := h3 0 (by rw [hr]; exact List.mem_cons_self _ _)
      omega
  have hbelow : ∀ c ∈ cs, c < p.length := fun c hc => (hin c (hsub.subset hc)).2
  have hbreaks : p.LineBreaks width bs = cs ++ [p.length] := by
    simp [Paragraph.LineBreaks, h1]
  have hranges : p.LayoutRanges width bs = consecutiveRanges 0 (cs ++ [p.length]) := by
    simp only [Paragraph.LayoutRanges, hbreaks, Paragraph.LineRanges]
    rw [LineRangeLoop_below p.length cs 0 [] hbelow, consecutiveRanges_snoc]
    simp
  have hpair : (cs ++ [p.length]).Pairwise (fun a b => a < b) := by
    rw [List.pairwise_append]
    refine ⟨hsorted.sublist hsub, List.pairwise_singleton _ _, ?_⟩
    intro a ha b hb
    simp only [List.mem_singleton] at hb
    subst hb
    exact hbelow a ha
  have hpair0 : (0 :: (cs ++ [p.length])).Pairwise (fun a b => a < b) := by
    rw [List.pairwise_cons]
    refine ⟨?_, hpair⟩
    intro a ha
    rcases List.mem_append.mp ha with h | h
    · exact h3 a h
    · simp only [List.mem_singleton] at h
      omega
  refine ⟨cs, hbreaks, hsub, hpair, hranges, ?_, ?_, ?_⟩
  · rw [hranges]
    exact consecutiveRanges_nonempty _ 0 hpair0
  · rw [hranges]
    cases cs <;> simp [consecutiveRanges]
  · rw [hranges, consecutiveRanges_snoc]
    simp

/-- The sample text of 23 code units with the breaks `[6, 11, 20]` at width 150: the
ranges are `[0, 11)` and `[11, 23)`. -/
theorem Layout_lines_partition_witness :
    (0 < scenarioParagraph.length ∧
      [(6 : Int), 11, 20].Pairwise (fun a b => a < b) ∧
      ∀ b ∈ [(6 : Int), 11, 20], 0 < b ∧ b < scenarioParagraph.length) ∧
    ∃ committed : List Int,
      scenarioParagraph.LineBreaks 150 [6, 11, 20] = committed ++ [scenarioParagraph.length] ∧
      committed.Sublist [6, 11, 20] ∧
      scenarioParagraph.LayoutRanges 150 [6, 11, 20] =
        consecutiveRanges 0 (committed ++ [scenarioParagraph.length]) :=
  ⟨⟨by decide, by decide, by decide⟩,
    (Layout_lines_partition scenarioParagraph 150 [6, 11, 20] (by decide) (by decide)
      (by decide)).elim (fun cs h => ⟨cs, h.1, h.2.1, h.2.2.2.1⟩)⟩

/-- The invariant of the loop over the potential breaks `bs`: every range between
consecutive committed breaks (from `0`) ends at a potential break and either was measured
within `width` or has no potential break strictly inside; the range from `lineStart` to
`lastBreakPos`, the next one that may be committed, has the same property. -/
theorem LineBreakLoop_pairs (p : Paragraph) (width : Int) (bs : List Int) :
    ∀ (rest : List Int) (lineStart lastBreakPos : Int) (lineBreaks : List Int),
      rest.Pairwise (fun a b => a < b) → (∀ c ∈ rest, lastBreakPos < c) → 0 ≤ lastBreakPos →
      (∀ c ∈ bs, c ≤ lastBreakPos ∨ c ∈ rest) → (∀ c ∈ rest, c ∈ bs) →
      (lastBreakPos = 0 → lineBreaks = [] ∧ lineStart = 0) →
      lineStart = endOf 0 lineBreaks →
      (0 < lastBreakPos → lastBreakPos ∈ bs ∧
        (p.lineWidth lineStart lastBreakPos ≤ width ∨
          NoBreakBetween bs lineStart lastBreakPos)) →
      (∀ r ∈ consecutiveRanges 0 lineBreaks,
        r.2 ∈ bs ∧ (p.lineWidth r.1 r.2 ≤ width ∨ NoBreakBetween bs r.1 r.2)) →
      ∀ r ∈ consecutiveRanges 0
          (Paragraph.LineBreakLoop p width rest lineStart lastBreakPos lineBreaks).2.2,
        r.2 ∈ bs ∧ (p.lineWidth r.1 r.2 ≤ width ∨ NoBreakBetween bs r.1 r.2) := by
  intro rest
  induction rest with
  | nil =>
    intro lineStart lastBreakPos lineBreaks _ _ _ _ _ _ _ _ hacc
    simpa [Paragraph.LineBreakLoop] using hacc
  | cons b rest ih =>
    intro lineStart lastBreakPos lineBreaks hsorted hgt h0 hcover hsub hzero hstart hpending
      hacc
    have hb : lastBreakPos < b := hgt b (List.mem_cons_self _ _)
    have hsorted' := (List.pairwise_cons.mp hsorted).2
    have hgt' : ∀ c ∈ rest, b < c := (List.pairwise_cons.mp hsorted).1
    have hcover' : ∀ c ∈ bs, c ≤ b ∨ c ∈ rest := by
      intro c hc
      rcases hcover c hc with h | h
      · left; omega
      · rcases List.mem_cons.mp h with rfl | h
        · left; exact le_refl _
        · right; exact h
    have hsub' : ∀ c ∈ rest, c ∈ bs := fun c hc => hsub c (List.mem_cons_of_mem _ hc)
    have hbmem : b ∈ bs := hsub b (List.mem_cons_self _ _)
    have hzero' : ∀ (acc : List Int) (s : Int), b = 0 → acc = [] ∧ s = 0 := by
      intro _ _ h; omega
    simp only [Paragraph.LineBreakLoop]
    split
    · -- the candidate overflows: commit `lastBreakPos` and start the line there
      have hnone : NoBreakBetween bs lastBreakPos b := by
        intro c hc hcc
        rcases hcover c hc with h | h
        · omega
        · rcases List.mem_cons.mp h with rfl | h
          · omega
          · have := hgt' c h
            omega
      by_cases hl : lastBreakPos > 0
      · simp only [hl, if_true]
        apply ih lastBreakPos b (lineBreaks ++ [lastBreakPos]) hsorted' hgt' (by omega)
          hcover' hsub' (hzero' _ _) (endOf_snoc _ _ _).symm (fun _ => ⟨hbmem, Or.inr hnone⟩)
        intro r hr
        rw [consecutiveRanges_snoc, List.mem_append, List.mem_singleton] at hr
        rcases hr with hr | rfl
        · exact hacc r hr
        · rw [← hstart]
          exact hpending hl
      · simp only [hl, if_false]
        have hl0 : lastBreakPos = 0 := by omega
        obtain ⟨hnil, _⟩ := hzero hl0
        apply ih lastBreakPos b lineBreaks hsorted' hgt' (by omega) hcover' hsub'
          (hzero' _ _) (by rw [hnil, hl0]; rfl) (fun _ => ⟨hbmem, Or.inr hnone⟩) hacc
    · -- the candidate fits: it becomes the break that may be committed
      rename_i hfit
      apply ih lineStart b lineBreaks hsorted' hgt' (by omega) hcover' hsub' (hzero' _ _)
        hstart (fun _ => ⟨hbmem, Or.inl (not_lt.mp hfit)⟩) hacc

theorem LineRangeLoop_calls (length : Int) :
    ∀ (cs : List Int) (start : Int) (calls : List (Int × Int)),
      ∀ r ∈ (Paragraph.LineRangeLoop length cs start calls).2,
        r ∈ calls ∨ (r ∈ consecutiveRanges start cs ∧ r.2 < length) := by
  intro cs
  induction cs with
  | nil => intro start calls r hr; left; simpa [Paragraph.LineRangeLoop] using hr
  | cons c rest ih =>
    intro start calls r hr
    simp only [Paragraph.LineRangeLoop] at hr
    split at hr
    · left; exact hr
    · rename_i hc
      rcases ih c (calls ++ [(start, c)]) r hr with h | h
      · rcases List.mem_append.mp h with h | h
        · left; exact h
        · right
          simp only [List.mem_singleton] at h
          subst h
          exact ⟨by simp [consecutiveRanges], by simpa using hc⟩
      · right
        exact ⟨by simp [consecutiveRanges, h.1], h.2⟩

/-- C20: for strictly increasing, positive potential breaks and every width, each range
that `Layout` passes to `AddLine` before the last one (the ranges that end at a committed
lookback break) ends at a potential break and either measures at most `width`, as
`max(before, after)` of `MeasureText` over exactly that range, or has no potential break
strictly inside. -/
theorem Layout_nonfinal_lines_fit (p : Paragraph) (width : Int) (bs : List Int)
    (hsorted : bs.Pairwise (fun a b => a < b)) (hpos : ∀ b ∈ bs, 0 < b) :
    ∀ r ∈ (p.LayoutRanges width bs).dropLast,
      r.2 ∈ bs ∧ r.2 < p.length ∧
        (p.lineWidth r.1 r.2 ≤ width ∨ NoBreakBetween bs r.1 r.2) := by
  intro r hr
  have hloop := LineBreakLoop_pairs p width bs bs 0 0 [] hsorted hpos (le_refl _)
    (fun c hc => Or.inr hc) (fun c hc => hc) (fun _ => ⟨rfl, rfl⟩) rfl
    (fun h => absurd h (lt_irrefl _)) (by intro r hr; simp [consecutiveRanges] at hr)
  simp only [Paragraph.LayoutRanges, Paragraph.LineRanges, List.dropLast_concat] at hr
  rcases LineRangeLoop_calls p.length _ 0 [] r hr with h | ⟨h, hlt⟩
  · simp at h
  · simp only [Paragraph.LineBreaks, consecutiveRanges_snoc, List.mem_append,
      List.mem_singleton] at h
    rcases h with h | rfl
    · exact ⟨(hloop r h).1, hlt, (hloop r h).2⟩
    · simp at hlt

/-- The sample text of 23 code units with the breaks `[6, 11, 20]` at width 150: the one
line before the last, `[0, 11)`, measures 110. -/
theorem Layout_nonfinal_lines_fit_witness :
    ([(6 : Int), 11, 20].Pairwise (fun a b => a < b) ∧ ∀ b ∈ [(6 : Int), 11, 20], 0 < b) ∧
    (scenarioParagraph.LayoutRanges 150 [6, 11, 20]).dropLast = [(0, 11)] ∧
    scenarioParagraph.lineWidth 0 11 = 110 ∧
    ∀ r ∈ (scenarioParagraph.LayoutRanges 150 [6, 11, 20]).dropLast,
      r.2 ∈ [(6 : Int), 11, 20] ∧ r.2 < scenarioParagraph.length ∧
        (scenarioParagraph.lineWidth r.1 r.2 ≤ 150 ∨
          NoBreakBetween [6, 11, 20] r.1 r.2) :=
  ⟨⟨by decide, by decide⟩, by decide, by decide,
    Layout_nonfinal_lines_fit scenarioParagraph 150 [6, 11, 20] (by decide) (by decide)⟩

/-! ### Degenerate ranges -/

theorem ShapeBidiRun_degenerate (env : Env) (p : Paragraph) (start limit : Int)
    (bidiLevel : Nat) (h : start ≥ min limit p.length) :
    p.ShapeBidiRun env start limit bidiLevel = p := by
  simp [Paragraph.ShapeBidiRun, h]

theorem ShapeSpan_degenerate (env : Env) (text : List Nat) (start limit : Int)
    (bidiLevel : Nat) (fonts : Option FontCollection) (style : Option Style)
    (result : Option (List ShapedText)) (h : start ≥ limit) :
    ShapeSpan env text start limit bidiLevel fonts style result = result := by
  unfold ShapeSpan
  split
  · simp [h]
  · rfl

theorem ShapeParagraph_empty (env : Env) (p : Paragraph) (ht : p.text = [])
    (hb : BidiContract env p.text) : p.ShapeParagraph env = some p := by
  have hnone : ∀ start : Int, 0 ≤ start → env.getLogicalRun p.text start = none := by
    intro start h0
    have hc := hb start
    cases hrun : env.getLogicalRun p.text start with
    | none => rfl
    | some r =>
      rw [hrun] at hc
      simp only [ht, List.length_nil, Nat.cast_zero] at hc
      omega
  have hlen : p.text.length + 2 = 1 + 1 := by simp [ht]
  have hshape : p.ShapeBidiRun env 0 1 0 = p :=
    ShapeBidiRun_degenerate env p 0 1 0 (by simp [Paragraph.length, ht])
  unfold Paragraph.ShapeParagraph
  rw [hlen]
  have hstep : Paragraph.ShapeLogicalRuns env (1 + 1) p 0 1 0 =
      Paragraph.ShapeLogicalRuns env 1 (p.ShapeBidiRun env 0 1 0) 1 1 0 := by
    simp [Paragraph.ShapeLogicalRuns, hnone 0 (le_refl _)]
  rw [hstep, hshape]
  exact ShapeLogicalRuns_done env 0 p 1 1 0 (hnone 1 (by decide)) (le_refl _)

theorem LineRanges_empty_text (cs : List Int) (hpos : ∀ c ∈ cs, 0 < c) :
    Paragraph.LineRanges 0 (cs ++ [0]) = [(0, 0)] := by
  cases cs with
  | nil => simp [Paragraph.LineRanges, Paragraph.LineRangeLoop]
  | cons c rest =>
    have hc : c ≥ 0 := le_of_lt (hpos c (List.mem_cons_self _ _))
    simp [Paragraph.LineRanges, Paragraph.LineRangeLoop, hc]

theorem AddLine_degenerate (env : Env) (p : Paragraph) (job : DiffJob)
    (paraBidi lineBidi : Option Unit) (width start limit : Int) (h : start ≥ limit) :
    p.AddLine env job paraBidi lineBidi width start limit = job := by
  simp [Paragraph.AddLine, h]

/-- C16: for `start ≥ limit`, `ShapeBidiRun` returns the paragraph as it is (no run is
added to either sequence), `ShapeSpan` returns the result vector as it is,
`FindPotentialLineBreaks(start, limit, ...)` returns the break vector as it is, and
`AddLine` returns the job as it is (no page, no line, flag untouched); `ShapeSpan` also
returns the result vector as it is when the font collection, the style or the vector is
null, and `AddLine` returns the job as it is when a bidi handle is null. `Layout` on a
paragraph without text returns and leaves both the runs and the job as they were. -/
theorem degenerate_ranges_are_noops (env : Env) (p : Paragraph) (job : DiffJob)
    (text : List Nat) (width start limit : Int) (bidiLevel : Nat)
    (fonts : Option FontCollection) (style : Option Style)
    (result : Option (List ShapedText)) (language : Option Language)
    (breaks : Option (List Int)) (paraBidi lineBidi : Option Unit) (h : start ≥ limit) :
    p.ShapeBidiRun env start limit bidiLevel = p ∧
    ShapeSpan env text start limit bidiLevel fonts style result = result ∧
    p.FindPotentialLineBreaksIn env start limit language breaks = breaks ∧
    p.AddLine env job paraBidi lineBidi width start limit = job ∧
    (∀ s l : Int,
      ShapeSpan env text s l bidiLevel none style result = result ∧
      ShapeSpan env text s l bidiLevel fonts none result = result ∧
      ShapeSpan env text s l bidiLevel fonts style none = none ∧
      p.AddLine env job none lineBidi width s l = job ∧
      p.AddLine env job paraBidi none width s l = job) ∧
    (p.text = [] → BidiContract env p.text → (∀ s ∈ p.spans, s.style ≠ none) →
      p.Layout env job width = some (p, job)) := by
  refine ⟨?_, ShapeSpan_degenerate env text start limit bidiLevel fonts style result h, ?_,
    AddLine_degenerate env p job paraBidi lineBidi width start limit h, ?_, ?_⟩
  · apply ShapeBidiRun_degenerate
    have := min_le_left limit p.length
    omega
  · unfold Paragraph.FindPotentialLineBreaksIn
    split
    · simp [h]
    · rfl
  · intro s l
    refine ⟨rfl, ?_, ?_, by simp [Paragraph.AddLine], by simp [Paragraph.AddLine]⟩
    · cases fonts <;> rfl
    · cases fonts <;> cases style <;> rfl
  · intro ht hb hs
    have hq := ShapeParagraph_empty env p ht hb
    obtain ⟨bs, hbs⟩ := FindPotentialLineBreaks_returns env p hs
    rw [Layout_eq env p p job width bs hq hbs]
    obtain ⟨cs, h1, _, h3⟩ := LineBreakLoop_commits p width bs 0 0 []
    have hlen : p.length = 0 := by simp [Paragraph.length, ht]
    have hranges : p.LayoutRanges width bs = [(0, 0)] := by
      simp only [Paragraph.LayoutRanges, Paragraph.LineBreaks, h1, hlen, List.nil_append]
      exact LineRanges_empty_text cs h3
    rw [hranges]
    simp [Paragraph.AddLines, Paragraph.AddLine]

/-- The empty range `[5, 5)` on the sample paragraph, and `Layout` on a new paragraph
without spans. -/
theorem degenerate_ranges_are_noops_witness :
    (5 : Int) ≥ 5 ∧
    helloParagraph.AddLine sampleEnv emptyJob (some ()) (some ()) 70 5 5 = emptyJob ∧
    (Paragraph.new none none).Layout sampleEnv emptyJob 70 =
      some (Paragraph.new none none, emptyJob) :=
  ⟨by decide,
    (degenerate_ranges_are_noops sampleEnv helloParagraph emptyJob [] 70 5 5 0 none none none
      none none (some ()) (some ()) (by decide)).2.2.2.1,
    (degenerate_ranges_are_noops sampleEnv (Paragraph.new none none) emptyJob [] 70 5 5 0 none
      none none none none (some ()) (some ()) (by decide)).2.2.2.2.2 rfl (sampleEnv_bidi _)
      (by simp [Paragraph.new])⟩

/-! ### The loop of `ShapeSpan` -/

/-- Every invariant of the loop body holds when the loop of `ShapeSpan` ends. -/
theorem ShapeSpanLoop_invariant (env : Env) (text : List Nat) (limit : Int) (bidiLevel : Nat)
    (fonts : FontCollection) (style : Style) (I : ShapeState → Prop)
    (hstep : ∀ st, I st → st.pos < limit → I (ShapeSpanStep env text bidiLevel fonts style st)) :
    ∀ (n : Nat) (st : ShapeState), I st →
      I (ShapeSpanLoop env text limit bidiLevel fonts style n st) := by
  intro n
  induction n with
  | zero => intro st h; exact h
  | succ n ih =>
    intro st h
    simp only [ShapeSpanLoop]
    split
    · rename_i hlt
      exact ih _ (hstep st h hlt)
    · exact h

/-- The effect of one round of the loop of `ShapeSpan`: the position moves by two code
units over a code point above `U+FFFF` and by one otherwise; and either nothing else
changes, or a new segment starts at the position, with or without the old segment being
emitted. -/
theorem ShapeSpanStep_cases (env : Env) (text : List Nat) (bidiLevel : Nat)
    (fonts : FontCollection) (style : Style) (st : ShapeState) :
    (ShapeSpanStep env text bidiLevel fonts style st).pos =
      st.pos + (if char32At text st.pos > 0xFFFF then 2 else 1) ∧
    ((scanFont text fonts style st = st.lastFont ∧ scanScript env text st = st.lastScript ∧
        (ShapeSpanStep env text bidiLevel fonts style st).last = st.last ∧
        (ShapeSpanStep env text bidiLevel fonts style st).lastFont = st.lastFont ∧
        (ShapeSpanStep env text bidiLevel fonts style st).lastScript = st.lastScript ∧
        (ShapeSpanStep env text bidiLevel fonts style st).result = st.result) ∨
      ((scanFont text fonts style st ≠ st.lastFont ∨ scanScript env text st ≠ st.lastScript) ∧
        (ShapeSpanStep env text bidiLevel fonts style st).last = st.pos ∧
        (ShapeSpanStep env text bidiLevel fonts style st).lastFont =
          scanFont text fonts style st ∧
        (ShapeSpanStep env text bidiLevel fonts style st).lastScript =
          scanScript env text st ∧
        ((∃ f, st.lastFont = some f ∧ st.last < st.pos ∧
            (ShapeSpanStep env text bidiLevel fonts style st).result =
              st.result ++
                [ShapedText.create env text st.last st.pos bidiLevel st.lastScript f style]) ∨
          ((st.lastFont = none ∨ ¬ st.last < st.pos) ∧
            (ShapeSpanStep env text bidiLevel fonts style st).result = st.result)))) := by
  constructor
  · simp only [ShapeSpanStep]
    split <;> omega
  · by_cases hch : scanFont text fonts style st ≠ st.lastFont ∨
        scanScript env text st ≠ st.lastScript
    · right
      have hch' : fonts.FindFont (char32At text st.pos) style st.lastFont ≠ st.lastFont ∨
          (if env.script (char32At text st.pos) = HB_SCRIPT_COMMON ∨
              env.script (char32At text st.pos) = HB_SCRIPT_INHERITED then st.lastScript
            else env.script (char32At text st.pos)) ≠ st.lastScript := hch
      refine ⟨hch, ?_⟩
      simp only [ShapeSpanStep, hch', if_true, scanFont, scanScript, true_and]
      cases hf : st.lastFont with
      | none => right; exact ⟨Or.inl rfl, rfl⟩
      | some f =>
        by_cases hl : st.last < st.pos
        · left; exact ⟨f, rfl, hl, by simp [hl]⟩
        · right; exact ⟨Or.inr hl, by simp [hl]⟩
    · left
      have hch' : ¬ (fonts.FindFont (char32At text st.pos) style st.lastFont ≠ st.lastFont ∨
          (if env.script (char32At text st.pos) = HB_SCRIPT_COMMON ∨
              env.script (char32At text st.pos) = HB_SCRIPT_INHERITED then st.lastScript
            else env.script (char32At text st.pos)) ≠ st.lastScript) := hch
      simp only [not_or, not_not] at hch
      refine ⟨hch.1, hch.2, ?_⟩
      simp only [ShapeSpanStep, hch', if_false, and_self]

/-- The value of `ShapeSpan` on a non-empty range with a font collection, a style and a
result vector: the loop, then the segment that is still open. -/
theorem ShapeSpan_eq (env : Env) (text : List Nat) (start limit : Int) (bidiLevel : Nat)
    (fonts : FontCollection) (style : Style) (res : List ShapedText) (h : start < limit) :
    ShapeSpan env text start limit bidiLevel (some fonts) (some style) (some res) =
      some (match (ShapeSpanLoop env text limit bidiLevel fonts style (limit - start).toNat
          (ShapeState.initial start res)).lastFont with
        | some f =>
          if (ShapeSpanLoop env text limit bidiLevel fonts style (limit - start).toNat
              (ShapeState.initial start res)).last < limit then
            (ShapeSpanLoop env text limit bidiLevel fonts style (limit - start).toNat
              (ShapeState.initial start res)).result ++
              [ShapedText.create env text
                (ShapeSpanLoop env text limit bidiLevel fonts style (limit - start).toNat
                  (ShapeState.initial start res)).last limit bidiLevel
                (ShapeSpanLoop env text limit bidiLevel fonts style (limit - start).toNat
                  (ShapeState.initial start res)).lastScript f style]
          else
            (ShapeSpanLoop env text limit bidiLevel fonts style (limit - start).toNat
              (ShapeState.initial start res)).result
        | none =>
          (ShapeSpanLoop env text limit bidiLevel fonts style (limit - start).toNat
            (ShapeState.initial start res)).result) := by
  have hge : ¬ (start ≥ limit) := by omega
  simp only [ShapeSpan, hge, if_false, ShapeState.initial]
  generalize ShapeSpanLoop env text limit bidiLevel fonts style (limit - start).toNat
    { pos := start, last := start, lastFont := none, lastScript := HB_SCRIPT_INVALID,
      result := res } = st
  cases st.lastFont with
  | none => rfl
  | some f => simp only; split <;> rfl

theorem ShapeSpan_run (env : Env) (text : List Nat) (start limit : Int) (bidiLevel : Nat)
    (fonts : FontCollection) (style : Style) (res : List ShapedText) (h : start < limit)
    (I : ShapeState → Prop) (hinit : I (ShapeState.initial start res))
    (hstep : ∀ st, I st → st.pos < limit → I (ShapeSpanStep env text bidiLevel fonts style st)) :
    ∃ st, I st ∧ ¬ st.pos < limit ∧
      ShapeSpan env text start limit bidiLevel (some fonts) (some style) (some res) =
        some (closeSegment env text limit bidiLevel style st) := by
  refine ⟨ShapeSpanLoop env text limit bidiLevel fonts style (limit - start).toNat
    (ShapeState.initial start res), ?_, ?_, ?_⟩
  · exact ShapeSpanLoop_invariant env text limit bidiLevel fonts style I hstep _ _ hinit
  · exact ShapeSpanLoop_exit env text limit bidiLevel fonts style _ _ (le_refl _)
  · rw [ShapeSpan_eq env text start limit bidiLevel fonts style res h]
    rfl

/-! ### Runs one after the other -/

theorem RunsBetween_append (R : Int → Int → Prop)
    (htrans : ∀ a b c, R a b → R b c → R a c) :
    ∀ (xs ys : List ShapedText) (a b c : Int),
      RunsBetween R xs a b → RunsBetween R ys b c → RunsBetween R (xs ++ ys) a c := by
  intro xs
  induction xs with
  | nil =>
    intro ys a b c hx hy
    cases ys with
    | nil => exact htrans a b c hx hy
    | cons y rest => exact ⟨htrans a b _ hx hy.1, hy.2.1, hy.2.2⟩
  | cons x rest ih =>
    intro ys a b c hx hy
    exact ⟨hx.1, hx.2.1, ih ys _ b c hx.2.2 hy⟩

theorem RunsBetween_mono (R S : Int → Int → Prop) (h : ∀ a b, R a b → S a b) :
    ∀ (xs : List ShapedText) (a b : Int), RunsBetween R xs a b → RunsBetween S xs a b := by
  intro xs
  induction xs with
  | nil => intro a b hx; exact h a b hx
  | cons x rest ih => intro a b hx; exact ⟨h _ _ hx.1, hx.2.1, ih _ b hx.2.2⟩

theorem RunsBetween_le_trans : ∀ a b c : Int, a ≤ b → b ≤ c → a ≤ c :=
  fun _ _ _ h1 h2 => le_trans h1 h2

theorem RunsBetween_eq_trans : ∀ a b c : Int, a = b → b = c → a = c :=
  fun _ _ _ h1 h2 => h1.trans h2

theorem RunsBetween_widen (xs : List ShapedText) (a b c : Int)
    (h : RunsBetween (fun x y => x ≤ y) xs a b) (hbc : b ≤ c) :
    RunsBetween (fun x y => x ≤ y) xs a c := by
  have := RunsBetween_append (fun x y => x ≤ y) RunsBetween_le_trans xs [] a b c h hbc
  simpa using this

theorem RunsBetween_widen_left (xs : List ShapedText) (a b c : Int)
    (h : RunsBetween (fun x y => x ≤ y) xs b c) (hab : a ≤ b) :
    RunsBetween (fun x y => x ≤ y) xs a c :=
  RunsBetween_append (fun x y => x ≤ y) RunsBetween_le_trans [] xs a b c hab h

theorem RunsBetween_of_eq (xs : List ShapedText) (a b : Int)
    (h : RunsBetween (fun x y => x = y) xs a b) : RunsBetween (fun x y => x ≤ y) xs a b :=
  RunsBetween_mono _ _ (fun _ _ h => le_of_eq h) xs a b h

theorem RunsBetween_snoc (R : Int → Int → Prop) (htrans : ∀ a b c, R a b → R b c → R a c)
    (hrefl : ∀ a, R a a) (xs : List ShapedText) (r : ShapedText) (a : Int)
    (h : RunsBetween R xs a r.start) (hr : r.start < r.limit) :
    RunsBetween R (xs ++ [r]) a r.limit :=
  RunsBetween_append R htrans xs [r] a r.start r.limit h ⟨hrefl _, hr, hrefl _⟩

/-- Runs that lie one after the other between `a` and `b` are not empty, lie inside
`[a, b)`, and each ends before, or where, the next starts. -/
theorem RunsBetween_bounds (R : Int → Int → Prop) (hle : ∀ a b, R a b → a ≤ b) :
    ∀ (xs : List ShapedText) (a b : Int), RunsBetween R xs a b →
      a ≤ b ∧ (∀ r ∈ xs, a ≤ r.start ∧ r.start < r.limit ∧ r.limit ≤ b) ∧
      List.Chain' (fun r r' => R r.limit r'.start) xs ∧
      (∀ r, xs.head? = some r → R a r.start) ∧ (∀ r, xs.getLast? = some r → R r.limit b) := by
  intro xs
  induction xs with
  | nil => intro a b h; exact ⟨hle a b h, by simp, by simp, by simp, by simp⟩
  | cons x rest ih =>
    intro a b h
    obtain ⟨h1, h2, h3⟩ := h
    obtain ⟨i1, i2, i3, i4, i5⟩ := ih x.limit b h3
    have hax := hle _ _ h1
    refine ⟨by omega, ?_, ?_, ?_, ?_⟩
    · intro r hr
      rcases List.mem_cons.mp hr with rfl | hr
      · exact ⟨hax, h2, i1⟩
      · have := i2 r hr
        exact ⟨by omega, this.2.1, this.2.2⟩
    · rw [List.chain'_cons']
      exact ⟨fun y hy => i4 y hy, i3⟩
    · intro r hr
      simp only [List.head?_cons, Option.some.injEq] at hr
      subst hr
      exact h1
    · intro r hr
      cases rest with
      | nil =>
        simp only [List.getLast?_singleton, Option.some.injEq] at hr
        subst hr
        exact h3
      | cons y rest' =>
        rw [List.getLast?_cons_cons] at hr
        exact i5 r hr

/-- The runs that `ShapeSpan` appends on a non-empty range lie one after the other inside
the range, carry the style and the bidi level of the call, and cover the range without a
gap when the font resolver returns a font at every offset of it. -/
theorem ShapeSpan_runs (env : Env) (text : List Nat) (s l : Int) (bidiLevel : Nat)
    (fonts : FontCollection) (style : Style) (res : List ShapedText) (h : s < l) :
    ∃ new, ShapeSpan env text s l bidiLevel (some fonts) (some style) (some res) =
        some (res ++ new) ∧
      RunsBetween (fun x y => x ≤ y) new s l ∧
      (∀ run ∈ new, run.style = style ∧ run.bidiLevel = bidiLevel) ∧
      (Renderable text fonts style s l → RunsBetween (fun x y => x = y) new s l) := by
  obtain ⟨st, hI, hexit, heq⟩ := ShapeSpan_run env text s l bidiLevel fonts style res h
    (fun st => ∃ new, st.result = res ++ new ∧
      RunsBetween (fun x y => x ≤ y) new s st.last ∧ st.last ≤ st.pos ∧ st.last < l ∧
      s ≤ st.last ∧ (∀ run ∈ new, run.style = style ∧ run.bidiLevel = bidiLevel) ∧
      (Renderable text fonts style s l →
        RunsBetween (fun x y => x = y) new s st.last ∧ (st.lastFont = none → st.last = st.pos)))
    ⟨[], by simp [ShapeState.initial], le_refl _, le_refl _, h, le_refl _, by simp,
      fun _ => ⟨rfl, fun _ => rfl⟩⟩
    (by
      rintro st ⟨new, hres, hord, hlp, hll, hsl, hsty, hex⟩ hlt
      obtain ⟨hpos, hcase⟩ := ShapeSpanStep_cases env text bidiLevel fonts style st
      have hadv : st.pos + 1 ≤ (ShapeSpanStep env text bidiLevel fonts style st).pos := by
        rw [hpos]; split <;> omega
      rcases hcase with ⟨hf, _, e1, e2, _, e4⟩ | ⟨_, e1, e2, _, hemit⟩
      · refine ⟨new, by rw [e4, hres], by rw [e1]; exact hord, by rw [e1]; omega,
          by rw [e1]; exact hll, by rw [e1]; exact hsl, hsty, ?_⟩
        intro hr
        refine ⟨by rw [e1]; exact (hex hr).1, ?_⟩
        intro hnone
        rw [e2, ← hf] at hnone
        exact absurd hnone (hr st.pos st.lastFont (by omega) hlt)
      · have hfont : Renderable text fonts style s l →
            (ShapeSpanStep env text bidiLevel fonts style st).lastFont = none →
            (ShapeSpanStep env text bidiLevel fonts style st).last =
              (ShapeSpanStep env text bidiLevel fonts style st).pos := by
          intro hr hnone
          rw [e2] at hnone
          exact absurd hnone (hr st.pos st.lastFont (by omega) hlt)
        rcases hemit with ⟨f, hf, hlast, e4⟩ | ⟨hno, e4⟩
        · refine ⟨new ++ [ShapedText.create env text st.last st.pos bidiLevel st.lastScript f
              style], by rw [e4, hres, List.append_assoc], ?_, by rw [e1]; omega,
            by rw [e1]; exact hlt, by rw [e1]; omega, ?_, ?_⟩
          · rw [e1]
            exact RunsBetween_snoc _ RunsBetween_le_trans (fun _ => le_refl _) new
              (ShapedText.create env text st.last st.pos bidiLevel st.lastScript f style) s
              hord hlast
          · intro run hrun
            rcases List.mem_append.mp hrun with hrun | hrun
            · exact hsty run hrun
            · simp only [List.mem_singleton] at hrun
              subst hrun
              exact ⟨rfl, rfl⟩
          · intro hr
            refine ⟨?_, hfont hr⟩
            rw [e1]
            exact RunsBetween_snoc _ RunsBetween_eq_trans (fun _ => rfl) new
              (ShapedText.create env text st.last st.pos bidiLevel st.lastScript f style) s
              (hex hr).1 hlast
        · refine ⟨new, by rw [e4, hres], by rw [e1]; exact RunsBetween_widen new s _ _ hord hlp,
            by rw [e1]; omega, by rw [e1]; exact hlt, by rw [e1]; omega, hsty, ?_⟩
          intro hr
          refine ⟨?_, hfont hr⟩
          have hsame : st.last = st.pos := by
            rcases hno with hnone | hnl
            · exact (hex hr).2 hnone
            · omega
          rw [e1, ← hsame]
          exact (hex hr).1)
  obtain ⟨new, hres, hord, hlp, hll, hsl, hsty, hex⟩ := hI
  rw [heq]
  unfold closeSegment
  cases hf : st.lastFont with
  | none =>
    refine ⟨new, by simp [hres], RunsBetween_widen new s _ _ hord (le_of_lt hll), hsty, ?_⟩
    intro hr
    have := (hex hr).2 hf
    omega
  | some f =>
    simp only [hll, if_true]
    refine ⟨new ++ [ShapedText.create env text st.last l bidiLevel st.lastScript f style],
      by rw [hres, List.append_assoc], ?_, ?_, ?_⟩
    · exact RunsBetween_snoc _ RunsBetween_le_trans (fun _ => le_refl _) new
        (ShapedText.create env text st.last l bidiLevel st.lastScript f style) s hord hll
    · intro run hrun
      rcases List.mem_append.mp hrun with hrun | hrun
      · exact hsty run hrun
      · simp only [List.mem_singleton] at hrun
        subst hrun
        exact ⟨rfl, rfl⟩
    · intro hr
      exact RunsBetween_snoc _ RunsBetween_eq_trans (fun _ => rfl) new
        (ShapedText.create env text st.last l bidiLevel st.lastScript f style) s (hex hr).1 hll

/-- The runs that any `ShapeSpan` call appends to its result vector: none on an empty
range or without a font collection or style; otherwise as in `ShapeSpan_runs`. -/
theorem ShapeSpan_appends (env : Env) (text : List Nat) (s l : Int) (bidiLevel : Nat)
    (fonts : Option FontCollection) (style : Option Style) (res : List ShapedText) :
    ∃ new, ShapeSpan env text s l bidiLevel fonts style (some res) = some (res ++ new) ∧
      (s ≤ l → RunsBetween (fun x y => x ≤ y) new s l) ∧
      (∀ run ∈ new, some run.style = style ∧ run.bidiLevel = bidiLevel ∧
        s ≤ run.start ∧ run.start < run.limit ∧ run.limit ≤ l) ∧
      (∀ fc sty, fonts = some fc → style = some sty → Renderable text fc sty s l → s ≤ l →
        RunsBetween (fun x y => x = y) new s l) := by
  have hnil : ShapeSpan env text s l bidiLevel fonts style (some res) = some res →
      ∃ new, ShapeSpan env text s l bidiLevel fonts style (some res) = some (res ++ new) ∧
        (s ≤ l → RunsBetween (fun x y => x ≤ y) new s l) ∧
        (∀ run ∈ new, some run.style = style ∧ run.bidiLevel = bidiLevel ∧
          s ≤ run.start ∧ run.start < run.limit ∧ run.limit ≤ l) ∧
        (∀ fc sty, fonts = some fc → style = some sty → Renderable text fc sty s l → s ≤ l →
          (s < l → False) → RunsBetween (fun x y => x = y) new s l) := by
    intro h
    refine ⟨[], by simpa using h, fun h => h, by simp, ?_⟩
    intro _ _ _ _ _ hle hnlt
    have hnot : ¬ s < l := hnlt
    show s = l
    omega
  by_cases hsl : s < l
  · cases fonts with
    | none => obtain ⟨new, h1, h2, h3, _⟩ := hnil rfl; exact ⟨new, h1, h2, h3, by simp⟩
    | some fc =>
      cases style with
      | none =>
        obtain ⟨new, h1, h2, h3, _⟩ := hnil rfl
        exact ⟨new, h1, h2, h3, by simp⟩
      | some sty =>
        obtain ⟨new, h1, h2, h3, h4⟩ := ShapeSpan_runs env text s l bidiLevel fc sty res hsl
        refine ⟨new, h1, fun _ => h2, ?_, ?_⟩
        · intro run hrun
          have hb := (RunsBetween_bounds _ (fun _ _ h => h) new s l h2).2.1 run hrun
          exact ⟨by rw [(h3 run hrun).1], (h3 run hrun).2, hb⟩
        · intro fc' sty' hfc hsty hr _
          simp only [Option.some.injEq] at hfc hsty
          subst hfc hsty
          exact h4 hr
  · obtain ⟨new, h1, h2, h3, h4⟩ := hnil
      (ShapeSpan_degenerate env text s l bidiLevel fonts style (some res) (by omega))
    exact ⟨new, h1, h2, h3, fun fc sty a b c d => h4 fc sty a b c d hsl⟩

/-! ### `ShapeBidiRun`: the walk over the spans -/

theorem Renderable_sub (text : List Nat) (fonts : FontCollection) (style : Style)
    (a b c d : Int) (h : Renderable text fonts style a b) (hac : a ≤ c) (hdb : d ≤ b) :
    Renderable text fonts style c d :=
  fun pos hint h1 h2 => h pos hint (by omega) (by omega)

theorem drop_cons_index (spans : List Span) (k : Nat) (span : Span) (rest : List Span)
    (h : spans.drop k = span :: rest) :
    k < spans.length ∧ spans.getD k default = span ∧ spans.drop (k + 1) = rest := by
  have hk : k < spans.length := by
    by_contra hge
    rw [List.drop_eq_nil_of_le (by omega)] at h
    exact List.noConfusion h
  rw [List.drop_eq_getElem_cons hk] at h
  simp only [List.cons.injEq] at h
  refine ⟨hk, ?_, h.2⟩
  rw [List.getD_eq_getElem?_getD, List.getElem?_eq_getElem hk]
  exact h.1

theorem ShapeBidiRunLoop_runs (env : Env) (limit : Int) (bidiLevel : Nat)
    (spans : List Span) (hnd : NonDecreasingLimits spans) :
    ∀ (rest : List Span) (k : Nat) (spanStart : Int) (p : Paragraph),
      spans.drop k = rest → k ≤ spans.length → prevLimit spans k ≤ spanStart →
      (k < spans.length → spanStart ≤ limitAt spans k) →
      ∃ newB newA,
        (Paragraph.ShapeBidiRunLoop env limit bidiLevel rest spanStart p).beforeRuns =
          p.beforeRuns ++ newB ∧
        (Paragraph.ShapeBidiRunLoop env limit bidiLevel rest spanStart p).afterRuns =
          p.afterRuns ++ newA ∧
        RunsOfSpans p.text spans p.beforeFonts k spanStart limit newB ∧
        RunsOfSpans p.text spans p.afterFonts k spanStart limit newA := by
  intro rest
  induction rest with
  | nil =>
    intro k spanStart p hdrop hk hprev _
    have hkl : k = spans.length := by
      have := List.drop_eq_nil_iff.mp hdrop
      omega
    have hempty : ∀ fonts, RunsOfSpans p.text spans fonts k spanStart limit [] := by
      intro fonts
      refine ⟨⟨spanStart, le_refl _⟩, by simp, ?_⟩
      intro _ _ _ hab hb
      show spanStart = limit
      rw [hkl] at hprev
      have : lastLimit spans ≤ spanStart := hprev
      omega
    exact ⟨[], [], by simp [Paragraph.ShapeBidiRunLoop], by simp [Paragraph.ShapeBidiRunLoop],
      hempty _, hempty _⟩
  | cons span rest ih =>
    intro k spanStart p hdrop hk hprev hlim
    obtain ⟨hklt, hspan, hrest⟩ := drop_cons_index spans k span rest hdrop
    have hsl : span.limit = limitAt spans k := by rw [limitAt, hspan]
    have hstart : spanStart ≤ span.limit := by rw [hsl]; exact hlim hklt
    by_cases hlt : spanStart < limit
    · obtain ⟨nB, hB, oB, mB, cB⟩ := ShapeSpan_appends env p.text spanStart
        (min limit span.limit) bidiLevel p.beforeFonts span.style p.beforeRuns
      obtain ⟨nA, hA, oA, mA, cA⟩ := ShapeSpan_appends env p.text spanStart
        (min limit span.limit) bidiLevel p.afterFonts span.style p.afterRuns
      have hmin : spanStart ≤ min limit span.limit := le_min (le_of_lt hlt) hstart
      obtain ⟨nB', nA', hB', hA', rB, rA⟩ := ih (k + 1) span.limit
        { p with beforeRuns := p.beforeRuns ++ nB, afterRuns := p.afterRuns ++ nA }
        hrest (by omega)
        (by simp only [prevLimit, Nat.succ_pos, if_true, Nat.add_sub_cancel]; omega)
        (by intro h; rw [hsl]; exact limitAt_mono hnd (by omega) h)
      have hloop : Paragraph.ShapeBidiRunLoop env limit bidiLevel (span :: rest) spanStart p =
          Paragraph.ShapeBidiRunLoop env limit bidiLevel rest span.limit
            { p with beforeRuns := p.beforeRuns ++ nB, afterRuns := p.afterRuns ++ nA } := by
        simp only [Paragraph.ShapeBidiRunLoop, hlt, if_true, hB, hA, Option.getD_some]
      have hcombine : ∀ (fonts : Option FontCollection) (n n' : List ShapedText),
          (spanStart ≤ min limit span.limit →
            RunsBetween (fun x y => x ≤ y) n spanStart (min limit span.limit)) →
          (∀ run ∈ n, some run.style = span.style ∧ run.bidiLevel = bidiLevel ∧
            spanStart ≤ run.start ∧ run.start < run.limit ∧
            run.limit ≤ min limit span.limit) →
          (∀ fc sty, fonts = some fc → span.style = some sty →
            Renderable p.text fc sty spanStart (min limit span.limit) →
            spanStart ≤ min limit span.limit →
            RunsBetween (fun x y => x = y) n spanStart (min limit span.limit)) →
          RunsOfSpans p.text spans fonts (k + 1) span.limit limit n' →
          RunsOfSpans p.text spans fonts k spanStart limit (n ++ n') := by
        intro fonts n n' o m c r
        have hnil : limit ≤ span.limit → n' = [] := by
          intro hle
          cases n' with
          | nil => rfl
          | cons x xs =>
            have := r.inSpan x (List.mem_cons_self _ _)
            omega
        refine ⟨?_, ?_, ?_⟩
        · obtain ⟨c', hc'⟩ := r.ordered
          exact ⟨c', RunsBetween_append _ RunsBetween_le_trans n n' spanStart span.limit c'
            (RunsBetween_widen n spanStart _ _ (o hmin) (min_le_right _ _)) hc'⟩
        · intro run hrun
          rcases List.mem_append.mp hrun with hrun | hrun
          · obtain ⟨h1, h2, h3, h4, h5⟩ := m run hrun
            refine ⟨h3, h4, le_trans h5 (min_le_left _ _), k, le_refl _, hklt,
              le_trans hprev h3, ?_, ?_⟩
            · rw [← hsl]; exact le_trans h5 (min_le_right _ _)
            · rw [hspan]; exact h1.symm
          · obtain ⟨h2, h3, h4, i, hi1, hi2, hi3⟩ := r.inSpan run hrun
            exact ⟨by omega, h3, h4, i, by omega, hi2, hi3⟩
        · intro fc hfc hall hab hb
          obtain ⟨sty, hsty, hren⟩ := hall k (le_refl _) hklt
          rw [hspan] at hsty
          have hn := c fc sty hfc hsty
            (Renderable_sub p.text fc sty _ _ spanStart (min limit span.limit) hren
              (max_le (le_refl _) hprev) (by rw [hsl])) hmin
          by_cases hle : limit ≤ span.limit
          · rw [hnil hle, List.append_nil]
            rwa [min_eq_left hle] at hn
          · have hle' : span.limit ≤ limit := by omega
            rw [min_eq_right hle'] at hn
            refine RunsBetween_append _ RunsBetween_eq_trans n n' spanStart span.limit limit hn
              (r.covers fc hfc ?_ hle' hb)
            intro i hi1 hi2
            obtain ⟨sty', hs', hr'⟩ := hall i (by omega) hi2
            exact ⟨sty', hs', Renderable_sub p.text fc sty' _ _ _ _ hr'
              (max_le_max hstart (le_refl _)) (le_refl _)⟩
      rw [hloop]
      exact ⟨nB ++ nB', nA ++ nA', by rw [hB', List.append_assoc],
        by rw [hA', List.append_assoc], hcombine _ nB nB' oB mB cB rB,
        hcombine _ nA nA' oA mA cA rA⟩
    · have hempty : ∀ fonts, RunsOfSpans p.text spans fonts k spanStart limit [] := by
        intro fonts
        refine ⟨⟨spanStart, le_refl _⟩, by simp, ?_⟩
        intro _ _ _ hab _
        show spanStart = limit
        omega
      exact ⟨[], [], by simp [Paragraph.ShapeBidiRunLoop, hlt],
        by simp [Paragraph.ShapeBidiRunLoop, hlt], hempty _, hempty _⟩

theorem RunsOfSpans_empty (text : List Nat) (spans : List Span)
    (fonts : Option FontCollection) (k : Nat) (a b : Int) (h : b ≤ a) :
    RunsOfSpans text spans fonts k a b [] := by
  refine ⟨⟨a, le_refl _⟩, by simp, ?_⟩
  intro _ _ _ hab _
  show a = b
  omega

theorem RunsOfSpans_from_zero (text : List Nat) (spans : List Span)
    (fonts : Option FontCollection) (k : Nat) (a b : Int) (new : List ShapedText)
    (h : RunsOfSpans text spans fonts k a b new) : RunsOfSpans text spans fonts 0 a b new := by
  refine ⟨h.ordered, ?_, ?_⟩
  · intro run hrun
    obtain ⟨h1, h2, h3, i, _, hi⟩ := h.inSpan run hrun
    exact ⟨h1, h2, h3, i, Nat.zero_le _, hi⟩
  · intro fc hfc hall hab hb
    exact h.covers fc hfc (fun i _ hi => hall i (Nat.zero_le _) hi) hab hb

theorem FindSpan_facts (spans : List Span) (pos : Int) (hs : NonDecreasingLimits spans) :
    FindSpan spans pos ≤ spans.length ∧
    (∀ j, j < FindSpan spans pos → limitAt spans j ≤ pos) ∧
    (FindSpan spans pos < spans.length → pos < limitAt spans (FindSpan spans pos)) := by
  have h := FindSpanLoop_spec spans pos hs spans.length 0 spans.length
    (by omega) (by omega) (le_refl _) (by intro j hj; omega) (by intro h; omega)
  exact ⟨h.2.1, h.2.2.1, h.2.2.2⟩

theorem ShapeBidiRun_eq (env : Env) (p : Paragraph) (start limit : Int) (bidiLevel : Nat)
    (h : ¬ start ≥ min limit p.length) :
    p.ShapeBidiRun env start limit bidiLevel =
      Paragraph.ShapeBidiRunLoop env (min limit p.length) bidiLevel
        (p.spans.drop (if start > 0 then FindSpan p.spans start else 0))
        (max (prevLimit p.spans (if start > 0 then FindSpan p.spans start else 0)) start)
        p := by
  unfold Paragraph.ShapeBidiRun
  simp only [h, if_false]
  rfl

/-- The runs that `ShapeBidiRun` appends to the two run sequences of a paragraph whose
span limits do not decrease and are not negative. -/
theorem ShapeBidiRun_runs (env : Env) (p : Paragraph) (start limit : Int) (bidiLevel : Nat)
    (hnd : NonDecreasingLimits p.spans) (hnn : ∀ s ∈ p.spans, 0 ≤ s.limit) :
    ∃ newB newA,
      (p.ShapeBidiRun env start limit bidiLevel).beforeRuns = p.beforeRuns ++ newB ∧
      (p.ShapeBidiRun env start limit bidiLevel).afterRuns = p.afterRuns ++ newA ∧
      RunsOfSpans p.text p.spans p.beforeFonts 0 (max start 0) (min limit p.length) newB ∧
      RunsOfSpans p.text p.spans p.afterFonts 0 (max start 0) (min limit p.length) newA := by
  by_cases hge : start ≥ min limit p.length
  · rw [ShapeBidiRun_degenerate env p start limit bidiLevel hge]
    have hle : min limit p.length ≤ max start 0 := le_trans hge (le_max_left _ _)
    exact ⟨[], [], by simp, by simp, RunsOfSpans_empty _ _ _ _ _ _ hle,
      RunsOfSpans_empty _ _ _ _ _ _ hle⟩
  · rw [ShapeBidiRun_eq env p start limit bidiLevel hge]
    have hf := FindSpan_facts p.spans start hnd
    have hfirst : 0 < p.spans.length → 0 ≤ limitAt p.spans 0 := by
      intro h
      have hmem : p.spans.getD 0 default ∈ p.spans := by
        rw [List.getD_eq_getElem?_getD, List.getElem?_eq_getElem h]
        exact List.getElem_mem _
      exact hnn _ hmem
    have hstart : max (prevLimit p.spans (if start > 0 then FindSpan p.spans start else 0))
        start = max start 0 := by
      by_cases hpos : start > 0
      · simp only [hpos, if_true]
        have : prevLimit p.spans (FindSpan p.spans start) ≤ start := by
          unfold prevLimit
          split
          · exact hf.2.1 _ (by omega)
          · omega
        omega
      · simp only [hpos, if_false, prevLimit, lt_irrefl]
        omega
    rw [hstart]
    obtain ⟨newB, newA, hB, hA, rB, rA⟩ := ShapeBidiRunLoop_runs env (min limit p.length)
      bidiLevel p.spans hnd _ (if start > 0 then FindSpan p.spans start else 0) (max start 0)
      p rfl
      (by split; exact hf.1; omega)
      (by rw [← hstart]; exact le_max_left _ _)
      (by
        intro hk
        by_cases hpos : start > 0
        · simp only [hpos, if_true] at hk ⊢
          have := hf.2.2 hk
          omega
        · simp only [hpos, if_false] at hk ⊢
          have := hfirst hk
          omega)
    exact ⟨newB, newA, hB, hA, RunsOfSpans_from_zero _ _ _ _ _ _ _ rB,
      RunsOfSpans_from_zero _ _ _ _ _ _ _ rA⟩

/-- C13: on a paragraph whose spans keep the span invariant, every run that
`ShapeBidiRun(start, limit, level)` appends to either run sequence is not empty, lies
inside `[start, min(limit, length))` and inside one span `i`, with
`spans[i-1].limit ≤ run.start < run.limit ≤ spans[i].limit`, and carries the style of
that span. -/
theorem ShapeBidiRun_runs_in_one_span (env : Env) (p : Paragraph) (start limit : Int)
    (bidiLevel : Nat) (hok : p.SpansOk) :
    ∃ newB newA,
      (p.ShapeBidiRun env start limit bidiLevel).beforeRuns = p.beforeRuns ++ newB ∧
      (p.ShapeBidiRun env start limit bidiLevel).afterRuns = p.afterRuns ++ newA ∧
      ∀ run ∈ newB ++ newA,
        start ≤ run.start ∧ run.start < run.limit ∧ run.limit ≤ min limit p.length ∧
        ∃ i, i < p.spans.length ∧ prevLimit p.spans i ≤ run.start ∧
          run.limit ≤ limitAt p.spans i ∧ (p.spans.getD i default).style = some run.style := by
  obtain ⟨newB, newA, hB, hA, rB, rA⟩ :=
    ShapeBidiRun_runs env p start limit bidiLevel hok.1 hok.2.1
  refine ⟨newB, newA, hB, hA, ?_⟩
  intro run hrun
  have hin : max start 0 ≤ run.start ∧ run.start < run.limit ∧
      run.limit ≤ min limit p.length ∧
      ∃ i, 0 ≤ i ∧ i < p.spans.length ∧ prevLimit p.spans i ≤ run.start ∧
        run.limit ≤ limitAt p.spans i ∧ (p.spans.getD i default).style = some run.style := by
    rcases List.mem_append.mp hrun with h | h
    · exact rB.inSpan run h
    · exact rA.inSpan run h
  obtain ⟨h1, h2, h3, i, _, hi⟩ := hin
  exact ⟨le_trans (le_max_left _ _) h1, h2, h3, i, hi⟩

/-- The paragraph `ab cd ef gh`, whose two spans end at 6 and 11 and have different
styles, shaped over `[2, 9)`, a range that crosses the style boundary at 6: the runs are
`[2, 3)` and `[3, 6)` with the style of the first span and `[6, 9)` with the style of the
second, and none crosses the offset 6. -/
theorem ShapeBidiRun_runs_in_one_span_witness :
    mixedParagraph.SpansOk ∧
    (mixedParagraph.spans =
        [{ limit := 6, style := some sampleStyle }, { limit := 11, style := some plainStyle }] ∧
      (mixedParagraph.ShapeBidiRun sampleEnv 2 9 0).beforeRuns.map
          (fun r => (r.start, r.limit, r.style)) =
        [(2, 3, sampleStyle), (3, 6, sampleStyle), (6, 9, plainStyle)]) ∧
    ∃ newB newA,
      (mixedParagraph.ShapeBidiRun sampleEnv 2 9 0).beforeRuns =
        mixedParagraph.beforeRuns ++ newB ∧
      (mixedParagraph.ShapeBidiRun sampleEnv 2 9 0).afterRuns =
        mixedParagraph.afterRuns ++ newA ∧
      ∀ run ∈ newB ++ newA,
        2 ≤ run.start ∧ run.start < run.limit ∧ run.limit ≤ min 9 mixedParagraph.length ∧
        ∃ i, i < mixedParagraph.spans.length ∧ prevLimit mixedParagraph.spans i ≤ run.start ∧
          run.limit ≤ limitAt mixedParagraph.spans i ∧
          (mixedParagraph.spans.getD i default).style = some run.style :=
  ⟨by decide, ⟨by decide, by decide⟩,
    ShapeBidiRun_runs_in_one_span sampleEnv mixedParagraph 2 9 0 (by decide)⟩

/-! ### The shaping phase: order and coverage of the runs -/

theorem RunsBetween_bound_right :
    ∀ (xs : List ShapedText) (a b c : Int), RunsBetween (fun x y => x ≤ y) xs a c →
      (∀ r ∈ xs, r.limit ≤ b) → a ≤ b → RunsBetween (fun x y => x ≤ y) xs a b := by
  intro xs
  induction xs with
  | nil => intro a b c _ _ hab; exact hab
  | cons x rest ih =>
    intro a b c h hall _
    exact ⟨h.1, h.2.1, ih _ b c h.2.2 (fun r hr => hall r (List.mem_cons_of_mem _ hr))
      (hall x (List.mem_cons_self _ _))⟩

theorem RunsOfSpans_append (text : List Nat) (spans : List Span)
    (fonts : Option FontCollection) (a b c : Int) (n n' : List ShapedText)
    (h1 : RunsOfSpans text spans fonts 0 a b n) (h2 : RunsOfSpans text spans fonts 0 b c n')
    (hab : a ≤ b) (hbc : b ≤ c) : RunsOfSpans text spans fonts 0 a c (n ++ n') := by
  refine ⟨?_, ?_, ?_⟩
  · obtain ⟨c1, hc1⟩ := h1.ordered
    obtain ⟨c2, hc2⟩ := h2.ordered
    exact ⟨c2, RunsBetween_append _ RunsBetween_le_trans n n' a b c2
      (RunsBetween_bound_right n a b c1 hc1 (fun r hr => (h1.inSpan r hr).2.2.1) hab) hc2⟩
  · intro run hrun
    rcases List.mem_append.mp hrun with h | h
    · obtain ⟨e1, e2, e3, e4⟩ := h1.inSpan run h
      exact ⟨e1, e2, by omega, e4⟩
    · obtain ⟨e1, e2, e3, e4⟩ := h2.inSpan run h
      exact ⟨by omega, e2, e3, e4⟩
  · intro fc hfc hall hac hlast
    refine RunsBetween_append _ RunsBetween_eq_trans n n' a b c
      (h1.covers fc hfc ?_ hab (by omega)) (h2.covers fc hfc ?_ hbc hlast)
    · intro i hi1 hi2
      obtain ⟨sty, hs, hr⟩ := hall i hi1 hi2
      exact ⟨sty, hs, Renderable_sub text fc sty _ _ _ _ hr (le_refl _)
        (min_le_min hbc (le_refl _))⟩
    · intro i hi1 hi2
      obtain ⟨sty, hs, hr⟩ := hall i hi1 hi2
      exact ⟨sty, hs, Renderable_sub text fc sty _ _ _ _ hr
        (max_le_max hab (le_refl _)) (le_refl _)⟩

/-- The runs that the walk over the bidi logical runs appends, from the offset `start`
on, with a bidi engine that keeps its contract. -/
theorem ShapeLogicalRuns_runs (env : Env) (text : List Nat) (spans : List Span)
    (bf af : Option FontCollection) (hb : BidiContract env text)
    (hnd : NonDecreasingLimits spans) (hnn : ∀ s ∈ spans, 0 ≤ s.limit) :
    ∀ (n : Nat) (p : Paragraph) (start limit : Int) (bidiLevel : Nat) (q : Paragraph),
      p.text = text → p.spans = spans → p.beforeFonts = bf → p.afterFonts = af →
      0 ≤ start → start ≤ (text.length : Int) →
      Paragraph.ShapeLogicalRuns env n p start limit bidiLevel = some q →
      ∃ newB newA, q.beforeRuns = p.beforeRuns ++ newB ∧ q.afterRuns = p.afterRuns ++ newA ∧
        RunsOfSpans text spans bf 0 start (text.length : Int) newB ∧
        RunsOfSpans text spans af 0 start (text.length : Int) newA := by
  intro n
  induction n with
  | zero =>
    intro p start limit bidiLevel q _ _ _ _ _ _ h
    simp [Paragraph.ShapeLogicalRuns] at h
  | succ n ih =>
    intro p start limit bidiLevel q ht hs hbf haf h0 hle h
    have hc := hb start
    have hdone : ∀ q', q' = p → start = (text.length : Int) →
        ∃ newB newA, q'.beforeRuns = p.beforeRuns ++ newB ∧
          q'.afterRuns = p.afterRuns ++ newA ∧
          RunsOfSpans text spans bf 0 start (text.length : Int) newB ∧
          RunsOfSpans text spans af 0 start (text.length : Int) newA := by
      intro q' hq' hst
      subst hq'
      exact ⟨[], [], by simp, by simp, RunsOfSpans_empty _ _ _ _ _ _ (by omega),
        RunsOfSpans_empty _ _ _ _ _ _ (by omega)⟩
    cases hrun : env.getLogicalRun text start with
    | none =>
      rw [hrun] at hc
      simp only at hc
      have hst : start = (text.length : Int) := by omega
      by_cases hlim : limit ≤ start
      · rw [ShapeLogicalRuns_done env n p start limit bidiLevel (ht ▸ hrun) hlim] at h
        simp only [Option.some.injEq] at h
        exact hdone q h.symm hst
      · have hstep : Paragraph.ShapeLogicalRuns env (n + 1) p start limit bidiLevel =
            Paragraph.ShapeLogicalRuns env n (p.ShapeBidiRun env start limit bidiLevel)
              limit limit bidiLevel := by
          simp [Paragraph.ShapeLogicalRuns, ht, hrun, hlim]
        have hnoop : p.ShapeBidiRun env start limit bidiLevel = p := by
          apply ShapeBidiRun_degenerate
          have : min limit p.length ≤ p.length := min_le_right _ _
          simp only [Paragraph.length, ht] at this ⊢
          omega
        rw [hstep, hnoop] at h
        have hc2 := hb limit
        cases hrun2 : env.getLogicalRun text limit with
        | some r =>
          rw [hrun2] at hc2
          simp only at hc2
          omega
        | none =>
          cases n with
          | zero => simp [Paragraph.ShapeLogicalRuns] at h
          | succ m =>
            rw [ShapeLogicalRuns_done env m p limit limit bidiLevel (ht ▸ hrun2)
              (le_refl _)] at h
            simp only [Option.some.injEq] at h
            exact hdone q h.symm hst
    | some r =>
      rw [hrun] at hc
      simp only at hc
      have hgt : ¬ (r.1 ≤ start) := by omega
      have hstep : Paragraph.ShapeLogicalRuns env (n + 1) p start limit bidiLevel =
          Paragraph.ShapeLogicalRuns env n (p.ShapeBidiRun env start r.1 r.2)
            r.1 r.1 r.2 := by
        simp [Paragraph.ShapeLogicalRuns, ht, hrun, hgt]
      rw [hstep] at h
      have hk := ShapeBidiRun_keeps env p start r.1 r.2
      obtain ⟨nB, nA, hB, hA, rB, rA⟩ := ShapeBidiRun_runs env p start r.1 r.2
        (by rw [hs]; exact hnd) (by rw [hs]; exact hnn)
      obtain ⟨nB', nA', hB', hA', rB', rA'⟩ := ih (p.ShapeBidiRun env start r.1 r.2) r.1 r.1
        r.2 q (hk.text.trans ht) (hk.spans.trans hs) (hk.beforeFonts.trans hbf)
        (hk.afterFonts.trans haf) (by omega) hc.2.2 h
      have hmax : max start 0 = start := max_eq_left h0
      have hmin : min r.1 p.length = r.1 := by
        apply min_eq_left
        simp only [Paragraph.length, ht]
        exact hc.2.2
      rw [hmax, hmin, ht, hs, hbf] at rB
      rw [hmax, hmin, ht, hs, haf] at rA
      exact ⟨nB ++ nB', nA ++ nA', by rw [hB', hB, List.append_assoc],
        by rw [hA', hA, List.append_assoc],
        RunsOfSpans_append _ _ _ _ _ _ _ _ rB rB' (by omega) hc.2.2,
        RunsOfSpans_append _ _ _ _ _ _ _ _ rA rA' (by omega) hc.2.2⟩

theorem AppendSpans_nonneg (env : Env) (beforeFonts afterFonts : Option FontCollection)
    (calls : List (List Nat × Option Style)) :
    ∀ s ∈ ((Paragraph.new beforeFonts afterFonts).AppendSpans env calls).spans,
      0 ≤ s.limit := by
  induction calls using List.reverseRecOn with
  | nil => simp [Paragraph.AppendSpans, Paragraph.new]
  | append_singleton calls c ih =>
    rw [AppendSpans_snoc]
    intro s hs
    simp only [Paragraph.AppendSpan, List.mem_append, List.mem_singleton] at hs
    rcases hs with hs | rfl
    · exact ih s hs
    · exact Int.natCast_nonneg _

theorem AppendSpans_spansOk (env : Env) (beforeFonts afterFonts : Option FontCollection)
    (calls : List (List Nat × Option Style)) :
    ((Paragraph.new beforeFonts afterFonts).AppendSpans env calls).SpansOk :=
  ⟨(AppendSpans_inv env beforeFonts afterFonts calls).nondecreasing,
    AppendSpans_nonneg env beforeFonts afterFonts calls,
    (AppendSpans_inv env beforeFonts afterFonts calls).last⟩

theorem RunsOfSpans_orderedRuns (text : List Nat) (spans : List Span)
    (fonts : Option FontCollection) (length : Int) (runs : List ShapedText)
    (h : RunsOfSpans text spans fonts 0 0 length runs) : OrderedRuns runs length := by
  obtain ⟨c, hc⟩ := h.ordered
  refine ⟨fun r hr => ⟨(h.inSpan r hr).1, (h.inSpan r hr).2.1, (h.inSpan r hr).2.2.1⟩, ?_⟩
  exact (RunsBetween_bounds _ (fun _ _ h => h) runs 0 c hc).2.2.1

theorem RunsBetween_covering (length : Int) (runs : List ShapedText)
    (h : RunsBetween (fun x y => x = y) runs 0 length) : CoveringRuns runs length := by
  obtain ⟨_, _, h3, h4, h5⟩ := RunsBetween_bounds _ (fun _ _ h => le_of_eq h) runs 0 length h
  refine ⟨h3, fun r hr => (h4 r hr).symm, h5, ?_⟩
  intro hlen hnil
  rw [hnil] at h
  have : (0 : Int) = length := h
  omega

/-- C15: for a paragraph built by `AppendSpan` calls and a bidi engine whose logical runs
partition the text, the shaping phase of `Layout` returns, and each of the two run
sequences is ordered by text offset, with runs that are not empty, lie inside
`[0, length)` and do not overlap; when the sequence has a font collection, every span
has a style and the font resolver, asked with the style of a span, returns a font at
every offset of that span, the sequence covers `[0, length)` without a gap: first start
`0`, each limit the next start, last limit the length. -/
theorem shaping_runs_ordered_and_covering (env : Env)
    (beforeFonts afterFonts : Option FontCollection)
    (calls : List (List Nat × Option Style)) (p : Paragraph)
    (hp : p = (Paragraph.new beforeFonts afterFonts).AppendSpans env calls)
    (hbidi : BidiContract env p.text) :
    ∃ q, p.ShapeParagraph env = some q ∧
      OrderedRuns q.beforeRuns p.length ∧ OrderedRuns q.afterRuns p.length ∧
      (∀ fc, beforeFonts = some fc →
        (∀ i, i < p.spans.length → ∃ sty, (p.spans.getD i default).style = some sty ∧
          Renderable p.text fc sty (prevLimit p.spans i) (limitAt p.spans i)) →
        CoveringRuns q.beforeRuns p.length) ∧
      (∀ fc, afterFonts = some fc →
        (∀ i, i < p.spans.length → ∃ sty, (p.spans.getD i default).style = some sty ∧
          Renderable p.text fc sty (prevLimit p.spans i) (limitAt p.spans i)) →
        CoveringRuns q.afterRuns p.length) := by
  obtain ⟨q, hq, _⟩ := ShapeParagraph_returns env p hbidi
  have hok : p.SpansOk := by rw [hp]; exact AppendSpans_spansOk env beforeFonts afterFonts calls
  have hfr := AppendSpans_keeps env (Paragraph.new beforeFonts afterFonts) calls
  rw [← hp] at hfr
  have hbf : p.beforeFonts = beforeFonts := hfr.1
  have haf : p.afterFonts = afterFonts := hfr.2.1
  have hbr : p.beforeRuns = [] := hfr.2.2.1
  have har : p.afterRuns = [] := hfr.2.2.2
  obtain ⟨nB, nA, hB, hA, rB, rA⟩ := ShapeLogicalRuns_runs env p.text p.spans beforeFonts
    afterFonts hbidi hok.1 hok.2.1 (p.text.length + 2) p 0 1 0 q rfl rfl hbf haf (le_refl _)
    (Int.natCast_nonneg _) hq
  rw [hbr, List.nil_append] at hB
  rw [har, List.nil_append] at hA
  have hall : ∀ fc : FontCollection,
      (∀ i, i < p.spans.length → ∃ sty, (p.spans.getD i default).style = some sty ∧
        Renderable p.text fc sty (prevLimit p.spans i) (limitAt p.spans i)) →
      ∀ i, 0 ≤ i → i < p.spans.length →
        ∃ sty, (p.spans.getD i default).style = some sty ∧
          Renderable p.text fc sty (max 0 (prevLimit p.spans i))
            (min (p.text.length : Int) (limitAt p.spans i)) := by
    intro fc h i _ hi
    obtain ⟨sty, hs, hr⟩ := h i hi
    exact ⟨sty, hs, Renderable_sub p.text fc sty _ _ _ _ hr (le_max_right _ _)
      (min_le_right _ _)⟩
  have hlast : (p.text.length : Int) ≤ lastLimit p.spans := by
    rw [hok.2.2]; exact le_refl _
  refine ⟨q, hq, ?_, ?_, ?_, ?_⟩
  · rw [hB]; exact RunsOfSpans_orderedRuns _ _ _ _ _ rB
  · rw [hA]; exact RunsOfSpans_orderedRuns _ _ _ _ _ rA
  · intro fc hfc h
    rw [hB]
    exact RunsBetween_covering _ _ (rB.covers fc hfc (hall fc h) (Int.natCast_nonneg _) hlast)
  · intro fc hfc h
    rw [hA]
    exact RunsBetween_covering _ _ (rA.covers fc hfc (hall fc h) (Int.natCast_nonneg _) hlast)

/-- The paragraph ` ab` followed by `c`, in two spans with two styles, and a font
collection whose answer depends on the style: with the first style it has font `0` for
every code point but `c`, with the second it has font `1` for `c` alone. Each style
renders its own span and not the other. The runs are `[0, 1)` (the space, before a script
is known), `[1, 3)` and `[3, 4)`, in order and without a gap. -/
theorem shaping_runs_ordered_and_covering_witness :
    BidiContract sampleEnv styledParagraph.text ∧
    (∀ i, i < styledParagraph.spans.length →
      ∃ sty, (styledParagraph.spans.getD i default).style = some sty ∧
        Renderable styledParagraph.text styleFont sty (prevLimit styledParagraph.spans i)
          (limitAt styledParagraph.spans i)) ∧
    (styleFont.FindFont 99 sampleStyle none = none ∧
      styleFont.FindFont 97 plainStyle none = none) ∧
    ((styledParagraph.ShapeParagraph sampleEnv).map
        (fun q => q.beforeRuns.map (fun r => (r.start, r.limit, r.font, r.style.id))) =
      some [(0, 1, 0, 0), (1, 3, 0, 0), (3, 4, 1, 1)]) ∧
    ∃ q, styledParagraph.ShapeParagraph sampleEnv = some q ∧
      OrderedRuns q.beforeRuns styledParagraph.length ∧
      CoveringRuns q.beforeRuns styledParagraph.length :=
  have hren : ∀ i, i < styledParagraph.spans.length →
      ∃ sty, (styledParagraph.spans.getD i default).style = some sty ∧
        Renderable styledParagraph.text styleFont sty (prevLimit styledParagraph.spans i)
          (limitAt styledParagraph.spans i) := by
    intro i hi
    have hlen : styledParagraph.spans.length = 2 := by decide
    have hi2 : i = 0 ∨ i = 1 := by omega
    rcases hi2 with rfl | rfl
    · refine ⟨sampleStyle, by decide, ?_⟩
      intro pos hint h1 h2
      have e1 : prevLimit styledParagraph.spans 0 = 0 := by decide
      have e2 : limitAt styledParagraph.spans 0 = 3 := by decide
      rw [e1] at h1
      rw [e2] at h2
      have c0 : char32At styledParagraph.text 0 = 32 := by decide
      have c1 : char32At styledParagraph.text 1 = 97 := by decide
      have c2 : char32At styledParagraph.text 2 = 98 := by decide
      have hpos : pos = 0 ∨ pos = 1 ∨ pos = 2 := by omega
      rcases hpos with rfl | rfl | rfl
      · rw [c0]; simp [styleFont, sampleStyle]
      · rw [c1]; simp [styleFont, sampleStyle]
      · rw [c2]; simp [styleFont, sampleStyle]
    · refine ⟨plainStyle, by decide, ?_⟩
      intro pos hint h1 h2
      have e1 : prevLimit styledParagraph.spans 1 = 3 := by decide
      have e2 : limitAt styledParagraph.spans 1 = 4 := by decide
      rw [e1] at h1
      rw [e2] at h2
      have c3 : char32At styledParagraph.text 3 = 99 := by decide
      have hpos : pos = 3 := by omega
      subst hpos
      rw [c3]
      simp [styleFont, plainStyle]
  ⟨sampleEnv_bidi _, hren, ⟨by decide, by decide⟩, by decide,
    (shaping_runs_ordered_and_covering sampleEnv (some styleFont) (some styleFont)
      [([32, 97, 98], some sampleStyle), ([99], some plainStyle)] styledParagraph rfl
      (sampleEnv_bidi _)).elim
      (fun q h => ⟨q, h.1, h.2.1, h.2.2.2.1 styleFont rfl hren⟩)⟩

/-! ### Surrogate pairs -/

/-- Over well-formed UTF-16 the scan of `ShapeSpan` moves from a code-point boundary to a
code-point boundary. -/
theorem advance_boundary (text : List Nat) (pos : Int) (hwf : WellFormedUtf16 text)
    (hb : CodePointBoundary text pos) :
    CodePointBoundary text (pos + (if char32At text pos > 0xFFFF then 2 else 1)) := by
  unfold CodePointBoundary InsidePair at *
  by_cases hin : 0 ≤ pos ∧ pos < (text.length : Int)
  · have hi : pos.toNat < text.length := by omega
    obtain ⟨hunit, hlead, htrail⟩ := hwf pos.toNat hi
    by_cases hl : IsLead (text.getD pos.toNat 0)
    · obtain ⟨hnext, htr⟩ := hlead hl
      have hl' := hl
      have htr' := htr
      unfold IsLead at hl'
      unfold IsTrail at htr'
      have hbig : char32At text pos > 0xFFFF := by
        simp only [char32At, hin, and_self, if_true, hl', hnext, htr', true_and]
        omega
      simp only [hbig, if_true]
      rintro ⟨_, _, hlead2, _⟩
      have hidx : (pos + 2).toNat - 1 = pos.toNat + 1 := by omega
      rw [hidx] at hlead2
      unfold IsLead at hlead2
      omega
    · by_cases ht : IsTrail (text.getD pos.toNat 0)
      · obtain ⟨h0, hprev⟩ := htrail ht
        exact absurd ⟨by omega, hin.2, hprev, ht⟩ hb
      · have hl' := hl
        have ht' := ht
        unfold IsLead at hl'
        unfold IsTrail at ht'
        have hsmall : ¬ char32At text pos > 0xFFFF := by
          simp only [char32At, hin, and_self, if_true, hl', ht', if_false]
          omega
        simp only [hsmall, if_false]
        rintro ⟨_, _, hlead2, _⟩
        have hidx : (pos + 1).toNat - 1 = pos.toNat := by omega
        rw [hidx] at hlead2
        exact hl hlead2
  · have hsmall : ¬ char32At text pos > 0xFFFF := by
      simp only [char32At, hin, if_false]
      omega
    simp only [hsmall, if_false]
    rintro ⟨h1, h2, _, _⟩
    omega

/-- C12: over well-formed UTF-16 text, with `start` and `limit` on code-point boundaries,
every round of the loop of `ShapeSpan` moves the scan position by exactly two code units
over a code point above `U+FFFF` and by one otherwise, every position at which a round
starts is a code-point boundary, and every run that `ShapeSpan` appends starts and ends on
a code-point boundary. -/
theorem ShapeSpan_respects_surrogate_pairs (env : Env) (text : List Nat) (start limit : Int)
    (bidiLevel : Nat) (fonts : Option FontCollection) (style : Option Style)
    (res : List ShapedText) (hwf : WellFormedUtf16 text)
    (hstart : CodePointBoundary text start) (hlimit : CodePointBoundary text limit) :
    (∀ (fc : FontCollection) (sty : Style) (st : ShapeState),
      (ShapeSpanStep env text bidiLevel fc sty st).pos =
        st.pos + (if char32At text st.pos > 0xFFFF then 2 else 1)) ∧
    (∀ (fc : FontCollection) (sty : Style),
      ∀ st ∈ ShapeSpanScan env text limit bidiLevel fc sty (limit - start).toNat
          (ShapeState.initial start res),
        CodePointBoundary text st.pos) ∧
    ∃ new, ShapeSpan env text start limit bidiLevel fonts style (some res) =
        some (res ++ new) ∧
      ∀ run ∈ new, CodePointBoundary text run.start ∧ CodePointBoundary text run.limit := by
  refine ⟨fun fc sty st => (ShapeSpanStep_cases env text bidiLevel fc sty st).1, ?_, ?_⟩
  · intro fc sty
    have key : ∀ (n : Nat) (st : ShapeState), CodePointBoundary text st.pos →
        ∀ st' ∈ ShapeSpanScan env text limit bidiLevel fc sty n st,
          CodePointBoundary text st'.pos := by
      intro n
      induction n with
      | zero => intro st _ st' h; simp [ShapeSpanScan] at h
      | succ n ih =>
        intro st hst st' h
        simp only [ShapeSpanScan] at h
        split at h
        · rcases List.mem_cons.mp h with rfl | h
          · exact hst
          · refine ih _ ?_ st' h
            rw [(ShapeSpanStep_cases env text bidiLevel fc sty st).1]
            exact advance_boundary text st.pos hwf hst
        · simp at h
    exact key _ _ hstart
  · by_cases hsl : start < limit
    · cases fonts with
      | none => exact ⟨[], by simp [ShapeSpan], by simp⟩
      | some fc =>
        cases style with
        | none => exact ⟨[], by simp [ShapeSpan], by simp⟩
        | some sty =>
          obtain ⟨st, hI, _, heq⟩ := ShapeSpan_run env text start limit bidiLevel fc sty res
            hsl
            (fun st => CodePointBoundary text st.pos ∧ CodePointBoundary text st.last ∧
              ∃ new, st.result = res ++ new ∧
                ∀ run ∈ new, CodePointBoundary text run.start ∧
                  CodePointBoundary text run.limit)
            ⟨hstart, hstart, [], by simp [ShapeState.initial], by simp⟩
            (by
              rintro st ⟨hp, hl, new, hres, hruns⟩ _
              obtain ⟨hpos, hcase⟩ := ShapeSpanStep_cases env text bidiLevel fc sty st
              have hp' : CodePointBoundary text
                  (ShapeSpanStep env text bidiLevel fc sty st).pos := by
                rw [hpos]; exact advance_boundary text st.pos hwf hp
              rcases hcase with ⟨_, _, e1, _, _, e4⟩ | ⟨_, e1, _, _, hemit⟩
              · exact ⟨hp', by rw [e1]; exact hl, new, by rw [e4, hres], hruns⟩
              · rcases hemit with ⟨f, _, _, e4⟩ | ⟨_, e4⟩
                · refine ⟨hp', by rw [e1]; exact hp, new ++ [_],
                    by rw [e4, hres, List.append_assoc], ?_⟩
                  intro run hrun
                  rcases List.mem_append.mp hrun with hrun | hrun
                  · exact hruns run hrun
                  · simp only [List.mem_singleton] at hrun
                    subst hrun
                    exact ⟨hl, hp⟩
                · exact ⟨hp', by rw [e1]; exact hp, new, by rw [e4, hres], hruns⟩)
          obtain ⟨_, hl, new, hres, hruns⟩ := hI
          rw [heq]
          unfold closeSegment
          cases st.lastFont with
          | none => exact ⟨new, by simp [hres], hruns⟩
          | some f =>
            simp only
            split
            · refine ⟨new ++ [_], by rw [hres, List.append_assoc], ?_⟩
              intro run hrun
              rcases List.mem_append.mp hrun with hrun | hrun
              · exact hruns run hrun
              · simp only [List.mem_singleton] at hrun
                subst hrun
                exact ⟨hl, hlimit⟩
            · exact ⟨new, by simp [hres], hruns⟩
    · exact ⟨[], by
        rw [ShapeSpan_degenerate env text start limit bidiLevel fonts style (some res)
          (by omega)]
        simp, by simp⟩

/-- The text `a`, `U+1F600`, `b`, scanned over `[0, 4)`: the appended runs start and end
on code-point boundaries. -/
theorem ShapeSpan_respects_surrogate_pairs_witness :
    (WellFormedUtf16 pairText ∧ CodePointBoundary pairText 0 ∧ CodePointBoundary pairText 4 ∧
      ¬ CodePointBoundary pairText 2) ∧
    ∃ new, ShapeSpan sampleEnv pairText 0 4 0 (some (singleFont 0)) (some sampleStyle)
        (some []) = some ([] ++ new) ∧
      ∀ run ∈ new, CodePointBoundary pairText run.start ∧
        CodePointBoundary pairText run.limit :=
  ⟨⟨by decide, by decide, by decide, by decide⟩,
    (ShapeSpan_respects_surrogate_pairs sampleEnv pairText 0 4 0 (some (singleFont 0))
      (some sampleStyle) [] (by decide) (by decide) (by decide)).2.2⟩

/-! ### Common and Inherited code points -/

/-- C14, counterexample: a space followed by `a`, both with font `0`, the space Common and
`a` Latin. The space takes the previous script, which at the start of the range is
`HB_SCRIPT_INVALID`, so the Latin `a` changes the script and `ShapeSpan` emits two runs,
`[0, 1)` and `[1, 2)`. -/
theorem ShapeSpan_leading_common_splits :
    (∀ (pos : Int) (hint : Option Font),
      (singleFont 0).FindFont (char32At [32, 97] pos) sampleStyle hint = some 0) ∧
    (∀ pos : Int, 0 ≤ pos → pos < 2 →
      sampleEnv.script (char32At [32, 97] pos) = HB_SCRIPT_LATIN ∨
      sampleEnv.script (char32At [32, 97] pos) = HB_SCRIPT_COMMON) ∧
    (ShapeSpan sampleEnv [32, 97] 0 2 0 (some (singleFont 0)) (some sampleStyle)
        (some [])).map (fun runs => runs.map (fun r => (r.start, r.limit, r.script))) =
      some [(0, 1, HB_SCRIPT_INVALID), (1, 2, HB_SCRIPT_LATIN)] ∧
    ¬ ∃ run, ShapeSpan sampleEnv [32, 97] 0 2 0 (some (singleFont 0)) (some sampleStyle)
        (some []) = some [run] := by
  have hval : (ShapeSpan sampleEnv [32, 97] 0 2 0 (some (singleFont 0)) (some sampleStyle)
      (some [])).map (fun runs => runs.map (fun r => (r.start, r.limit, r.script))) =
      some [(0, 1, HB_SCRIPT_INVALID), (1, 2, HB_SCRIPT_LATIN)] := by decide
  refine ⟨fun _ _ => rfl, ?_, hval, ?_⟩
  · intro pos _ _
    simp only [sampleEnv]
    split
    · right; rfl
    · left; rfl
  · rintro ⟨run, hrun⟩
    rw [hrun] at hval
    simp at hval

/-! ### Segments of one font and one script -/

theorem ScanInv_step (env : Env) (text : List Nat) (bidiLevel : Nat)
    (fonts : FontCollection) (style : Style) (res : List ShapedText)
    (past : List ShapeState) (st : ShapeState) (new : List ShapedText)
    (h : ScanInv env text fonts style res past st new) :
    ∃ new', ScanInv env text fonts style res (past ++ [st])
      (ShapeSpanStep env text bidiLevel fonts style st) new' := by
  obtain ⟨hpos, hcase⟩ := ShapeSpanStep_cases env text bidiLevel fonts style st
  have hadv : st.pos < (ShapeSpanStep env text bidiLevel fonts style st).pos := by
    rw [hpos]; split <;> omega
  have hbefore : ∀ s ∈ past ++ [st],
      s.pos < (ShapeSpanStep env text bidiLevel fonts style st).pos := by
    intro s hs
    rcases List.mem_append.mp hs with hs | hs
    · have := h.before s hs
      omega
    · simp only [List.mem_singleton] at hs
      subst hs
      exact hadv
  have hold : ∀ (last' : Int), st.last ≤ last' → ∀ run ∈ new,
      run.start < run.limit ∧ run.limit ≤ last' ∧
      (∃ s ∈ past ++ [st], s.pos = run.start) ∧
      ∀ s ∈ past ++ [st], run.start ≤ s.pos → s.pos < run.limit →
        scanFont text fonts style s = some run.font ∧
          scanScript env text s = run.script := by
    intro last' hl run hrun
    obtain ⟨r1, r2, ⟨s0, hs0, hs0p⟩, r4⟩ := h.runs run hrun
    refine ⟨r1, by omega, ⟨s0, List.mem_append_left _ hs0, hs0p⟩, ?_⟩
    intro s hs h1 h2
    rcases List.mem_append.mp hs with hs | hs
    · exact r4 s hs h1 h2
    · simp only [List.mem_singleton] at hs
      subst hs
      have := h.lastLe
      omega
  rcases hcase with ⟨c1, c2, e1, e2, e3, e4⟩ | ⟨_, e1, e2, e3, hemit⟩
  · refine ⟨new, ⟨by rw [e4, h.result], ?_, hbefore, by rw [e1]; have := h.lastLe; omega, ?_,
      ?_⟩⟩
    · rw [e1]; exact hold st.last (le_refl _)
    · intro s hs hl
      rw [e1] at hl
      rw [e2, e3]
      rcases List.mem_append.mp hs with hs | hs
      · exact h.openSegment s hs hl
      · simp only [List.mem_singleton] at hs
        subst hs
        exact ⟨c1, c2⟩
    · rw [e1, e2]
      rcases h.opened with ho | ⟨s, hs, hsp⟩
      · exact Or.inl ho
      · exact Or.inr ⟨s, List.mem_append_left _ hs, hsp⟩
  · have hopen : ∀ s ∈ past ++ [st],
        (ShapeSpanStep env text bidiLevel fonts style st).last ≤ s.pos →
        scanFont text fonts style s =
            (ShapeSpanStep env text bidiLevel fonts style st).lastFont ∧
          scanScript env text s =
            (ShapeSpanStep env text bidiLevel fonts style st).lastScript := by
      intro s hs hl
      rw [e1] at hl
      rcases List.mem_append.mp hs with hs | hs
      · have := h.before s hs
        omega
      · simp only [List.mem_singleton] at hs
        subst hs
        exact ⟨e2.symm, e3.symm⟩
    have hopened : (ShapeSpanStep env text bidiLevel fonts style st).lastFont = none ∨
        ∃ s ∈ past ++ [st], s.pos = (ShapeSpanStep env text bidiLevel fonts style st).last :=
      Or.inr ⟨st, List.mem_append_right _ (List.mem_singleton_self _), e1.symm⟩
    rcases hemit with ⟨f, hf, hlast, e4⟩ | ⟨_, e4⟩
    · refine ⟨new ++ [ShapedText.create env text st.last st.pos bidiLevel st.lastScript f
          style], ⟨by rw [e4, h.result, List.append_assoc], ?_, hbefore,
        by rw [e1]; exact le_of_lt hadv, hopen, hopened⟩⟩
      intro run hrun
      rw [e1]
      rcases List.mem_append.mp hrun with hrun | hrun
      · exact hold st.pos h.lastLe run hrun
      · simp only [List.mem_singleton] at hrun
        subst hrun
        refine ⟨hlast, le_refl _, ?_, ?_⟩
        · rcases h.opened with ho | ⟨s, hs, hsp⟩
          · rw [hf] at ho
            exact absurd ho (by simp)
          · exact ⟨s, List.mem_append_left _ hs, hsp⟩
        · intro s hs h1 h2
          rcases List.mem_append.mp hs with hs | hs
          · have := h.openSegment s hs h1
            rw [hf] at this
            exact this
          · simp only [List.mem_singleton] at hs
            subst hs
            exact absurd h2 (lt_irrefl _)
    · exact ⟨new, ⟨by rw [e4, h.result], by rw [e1]; exact hold st.pos h.lastLe, hbefore,
        by rw [e1]; exact le_of_lt hadv, hopen, hopened⟩⟩

theorem ScanInv_loop (env : Env) (text : List Nat) (limit : Int) (bidiLevel : Nat)
    (fonts : FontCollection) (style : Style) (res : List ShapedText) :
    ∀ (n : Nat) (past : List ShapeState) (st : ShapeState) (new : List ShapedText),
      ScanInv env text fonts style res past st new →
      ∃ new', ScanInv env text fonts style res
        (past ++ ShapeSpanScan env text limit bidiLevel fonts style n st)
        (ShapeSpanLoop env text limit bidiLevel fonts style n st) new' := by
  intro n
  induction n with
  | zero => intro past st new h; exact ⟨new, by simpa [ShapeSpanScan, ShapeSpanLoop] using h⟩
  | succ n ih =>
    intro past st new h
    simp only [ShapeSpanScan, ShapeSpanLoop]
    split
    · obtain ⟨new1, h1⟩ := ScanInv_step env text bidiLevel fonts style res past st new h
      obtain ⟨new2, h2⟩ := ih (past ++ [st]) _ new1 h1
      exact ⟨new2, by simpa using h2⟩
    · exact ⟨new, by simpa using h⟩

/-- The scan goes on until the limit: after every round the next one starts, unless the
position has reached the limit. -/
theorem ShapeSpanScan_continues (env : Env) (text : List Nat) (limit : Int) (bidiLevel : Nat)
    (fonts : FontCollection) (style : Style) :
    ∀ (n : Nat) (st : ShapeState), (limit - st.pos).toNat ≤ n →
      ∀ s ∈ ShapeSpanScan env text limit bidiLevel fonts style n st,
        ShapeSpanStep env text bidiLevel fonts style s ∈
            ShapeSpanScan env text limit bidiLevel fonts style n st ∨
          ¬ (ShapeSpanStep env text bidiLevel fonts style s).pos < limit := by
  intro n
  induction n with
  | zero => intro st _ s hs; simp [ShapeSpanScan] at hs
  | succ n ih =>
    intro st hn s hs
    simp only [ShapeSpanScan] at hs ⊢
    split at hs
    · rename_i hlt
      simp only [hlt, if_true]
      have hadv := ShapeSpanStep_pos env text bidiLevel fonts style st
      rcases List.mem_cons.mp hs with rfl | hs
      · by_cases hnext : (ShapeSpanStep env text bidiLevel fonts style s).pos < limit
        · left
          apply List.mem_cons_of_mem
          obtain ⟨m, rfl⟩ : ∃ m, n = m + 1 := ⟨n - 1, by omega⟩
          simp [ShapeSpanScan, hnext]
        · right; exact hnext
      · rcases ih _ (by omega) s hs with h | h
        · left; exact List.mem_cons_of_mem _ h
        · right; exact h
    · simp at hs

/-- C17: every run that `ShapeSpan` appends is not empty and starts at a scanned code
point for which the resolver returned the run's font; for every code point scanned inside
the run's range, `FindFont(codepoint, style, previous font)` returned the run's font and
the resolved script is the run's script; a scanned code point without a font lies in no
appended run; and the scan goes on after every round until the position reaches the
limit. -/
theorem ShapeSpan_segments_homogeneous (env : Env) (text : List Nat) (start limit : Int)
    (bidiLevel : Nat) (fonts : FontCollection) (style : Style) (res : List ShapedText) :
    ∃ new, ShapeSpan env text start limit bidiLevel (some fonts) (some style) (some res) =
        some (res ++ new) ∧
      (∀ run ∈ new, run.start < run.limit ∧
        (∃ s ∈ ShapeSpanScan env text limit bidiLevel fonts style (limit - start).toNat
            (ShapeState.initial start res),
          s.pos = run.start ∧ scanFont text fonts style s = some run.font) ∧
        ∀ s ∈ ShapeSpanScan env text limit bidiLevel fonts style (limit - start).toNat
            (ShapeState.initial start res),
          run.start ≤ s.pos → s.pos < run.limit →
            scanFont text fonts style s = some run.font ∧
              scanScript env text s = run.script) ∧
      (∀ s ∈ ShapeSpanScan env text limit bidiLevel fonts style (limit - start).toNat
          (ShapeState.initial start res),
        scanFont text fonts style s = none →
          ∀ run ∈ new, ¬ (run.start ≤ s.pos ∧ s.pos < run.limit)) ∧
      (∀ s ∈ ShapeSpanScan env text limit bidiLevel fonts style (limit - start).toNat
          (ShapeState.initial start res),
        ShapeSpanStep env text bidiLevel fonts style s ∈
            ShapeSpanScan env text limit bidiLevel fonts style (limit - start).toNat
              (ShapeState.initial start res) ∨
          ¬ (ShapeSpanStep env text bidiLevel fonts style s).pos < limit) := by
  have hcont := ShapeSpanScan_continues env text limit bidiLevel fonts style
    (limit - start).toNat (ShapeState.initial start res) (le_refl _)
  by_cases hsl : start < limit
  · have hinit : ScanInv env text fonts style res [] (ShapeState.initial start res) [] :=
      ⟨by simp [ShapeState.initial], by simp, by simp, le_refl _, by simp, Or.inl rfl⟩
    obtain ⟨new, hinv⟩ := ScanInv_loop env text limit bidiLevel fonts style res
      (limit - start).toNat [] _ [] hinit
    rw [List.nil_append] at hinv
    have hlast : ∀ n (st : ShapeState), st.last < limit →
        (ShapeSpanLoop env text limit bidiLevel fonts style n st).last < limit := by
      intro n st h
      refine ShapeSpanLoop_invariant env text limit bidiLevel fonts style
        (fun st => st.last < limit) ?_ n st h
      intro st h hlt
      rcases (ShapeSpanStep_cases env text bidiLevel fonts style st).2 with
        ⟨_, _, e1, _⟩ | ⟨_, e1, _⟩
      · rw [e1]; exact h
      · rw [e1]; exact hlt
    have hll := hlast (limit - start).toNat (ShapeState.initial start res) hsl
    generalize hscan : ShapeSpanScan env text limit bidiLevel fonts style
      (limit - start).toNat (ShapeState.initial start res) = scan at hinv hcont ⊢
    have hfinish : ∀ (new' : List ShapedText),
        (∀ run ∈ new', run.start < run.limit ∧ (∃ s ∈ scan, s.pos = run.start) ∧
          ∀ s ∈ scan, run.start ≤ s.pos → s.pos < run.limit →
            scanFont text fonts style s = some run.font ∧
              scanScript env text s = run.script) →
        (∀ run ∈ new', run.start < run.limit ∧
          (∃ s ∈ scan, s.pos = run.start ∧ scanFont text fonts style s = some run.font) ∧
          ∀ s ∈ scan, run.start ≤ s.pos → s.pos < run.limit →
            scanFont text fonts style s = some run.font ∧
              scanScript env text s = run.script) ∧
        (∀ s ∈ scan, scanFont text fonts style s = none →
          ∀ run ∈ new', ¬ (run.start ≤ s.pos ∧ s.pos < run.limit)) := by
      intro new' h
      constructor
      · intro run hrun
        obtain ⟨h1, ⟨s, hs, hsp⟩, h3⟩ := h run hrun
        exact ⟨h1, ⟨s, hs, hsp, (h3 s hs (by omega) (by omega)).1⟩, h3⟩
      · intro s hs hnone run hrun hin
        have := ((h run hrun).2.2 s hs hin.1 hin.2).1
        rw [hnone] at this
        exact absurd this (by simp)
    rw [ShapeSpan_eq env text start limit bidiLevel fonts style res hsl]
    generalize ShapeSpanLoop env text limit bidiLevel fonts style (limit - start).toNat
      (ShapeState.initial start res) = st at hinv hll ⊢
    have hold : ∀ run ∈ new, run.start < run.limit ∧ (∃ s ∈ scan, s.pos = run.start) ∧
        ∀ s ∈ scan, run.start ≤ s.pos → s.pos < run.limit →
          scanFont text fonts style s = some run.font ∧
            scanScript env text s = run.script :=
      fun run hrun => ⟨(hinv.runs run hrun).1, (hinv.runs run hrun).2.2.1,
        (hinv.runs run hrun).2.2.2⟩
    cases hf : st.lastFont with
    | none =>
      refine ⟨new, by simp [hinv.result], (hfinish new hold).1, (hfinish new hold).2, hcont⟩
    | some f =>
      simp only [hll, if_true]
      have hnew : ∀ run ∈ new ++
          [ShapedText.create env text st.last limit bidiLevel st.lastScript f style],
          run.start < run.limit ∧ (∃ s ∈ scan, s.pos = run.start) ∧
          ∀ s ∈ scan, run.start ≤ s.pos → s.pos < run.limit →
            scanFont text fonts style s = some run.font ∧
              scanScript env text s = run.script := by
        intro run hrun
        rcases List.mem_append.mp hrun with hrun | hrun
        · exact hold run hrun
        · simp only [List.mem_singleton] at hrun
          subst hrun
          refine ⟨hll, ?_, ?_⟩
          · rcases hinv.opened with ho | ho
            · rw [hf] at ho
              exact absurd ho (by simp)
            · exact ho
          · intro s hs h1 _
            have := hinv.openSegment s hs h1
            rw [hf] at this
            exact this
      exact ⟨_, by rw [hinv.result, List.append_assoc], (hfinish _ hnew).1,
        (hfinish _ hnew).2, hcont⟩
  · refine ⟨[], ?_, by simp, by simp, hcont⟩
    rw [ShapeSpan_degenerate env text start limit bidiLevel (some fonts) (some style)
      (some res) (by omega)]
    simp

/-- The text `a b` with a font collection that has no font for the space: the runs are
`[0, 1)` and `[2, 3)`, and the space at offset `1` lies in neither. -/
theorem ShapeSpan_segments_homogeneous_witness :
    (ShapeSpan sampleEnv [97, 32, 98] 0 3 0 (some gappyFont) (some sampleStyle)
        (some [])).map (fun runs => runs.map (fun r => (r.start, r.limit, r.font))) =
      some [(0, 1, 0), (2, 3, 0)] ∧
    ∃ new, ShapeSpan sampleEnv [97, 32, 98] 0 3 0 (some gappyFont) (some sampleStyle)
        (some []) = some ([] ++ new) ∧
      ∀ s ∈ ShapeSpanScan sampleEnv [97, 32, 98] 3 0 gappyFont sampleStyle (3 - 0 : Int).toNat
          (ShapeState.initial 0 []),
        scanFont [97, 32, 98] gappyFont sampleStyle s = none →
          ∀ run ∈ new, ¬ (run.start ≤ s.pos ∧ s.pos < run.limit) :=
  ⟨by decide,
    (ShapeSpan_segments_homogeneous sampleEnv [97, 32, 98] 0 3 0 gappyFont sampleStyle []).elim
      (fun new h => ⟨new, h.1, h.2.2.1⟩)⟩

/-- In a strictly increasing list, `following(o)` leaves the offsets above `o`. -/
theorem mem_dropWhile_sorted (L : List Int) (h : L.Pairwise (fun a b => a < b)) (o b : Int) :
    b ∈ L.dropWhile (fun b => decide (b ≤ o)) ↔ b ∈ L ∧ o < b := by
  induction L with
  | nil => simp
  | cons a L ih =>
    rw [List.pairwise_cons] at h
    by_cases ha : a ≤ o
    · rw [List.dropWhile_cons_of_pos (by simpa using ha), ih h.2]
      constructor
      · rintro ⟨h1, h2⟩
        exact ⟨List.mem_cons_of_mem _ h1, h2⟩
      · rintro ⟨h1, h2⟩
        rcases List.mem_cons.mp h1 with e | h1
        · omega
        · exact ⟨h1, h2⟩
    · rw [List.dropWhile_cons_of_neg (by simpa using ha)]
      constructor
      · intro h1
        refine ⟨h1, ?_⟩
        rcases List.mem_cons.mp h1 with e | h1
        · omega
        · have := h.1 b h1
          omega
      · exact fun h1 => h1.1

/-- In a strictly increasing list of offsets that are not negative, the `while` loop of
`FindPotentialLineBreaks(start, limit, ...)` takes the offsets below `limit`. -/
theorem mem_takeWhile_sorted (L : List Int) (h : L.Pairwise (fun a b => a < b))
    (hpos : ∀ x ∈ L, 0 ≤ x) (l b : Int) :
    b ∈ L.takeWhile (fun cur => decide (cur ≠ Paragraph.DONE) && decide (cur < l)) ↔ b ∈ L ∧ b < l := by
  induction L with
  | nil => simp
  | cons a L ih =>
    rw [List.pairwise_cons] at h
    have ha0 : 0 ≤ a := hpos a (List.mem_cons_self _ _)
    have hd : a ≠ Paragraph.DONE := by unfold Paragraph.DONE; omega
    by_cases ha : a < l
    · rw [List.takeWhile_cons_of_pos (by simp [hd, ha]), List.mem_cons,
        ih h.2 (fun x hx => hpos x (List.mem_cons_of_mem _ hx)), List.mem_cons]
      constructor
      · rintro (e | ⟨h1, h2⟩)
        · exact ⟨Or.inl e, by omega⟩
        · exact ⟨Or.inr h1, h2⟩
      · rintro ⟨e | h1, h2⟩
        · exact Or.inl e
        · exact Or.inr ⟨h1, h2⟩
    · rw [List.takeWhile_cons_of_neg (by simp [ha])]
      constructor
      · intro h1
        exact absurd h1 (List.not_mem_nil _)
      · rintro ⟨h1, h2⟩
        rcases List.mem_cons.mp h1 with e | h1
        · omega
        · have := h.1 b h1
          omega

/-- The offsets that `FindPotentialLineBreaks(start, limit, language, breaks)` appends:
strictly increasing, and exactly the reported offsets `b` with `start ≤ b < limit` and
`0 < b`. -/
theorem FindPotentialLineBreaksIn_spec (env : Env) (p : Paragraph) (s l : Int)
    (lang : Option Language) (bs : List Int) (hs : 0 ≤ s)
    (hsorted : SortedBreakers env p.text) :
    ∃ seg, p.FindPotentialLineBreaksIn env s l lang (some bs) = some (bs ++ seg) ∧
      seg.Pairwise (fun a b => a < b) ∧
      ∀ b, b ∈ seg ↔ (s ≤ b ∧ 0 < b ∧ b < l ∧ Reported env p.text lang b) := by
  cases lang with
  | none =>
    refine ⟨[], by simp [Paragraph.FindPotentialLineBreaksIn], List.Pairwise.nil, ?_⟩
    intro b
    simp [Reported]
  | some L =>
    by_cases hsl : s ≥ l
    · refine ⟨[], by simp [Paragraph.FindPotentialLineBreaksIn, hsl], List.Pairwise.nil, ?_⟩
      intro b
      constructor
      · intro h
        exact absurd h (List.not_mem_nil _)
      · rintro ⟨h1, _, h2, _⟩
        omega
    · cases hbr : env.GetLineBreaker L with
      | none =>
        refine ⟨[], by simp [Paragraph.FindPotentialLineBreaksIn, hsl, hbr],
          List.Pairwise.nil, ?_⟩
        intro b
        constructor
        · intro h
          exact absurd h (List.not_mem_nil _)
        · rintro ⟨_, _, _, L1, br, e1, e2, _⟩
          cases e1
          rw [hbr] at e2
          exact Option.noConfusion e2
      | some breaker =>
        have hsrt := hsorted L breaker hbr
        have hoff : (0 : Int) ≤ (if s > 0 then s - 1 else 0) := by split <;> omega
        have hdrop : ((breaker p.text).dropWhile
            (fun b => decide (b ≤ (if s > 0 then s - 1 else 0)))).Pairwise
            (fun a b => a < b) := hsrt.sublist (List.dropWhile_sublist _)
        have hdpos : ∀ x ∈ (breaker p.text).dropWhile
            (fun b => decide (b ≤ (if s > 0 then s - 1 else 0))), 0 ≤ x := by
          intro x hx
          have := ((mem_dropWhile_sorted _ hsrt _ x).mp hx).2
          omega
        refine ⟨((breaker p.text).dropWhile
            (fun b => decide (b ≤ (if s > 0 then s - 1 else 0)))).takeWhile
              (fun cur => decide (cur ≠ Paragraph.DONE) && decide (cur < l)), ?_,
          hdrop.sublist (List.takeWhile_sublist _), ?_⟩
        · simp only [Paragraph.FindPotentialLineBreaksIn, hsl, hbr, if_false]
        · intro b
          rw [mem_takeWhile_sorted _ hdrop hdpos, mem_dropWhile_sorted _ hsrt]
          constructor
          · rintro ⟨⟨h1, h2⟩, h3⟩
            refine ⟨?_, ?_, h3, L, breaker, rfl, hbr, h1⟩
            · split at h2 <;> omega
            · omega
          · rintro ⟨h1, h2, h3, L1, br, e1, e2, h4⟩
            cases e1
            rw [hbr] at e2
            cases e2
            refine ⟨⟨h4, ?_⟩, h3⟩
            split <;> omega

theorem prevLimit_succ (spans : List Span) (k : Nat) :
    prevLimit spans (k + 1) = limitAt spans k := by
  simp [prevLimit]

theorem limitAt_nonneg (spans : List Span) (hnn : ∀ s ∈ spans, 0 ≤ s.limit) (k : Nat)
    (hk : k < spans.length) : 0 ≤ limitAt spans k := by
  unfold limitAt
  rw [List.getD_eq_getElem?_getD, List.getElem?_eq_getElem hk]
  exact hnn _ (List.getElem_mem hk)

theorem prevLimit_le_limitAt (spans : List Span) (hnd : NonDecreasingLimits spans)
    (hnn : ∀ s ∈ spans, 0 ≤ s.limit) (k : Nat) (hk : k < spans.length) :
    prevLimit spans k ≤ limitAt spans k := by
  cases k with
  | zero => simpa [prevLimit] using limitAt_nonneg spans hnn 0 hk
  | succ k =>
    rw [prevLimit_succ]
    exact limitAt_mono hnd (by omega) hk

theorem limitAt_le_prevLimit (spans : List Span) (hnd : NonDecreasingLimits spans)
    (i k : Nat) (hik : i < k) (hk : k ≤ spans.length) :
    limitAt spans i ≤ prevLimit spans k := by
  cases k with
  | zero => omega
  | succ k =>
    rw [prevLimit_succ]
    exact limitAt_mono hnd (by omega) (by omega)

theorem prevLimit_nonneg (spans : List Span) (hnn : ∀ s ∈ spans, 0 ≤ s.limit) (k : Nat)
    (hk : k ≤ spans.length) : 0 ≤ prevLimit spans k := by
  cases k with
  | zero => simp [prevLimit]
  | succ k =>
    rw [prevLimit_succ]
    exact limitAt_nonneg spans hnn k (by omega)

theorem prevLimit_mono (spans : List Span) (hnd : NonDecreasingLimits spans)
    (hnn : ∀ s ∈ spans, 0 ≤ s.limit) (i k : Nat) (hik : i ≤ k) (hk : k ≤ spans.length) :
    prevLimit spans i ≤ prevLimit spans k := by
  rcases Nat.eq_or_lt_of_le hik with e | hlt
  · subst e
    exact le_refl _
  · exact le_trans (prevLimit_le_limitAt spans hnd hnn i (by omega))
      (limitAt_le_prevLimit spans hnd i k hlt hk)

/-- Every offset from `0` up to the start of span `k` lies in the range of one of the
spans before `k`. -/
theorem exists_span_containing (spans : List Span) (b : Int) (hb : 0 ≤ b) :
    ∀ k, b < prevLimit spans k →
      ∃ i, i < k ∧ prevLimit spans i ≤ b ∧ b < limitAt spans i := by
  intro k
  induction k with
  | zero =>
    intro h
    simp [prevLimit] at h
    omega
  | succ k ih =>
    intro h
    rw [prevLimit_succ] at h
    by_cases hk : b < prevLimit spans k
    · obtain ⟨i, hi, h1, h2⟩ := ih hk
      exact ⟨i, by omega, h1, h2⟩
    · exact ⟨k, by omega, by omega, h⟩

/-- Every offset between the start of span `i` and the limit of span `i + d` lies in the
range of one of the spans `i, ..., i + d`. -/
theorem exists_span_between (spans : List Span) (b : Int) (i : Nat)
    (hi : prevLimit spans i ≤ b) :
    ∀ d, b < limitAt spans (i + d) →
      ∃ k, i ≤ k ∧ k ≤ i + d ∧ prevLimit spans k ≤ b ∧ b < limitAt spans k := by
  intro d
  induction d with
  | zero =>
    intro h
    exact ⟨i, le_refl _, by omega, hi, h⟩
  | succ d ih =>
    intro h
    by_cases hk : b < limitAt spans (i + d)
    · obtain ⟨k, h1, h2, h3, h4⟩ := ih hk
      exact ⟨k, h1, by omega, h3, h4⟩
    · refine ⟨i + (d + 1), by omega, le_refl _, ?_, h⟩
      rw [show i + (d + 1) = (i + d) + 1 from rfl, prevLimit_succ]
      omega

/-- An offset lies in the range of at most one span. -/
theorem span_unique (spans : List Span) (hnd : NonDecreasingLimits spans) (b : Int)
    (i k : Nat) (hi : i < spans.length) (hk : k < spans.length)
    (hi1 : prevLimit spans i ≤ b) (hi2 : b < limitAt spans i)
    (hk1 : prevLimit spans k ≤ b) (hk2 : b < limitAt spans k) : i = k := by
  rcases Nat.lt_trichotomy i k with h | h | h
  · have := limitAt_le_prevLimit spans hnd i k h (by omega)
    omega
  · exact h
  · have := limitAt_le_prevLimit spans hnd k i h (by omega)
    omega

/-- Closing the current language stretch at `runStart`: the call
`FindPotentialLineBreaks(curLangStart, runStart, curLang, breaks)` leaves a strictly
increasing vector that holds exactly the positive offsets below `runStart` that lie in a
span whose language reports them. -/
theorem BreakInv_flush (env : Env) (p : Paragraph) (k : Nat) (curLang : Option Language)
    (runStart curLangStart : Int) (breaks : List Int)
    (hsorted : SortedBreakers env p.text)
    (h : BreakInv env p k curLang runStart curLangStart breaks) :
    ∃ seg, p.FindPotentialLineBreaksIn env curLangStart runStart curLang (some breaks) =
        some (breaks ++ seg) ∧
      (breaks ++ seg).Pairwise (fun a b => a < b) ∧
      ∀ b, b ∈ breaks ++ seg ↔ 0 < b ∧ b < runStart ∧ ∃ i, i < k ∧
        prevLimit p.spans i ≤ b ∧ b < limitAt p.spans i ∧
        Reported env p.text (langAt p.spans i) b := by
  obtain ⟨seg, hseg, hsrt, hmem⟩ := FindPotentialLineBreaksIn_spec env p curLangStart
    runStart curLang breaks h.nonneg hsorted
  refine ⟨seg, hseg, ?_, ?_⟩
  · rw [List.pairwise_append]
    refine ⟨h.sorted, hsrt, ?_⟩
    intro a ha b hb
    have h1 := ((h.mem a).mp ha).2.1
    have h2 := ((hmem b).mp hb).1
    omega
  · intro b
    rw [List.mem_append]
    constructor
    · rintro (hb | hb)
      · obtain ⟨h1, h2, h3⟩ := (h.mem b).mp hb
        exact ⟨h1, by have := h.notAfter; omega, h3⟩
      · obtain ⟨h1, h2, h3, h4⟩ := (hmem b).mp hb
        obtain ⟨i, hi, hi1, hi2⟩ := exists_span_containing p.spans b (by omega) k
          (by rw [← h.atStart]; exact h3)
        refine ⟨h2, h3, i, hi, hi1, hi2, ?_⟩
        rw [h.pending i hi b hi1 hi2 h1]
        exact h4
    · rintro ⟨h1, h2, i, hi, hi1, hi2, hrep⟩
      by_cases hb : b < curLangStart
      · exact Or.inl ((h.mem b).mpr ⟨h1, hb, i, hi, hi1, hi2, hrep⟩)
      · refine Or.inr ((hmem b).mpr ⟨by omega, h1, h2, ?_⟩)
        rw [← h.pending i hi b hi1 hi2 (by omega)]
        exact hrep

/-- The loop of `FindPotentialLineBreaks(breaks)` runs through all spans with a style and
keeps `BreakInv`. -/
theorem FindPotentialLineBreaksLoop_inv (env : Env) (p : Paragraph)
    (hnd : NonDecreasingLimits p.spans) (hnn : ∀ s ∈ p.spans, 0 ≤ s.limit)
    (hstyle : ∀ s ∈ p.spans, s.style ≠ none) (hsorted : SortedBreakers env p.text) :
    ∀ (rest : List Span) (k : Nat) (curLang : Option Language) (runStart curLangStart : Int)
      (breaks : List Int), p.spans.drop k = rest → k ≤ p.spans.length →
      BreakInv env p k curLang runStart curLangStart breaks →
      ∃ curLang1 curLangStart1 breaks1,
        Paragraph.FindPotentialLineBreaksLoop env p rest curLang runStart curLangStart
            breaks =
          some (curLang1, prevLimit p.spans p.spans.length, curLangStart1, breaks1) ∧
        BreakInv env p p.spans.length curLang1 (prevLimit p.spans p.spans.length)
          curLangStart1 breaks1 := by
  intro rest
  induction rest with
  | nil =>
    intro k curLang runStart curLangStart breaks hdrop hk h
    have hkn : k = p.spans.length := by
      have := List.drop_eq_nil_iff.mp hdrop
      omega
    subst hkn
    refine ⟨curLang, curLangStart, breaks, ?_, ?_⟩
    · simp only [Paragraph.FindPotentialLineBreaksLoop]
      rw [h.atStart]
    · rw [← h.atStart]
      exact h
  | cons span rest ih =>
    intro k curLang runStart curLangStart breaks hdrop _ h
    obtain ⟨hk, hget, hrest⟩ := drop_cons_index p.spans k span rest hdrop
    have hmemspan : span ∈ p.spans := by
      rw [← hget, List.getD_eq_getElem?_getD, List.getElem?_eq_getElem hk]
      exact List.getElem_mem hk
    have hlim : span.limit = limitAt p.spans k := by
      unfold limitAt
      rw [hget]
    cases hst : span.style with
    | none => exact absurd hst (hstyle span hmemspan)
    | some style =>
      have hlang : langAt p.spans k = style.language := by
        unfold langAt
        rw [hget, hst]
        rfl
      have hrs0 : 0 ≤ runStart := by
        rw [h.atStart]
        exact prevLimit_nonneg p.spans hnn k (by omega)
      have hrsl : runStart ≤ span.limit := by
        rw [h.atStart, hlim]
        exact prevLimit_le_limitAt p.spans hnd hnn k hk
      simp only [Paragraph.FindPotentialLineBreaksLoop, hst]
      by_cases hchange : style.language ≠ curLang
      · obtain ⟨seg, hseg, hsrt, hmem⟩ := BreakInv_flush env p k curLang runStart
          curLangStart breaks hsorted h
        rw [if_pos hchange, hseg, Option.getD_some]
        refine ih (k + 1) style.language span.limit runStart (breaks ++ seg) hrest
          (by omega) ⟨?_, hrs0, hrsl, hsrt, ?_, ?_⟩
        · rw [prevLimit_succ, hlim]
        · intro b
          rw [hmem b]
          constructor
          · rintro ⟨h1, h2, i, hi, h3⟩
            exact ⟨h1, h2, i, by omega, h3⟩
          · rintro ⟨h1, h2, i, hi, hi1, h3⟩
            refine ⟨h1, h2, i, ?_, hi1, h3⟩
            by_contra hik
            have hik1 : i = k := by omega
            subst hik1
            have := h.atStart
            omega
        · intro i hi b hi1 hi2 hb
          by_cases hik : i = k
          · subst hik
            exact hlang
          · have := limitAt_le_prevLimit p.spans hnd i k (by omega) (by omega)
            have := h.atStart
            omega
      · have hsame : style.language = curLang := not_not.mp hchange
        rw [if_neg hchange]
        refine ih (k + 1) curLang span.limit curLangStart breaks hrest (by omega)
          ⟨?_, h.nonneg, le_trans h.notAfter hrsl, h.sorted, ?_, ?_⟩
        · rw [prevLimit_succ, hlim]
        · intro b
          rw [h.mem b]
          constructor
          · rintro ⟨h1, h2, i, hi, h3⟩
            exact ⟨h1, h2, i, by omega, h3⟩
          · rintro ⟨h1, h2, i, hi, hi1, h3⟩
            refine ⟨h1, h2, i, ?_, hi1, h3⟩
            by_contra hik
            have hik1 : i = k := by omega
            subst hik1
            have := h.atStart
            have := h.notAfter
            omega
        · intro i hi b hi1 hi2 hb
          by_cases hik : i = k
          · subst hik
            rw [hlang]
            exact hsame
          · exact h.pending i (by omega) b hi1 hi2 hb

/-- The result of `FindPotentialLineBreaks(breaks)` span by span: a strictly increasing
list of exactly the offsets inside the text that lie in the range of a span whose language
reports them. -/
theorem FindPotentialLineBreaks_spans (env : Env) (p : Paragraph) (hok : p.SpansOk)
    (hstyle : ∀ s ∈ p.spans, s.style ≠ none) (hsorted : SortedBreakers env p.text) :
    ∃ bs, p.FindPotentialLineBreaks env = some bs ∧ bs.Pairwise (fun a b => a < b) ∧
      ∀ b, b ∈ bs ↔ 0 < b ∧ b < p.length ∧ ∃ i, i < p.spans.length ∧
        prevLimit p.spans i ≤ b ∧ b < limitAt p.spans i ∧
        Reported env p.text (langAt p.spans i) b := by
  obtain ⟨hnd, hnn, hlast⟩ := hok
  have hmem0 : ∀ b : Int, b ∈ ([] : List Int) ↔ 0 < b ∧ b < 0 ∧ ∃ i, i < 0 ∧
      prevLimit p.spans i ≤ b ∧ b < limitAt p.spans i ∧
      Reported env p.text (langAt p.spans i) b := by
    intro b
    constructor
    · intro h
      exact absurd h (List.not_mem_nil _)
    · rintro ⟨h1, h2, _⟩
      omega
  have hinit : BreakInv env p 0 none 0 0 [] :=
    ⟨by simp [prevLimit], le_refl _, le_refl _, List.Pairwise.nil, hmem0,
      fun i hi => absurd hi (Nat.not_lt_zero i)⟩
  obtain ⟨cl, cls, bs, hloop, hinv⟩ := FindPotentialLineBreaksLoop_inv env p hnd hnn hstyle
    hsorted p.spans 0 none 0 0 [] (by simp) (by omega) hinit
  obtain ⟨seg, hseg, hsrt, hmem⟩ := BreakInv_flush env p p.spans.length cl
    (prevLimit p.spans p.spans.length) cls bs hsorted hinv
  have hlen : prevLimit p.spans p.spans.length = p.length := hlast
  rw [hlen] at hseg hmem
  refine ⟨bs ++ seg, ?_, hsrt, hmem⟩
  unfold Paragraph.FindPotentialLineBreaks
  rw [hloop]
  simp only [hseg, Option.getD_some]

/-- Every span has a first span of its language stretch at or before it. -/
theorem exists_stretch_start (spans : List Span) :
    ∀ k, ∃ i, i ≤ k ∧ (∀ m, i ≤ m → m ≤ k → langAt spans m = langAt spans k) ∧
      (i = 0 ∨ langAt spans (i - 1) ≠ langAt spans k) := by
  intro k
  induction k with
  | zero =>
    refine ⟨0, le_refl _, ?_, Or.inl rfl⟩
    intro m _ h2
    have hm : m = 0 := by omega
    rw [hm]
  | succ k ih =>
    by_cases h : langAt spans k = langAt spans (k + 1)
    · obtain ⟨i, hi, hall, hb⟩ := ih
      refine ⟨i, by omega, ?_, ?_⟩
      · intro m h1 h2
        by_cases hm : m = k + 1
        · rw [hm]
        · rw [hall m h1 (by omega), h]
      · rw [← h]
        exact hb
    · refine ⟨k + 1, le_refl _, ?_, Or.inr ?_⟩
      · intro m h1 h2
        have hm : m = k + 1 := by omega
        rw [hm]
      · rw [Nat.add_sub_cancel]
        exact h

/-- Every span has a last span of its language stretch at or after it. -/
theorem exists_stretch_end (spans : List Span) :
    ∀ d k, k + d + 1 = spans.length →
      ∃ j, k ≤ j ∧ j < spans.length ∧
        (∀ m, k ≤ m → m ≤ j → langAt spans m = langAt spans k) ∧
        (j + 1 = spans.length ∨ langAt spans (j + 1) ≠ langAt spans k) := by
  intro d
  induction d with
  | zero =>
    intro k hk
    refine ⟨k, le_refl _, by omega, ?_, Or.inl (by omega)⟩
    intro m h1 h2
    have hm : m = k := by omega
    rw [hm]
  | succ d ih =>
    intro k hk
    by_cases h : langAt spans (k + 1) = langAt spans k
    · obtain ⟨j, hj1, hj2, hall, hb⟩ := ih (k + 1) (by omega)
      refine ⟨j, by omega, hj2, ?_, ?_⟩
      · intro m h1 h2
        by_cases hm : m = k
        · rw [hm]
        · rw [hall m (by omega) h2, h]
      · rw [← h]
        exact hb
    · refine ⟨k, le_refl _, by omega, ?_, Or.inr h⟩
      intro m h1 h2
      have hm : m = k := by omega
      rw [hm]

/-- An offset of the text lies in a maximal stretch whose language reports it if and only
if it lies in a span whose language reports it. -/
theorem potentialBreak_iff_span (env : Env) (p : Paragraph)
    (hnd : NonDecreasingLimits p.spans) (hnn : ∀ s ∈ p.spans, 0 ≤ s.limit) (b : Int) :
    PotentialBreak env p b ↔ 0 < b ∧ b < p.length ∧ ∃ i, i < p.spans.length ∧
      prevLimit p.spans i ≤ b ∧ b < limitAt p.spans i ∧
      Reported env p.text (langAt p.spans i) b := by
  constructor
  · rintro ⟨h1, h2, i, j, L, br, ⟨hij, hj, hall, _, _⟩, hs, hl, hbr, hmem⟩
    have hl1 : b < limitAt p.spans (i + (j - i)) := by
      rw [show i + (j - i) = j by omega]
      exact hl
    obtain ⟨k, hk1, hk2, hk3, hk4⟩ := exists_span_between p.spans b i hs (j - i) hl1
    exact ⟨h1, h2, k, by omega, hk3, hk4, L, br, hall k hk1 (by omega), hbr, hmem⟩
  · rintro ⟨h1, h2, k, hk, hk1, hk2, L, br, hlang, hbr, hmem⟩
    obtain ⟨i, hi, halli, hbi⟩ := exists_stretch_start p.spans k
    obtain ⟨j, hj1, hj2, hallj, hbj⟩ := exists_stretch_end p.spans (p.spans.length - k - 1) k
      (by omega)
    rw [hlang] at halli hbi hallj hbj
    refine ⟨h1, h2, i, j, L, br, ⟨by omega, hj2, ?_, hbi, hbj⟩, ?_, ?_, hbr, hmem⟩
    · intro m hm1 hm2
      by_cases hmk : m ≤ k
      · exact halli m hm1 hmk
      · exact hallj m (by omega) hm2
    · exact le_trans (prevLimit_mono p.spans hnd hnn i k hi (by omega)) hk1
    · exact lt_of_lt_of_le hk2 (limitAt_mono hnd hj1 hj2)

/-- An offset that lies in a span whose language reports it lies in no stretch without a
language. -/
theorem not_in_null_stretch (env : Env) (p : Paragraph)
    (hnd : NonDecreasingLimits p.spans) (b : Int)
    (hb : ∃ k, k < p.spans.length ∧ prevLimit p.spans k ≤ b ∧ b < limitAt p.spans k ∧
      Reported env p.text (langAt p.spans k) b)
    (i j : Nat) (hst : IsStretch p.spans i j none) :
    ¬ (prevLimit p.spans i ≤ b ∧ b < limitAt p.spans j) := by
  rintro ⟨hs, hl⟩
  obtain ⟨k, hk, hk1, hk2, L, br, hlang, _, _⟩ := hb
  obtain ⟨hij, hj, hall, _, _⟩ := hst
  have hl1 : b < limitAt p.spans (i + (j - i)) := by
    rw [show i + (j - i) = j by omega]
    exact hl
  obtain ⟨m, hm1, hm2, hm3, hm4⟩ := exists_span_between p.spans b i hs (j - i) hl1
  have hkm : k = m := span_unique p.spans hnd b k m hk (by omega) hk1 hk2 hm3 hm4
  rw [hkm, hall m hm1 (by omega)] at hlang
  exact Option.noConfusion hlang

/-! ### Potential line breaks -/

/-- C18: for a paragraph whose span limits do not decrease, are not negative and end at
the text length, whose spans all have a style, and line breakers that report strictly
increasing offsets, `FindPotentialLineBreaks` returns a strictly increasing list that
holds exactly the offsets `b` with `0 < b < length` that lie in the range `[s, l)` of a
maximal same-language stretch of consecutive spans whose language is not null and whose
line breaker reports `b`. No returned offset lies in the range of a stretch without a
language, and neither does any break that the lookback of `Layout` commits from that
list. -/
theorem FindPotentialLineBreaks_enumerates (env : Env) (p : Paragraph) (hok : p.SpansOk)
    (hstyle : ∀ s ∈ p.spans, s.style ≠ none) (hsorted : SortedBreakers env p.text) :
    ∃ bs, p.FindPotentialLineBreaks env = some bs ∧
      bs.Pairwise (fun a b => a < b) ∧
      (∀ b, b ∈ bs ↔ PotentialBreak env p b) ∧
      (∀ b ∈ bs, ∀ i j, IsStretch p.spans i j none →
        ¬ (prevLimit p.spans i ≤ b ∧ b < limitAt p.spans j)) ∧
      (∀ width, ∀ c ∈ (p.LineBreakLoop width bs 0 0 []).2.2,
        c ∈ bs ∧ ∀ i j, IsStretch p.spans i j none →
          ¬ (prevLimit p.spans i ≤ c ∧ c < limitAt p.spans j)) := by
  obtain ⟨bs, hbs, hsrt, hmem⟩ := FindPotentialLineBreaks_spans env p hok hstyle hsorted
  have hnull : ∀ b ∈ bs, ∀ i j, IsStretch p.spans i j none →
      ¬ (prevLimit p.spans i ≤ b ∧ b < limitAt p.spans j) := by
    intro b hb i j hst
    exact not_in_null_stretch env p hok.1 b ((hmem b).mp hb).2.2 i j hst
  refine ⟨bs, hbs, hsrt, ?_, hnull, ?_⟩
  · intro b
    rw [hmem b, potentialBreak_iff_span env p hok.1 hok.2.1 b]
  · intro width c hc
    obtain ⟨committed, heq, hsub, hpos⟩ := LineBreakLoop_commits p width bs 0 0 []
    rw [heq, List.nil_append] at hc
    have hc0 : c ∈ (0 : Int) :: bs := hsub.subset hc
    have hcb : c ∈ bs := by
      rcases List.mem_cons.mp hc0 with e | h
      · have := hpos c hc
        omega
      · exact h
    exact ⟨hcb, hnull c hcb⟩

theorem FindPotentialLineBreaks_enumerates_witness :
    mixedParagraph.SpansOk ∧ (∀ s ∈ mixedParagraph.spans, s.style ≠ none) ∧
    SortedBreakers sampleEnv mixedParagraph.text ∧
    ∃ bs, mixedParagraph.FindPotentialLineBreaks sampleEnv = some bs ∧
      bs.Pairwise (fun a b => a < b) ∧
      (∀ b, b ∈ bs ↔ PotentialBreak sampleEnv mixedParagraph b) ∧
      (∀ b ∈ bs, ∀ i j, IsStretch mixedParagraph.spans i j none →
        ¬ (prevLimit mixedParagraph.spans i ≤ b ∧ b < limitAt mixedParagraph.spans j)) ∧
      (∀ width, ∀ c ∈ (mixedParagraph.LineBreakLoop width bs 0 0 []).2.2,
        c ∈ bs ∧ ∀ i j, IsStretch mixedParagraph.spans i j none →
          ¬ (prevLimit mixedParagraph.spans i ≤ c ∧ c < limitAt mixedParagraph.spans j)) :=
  have hsorted : SortedBreakers sampleEnv mixedParagraph.text := by
    intro language breaker h
    simp only [sampleEnv, Option.some.injEq] at h
    subst h
    decide
  ⟨by decide, by decide, hsorted,
    FindPotentialLineBreaks_enumerates sampleEnv mixedParagraph (by decide) (by decide)
      hsorted⟩

/-! ### Common and Inherited code points: one run or two -/

/-- Every state in which a round of the loop of `ShapeSpan` starts has its position below
the limit and at or after the position of the first one. -/
theorem ShapeSpanScan_mem (env : Env) (text : List Nat) (limit : Int) (bidiLevel : Nat)
    (fonts : FontCollection) (style : Style) :
    ∀ (n : Nat) (st : ShapeState),
      ∀ s ∈ ShapeSpanScan env text limit bidiLevel fonts style n st,
        s.pos < limit ∧ st.pos ≤ s.pos := by
  intro n
  induction n with
  | zero =>
    intro st s h
    simp [ShapeSpanScan] at h
  | succ n ih =>
    intro st s h
    by_cases hpos : st.pos < limit
    · simp only [ShapeSpanScan, hpos, if_true] at h
      rcases List.mem_cons.mp h with e | h
      · rw [e]
        exact ⟨hpos, le_refl _⟩
      · obtain ⟨h1, h2⟩ := ih _ s h
        have hadv : st.pos ≤ (ShapeSpanStep env text bidiLevel fonts style st).pos := by
          rw [(ShapeSpanStep_cases env text bidiLevel fonts style st).1]
          split <;> omega
        exact ⟨h1, le_trans hadv h2⟩
    · simp [ShapeSpanScan, hpos] at h

/-- The scan skips no scanned position: the round that starts at a scanned position before
another scanned position ends at or before that one. -/
theorem ShapeSpanScan_no_skip (env : Env) (text : List Nat) (limit : Int) (bidiLevel : Nat)
    (fonts : FontCollection) (style : Style) :
    ∀ (n : Nat) (st s sk : ShapeState),
      s ∈ ShapeSpanScan env text limit bidiLevel fonts style n st →
      sk ∈ ShapeSpanScan env text limit bidiLevel fonts style n st →
      s.pos < sk.pos → (ShapeSpanStep env text bidiLevel fonts style s).pos ≤ sk.pos := by
  intro n
  induction n with
  | zero =>
    intro st s sk h
    simp [ShapeSpanScan] at h
  | succ n ih =>
    intro st s sk hs hk hlt
    by_cases hpos : st.pos < limit
    · simp only [ShapeSpanScan, hpos, if_true] at hs hk
      have hadv : st.pos < (ShapeSpanStep env text bidiLevel fonts style st).pos := by
        rw [(ShapeSpanStep_cases env text bidiLevel fonts style st).1]
        split <;> omega
      rcases List.mem_cons.mp hs with e1 | h1
      · rcases List.mem_cons.mp hk with e2 | h2
        · rw [e1, e2] at hlt
          omega
        · rw [e1]
          exact (ShapeSpanScan_mem env text limit bidiLevel fonts style n _ sk h2).2
      · rcases List.mem_cons.mp hk with e2 | h2
        · have := (ShapeSpanScan_mem env text limit bidiLevel fonts style n _ s h1).2
          rw [e2] at hlt
          omega
        · exact ih _ s sk h1 h2 hlt
    · simp [ShapeSpanScan, hpos] at hs

/-- Every invariant of the rounds that the loop of `ShapeSpan` runs holds when it ends. -/
theorem ShapeSpanLoop_invariant_mem (env : Env) (text : List Nat) (limit : Int)
    (bidiLevel : Nat) (fonts : FontCollection) (style : Style) (I : ShapeState → Prop) :
    ∀ (n : Nat) (st : ShapeState), I st →
      (∀ s ∈ ShapeSpanScan env text limit bidiLevel fonts style n st, I s →
        I (ShapeSpanStep env text bidiLevel fonts style s)) →
      I (ShapeSpanLoop env text limit bidiLevel fonts style n st) := by
  intro n
  induction n with
  | zero => intro st h _; exact h
  | succ n ih =>
    intro st h hstep
    by_cases hpos : st.pos < limit
    · simp only [ShapeSpanLoop, hpos, if_true]
      simp only [ShapeSpanScan, hpos, if_true] at hstep
      exact ih _ (hstep st (List.mem_cons_self _ _) h)
        (fun s hs => hstep s (List.mem_cons_of_mem _ hs))
    · simp only [ShapeSpanLoop, hpos, if_false]
      exact h

theorem ShapeSpan_run_mem (env : Env) (text : List Nat) (start limit : Int) (bidiLevel : Nat)
    (fonts : FontCollection) (style : Style) (res : List ShapedText) (h : start < limit)
    (I : ShapeState → Prop) (hinit : I (ShapeState.initial start res))
    (hstep : ∀ s ∈ ShapeSpanScan env text limit bidiLevel fonts style (limit - start).toNat
        (ShapeState.initial start res),
      I s → I (ShapeSpanStep env text bidiLevel fonts style s)) :
    ∃ st, I st ∧ ¬ st.pos < limit ∧
      ShapeSpan env text start limit bidiLevel (some fonts) (some style) (some res) =
        some (closeSegment env text limit bidiLevel style st) := by
  refine ⟨ShapeSpanLoop env text limit bidiLevel fonts style (limit - start).toNat
    (ShapeState.initial start res), ?_, ?_, ?_⟩
  · exact ShapeSpanLoop_invariant_mem env text limit bidiLevel fonts style I _ _ hinit hstep
  · exact ShapeSpanLoop_exit env text limit bidiLevel fonts style _ _ (le_refl _)
  · rw [ShapeSpan_eq env text start limit bidiLevel fonts style res h]
    rfl

/-- The first round of the loop of `ShapeSpan` on a non-empty range starts at `start`. -/
theorem ShapeSpanScan_initial (env : Env) (text : List Nat) (start limit : Int)
    (bidiLevel : Nat) (fonts : FontCollection) (style : Style) (res : List ShapedText)
    (h : start < limit) :
    ShapeState.initial start res ∈
      ShapeSpanScan env text limit bidiLevel fonts style (limit - start).toNat
        (ShapeState.initial start res) := by
  obtain ⟨m, hm⟩ : ∃ m, (limit - start).toNat = m + 1 := ⟨(limit - start).toNat - 1, by omega⟩
  rw [hm]
  have hpos : (ShapeState.initial start res).pos < limit := h
  simp only [ShapeSpanScan, hpos, if_true]
  exact List.mem_cons_self _ _

/-- The runs of `ShapeSpan` on a range whose scan resolves every code point to the font
`F`, whose code points before the offset `K` are Common or Inherited, whose code point at
`K` has the script `S`, and whose code points after `K` have the script `S` or are Common
or Inherited: a run `[start, K)` with the invalid script when `start < K`, and a run
`[K, limit)` with the script `S` when `K < limit`. -/
theorem ShapeSpan_common_runs (env : Env) (text : List Nat) (start limit : Int)
    (bidiLevel : Nat) (fonts : FontCollection) (style : Style) (res : List ShapedText)
    (F : Font) (S : Script) (K : Int) (hsl : start < limit)
    (hfont : ∀ st ∈ ShapeSpanScan env text limit bidiLevel fonts style (limit - start).toNat
        (ShapeState.initial start res), scanFont text fonts style st = some F)
    (hK1 : start ≤ K) (hK2 : K ≤ limit)
    (hcommon : ∀ pos : Int, start ≤ pos → pos < K →
      env.script (char32At text pos) = HB_SCRIPT_COMMON ∨
      env.script (char32At text pos) = HB_SCRIPT_INHERITED)
    (hrest : ∀ pos : Int, K ≤ pos → pos < limit →
      env.script (char32At text pos) = S ∨
      env.script (char32At text pos) = HB_SCRIPT_COMMON ∨
      env.script (char32At text pos) = HB_SCRIPT_INHERITED)
    (hSc : S ≠ HB_SCRIPT_COMMON) (hSi : S ≠ HB_SCRIPT_INHERITED)
    (hKS : K < limit → env.script (char32At text K) = S ∧
      ∃ sk ∈ ShapeSpanScan env text limit bidiLevel fonts style (limit - start).toNat
        (ShapeState.initial start res), sk.pos = K)
    (hinv : start < K → K < limit → S ≠ HB_SCRIPT_INVALID) :
    ShapeSpan env text start limit bidiLevel (some fonts) (some style) (some res) =
      some (res ++
        (if start < K then
          [ShapedText.create env text start K bidiLevel HB_SCRIPT_INVALID F style] else []) ++
        (if K < limit then [ShapedText.create env text K limit bidiLevel S F style]
          else [])) := by
  have hcom : ∀ s : ShapeState,
      (env.script (char32At text s.pos) = HB_SCRIPT_COMMON ∨
        env.script (char32At text s.pos) = HB_SCRIPT_INHERITED) →
      scanScript env text s = s.lastScript := by
    intro s h
    unfold scanScript
    rw [if_pos h]
  have hisS : ∀ s : ShapeState, env.script (char32At text s.pos) = S →
      scanScript env text s = S := by
    intro s h
    unfold scanScript
    rw [if_neg (by rw [h]; exact not_or.mpr ⟨hSc, hSi⟩)]
    exact h
  obtain ⟨st, hI, hexit, heq⟩ := ShapeSpan_run_mem env text start limit bidiLevel fonts style
    res hsl
    (fun st =>
      (st.pos = start ∧ st.lastFont = none ∧ st.lastScript = HB_SCRIPT_INVALID ∧
        st.last = start ∧ st.result = res) ∨
      (start < st.pos ∧ (K < limit → st.pos ≤ K) ∧ st.lastFont = some F ∧
        st.lastScript = HB_SCRIPT_INVALID ∧ st.last = start ∧ st.result = res ∧ start < K) ∨
      (K < st.pos ∧ K < limit ∧ st.lastFont = some F ∧ st.lastScript = S ∧ st.last = K ∧
        st.result = res ++
          (if start < K then
            [ShapedText.create env text start K bidiLevel HB_SCRIPT_INVALID F style]
          else [])))
    (Or.inl ⟨rfl, rfl, rfl, rfl, rfl⟩)
    (by
      intro s hs hI
      obtain ⟨hlt, hge⟩ := ShapeSpanScan_mem env text limit bidiLevel fonts style _ _ s hs
      have hf := hfont s hs
      obtain ⟨hpos, hcase⟩ := ShapeSpanStep_cases env text bidiLevel fonts style s
      have hadv : s.pos < (ShapeSpanStep env text bidiLevel fonts style s).pos := by
        rw [hpos]; split <;> omega
      have hskip : K < limit → s.pos < K →
          (ShapeSpanStep env text bidiLevel fonts style s).pos ≤ K := by
        intro hKl hsK
        obtain ⟨_, sk, hsk, hskp⟩ := hKS hKl
        have := ShapeSpanScan_no_skip env text limit bidiLevel fonts style _ _ s sk hs hsk
          (by omega)
        omega
      rcases hI with ⟨a1, a2, a3, a4, a5⟩ | ⟨b1, b2, b3, b4, b5, b6, b7⟩ |
        ⟨c1, c2, c3, c4, c5, c6⟩
      · rcases hcase with ⟨d1, _⟩ | ⟨_, e1, e2, e3, hemit⟩
        · rw [hf, a2] at d1
          exact absurd d1 (by simp)
        · have hres : (ShapeSpanStep env text bidiLevel fonts style s).result = res := by
            rcases hemit with ⟨f, hf', _, _⟩ | ⟨_, e4⟩
            · rw [a2] at hf'
              exact absurd hf' (by simp)
            · rw [e4, a5]
          by_cases hsK : start < K
          · right; left
            have hsc : scanScript env text s = HB_SCRIPT_INVALID := by
              rw [hcom s (hcommon s.pos (by omega) (by omega)), a3]
            exact ⟨by omega, fun hKl => hskip hKl (by omega), by rw [e2, hf],
              by rw [e3, hsc], by rw [e1, a1], hres, hsK⟩
          · right; right
            have hKeq : K = start := by omega
            have hKl : K < limit := by omega
            have hsc : scanScript env text s = S := by
              apply hisS
              rw [a1, ← hKeq]
              exact (hKS hKl).1
            refine ⟨by omega, hKl, by rw [e2, hf], by rw [e3, hsc], by rw [e1, a1, hKeq], ?_⟩
            rw [hres, if_neg hsK, List.append_nil]
      · by_cases hpK : s.pos < K
        · have hsc : scanScript env text s = HB_SCRIPT_INVALID := by
            rw [hcom s (hcommon s.pos (by omega) hpK), b4]
          rcases hcase with ⟨_, _, e1, e2, e3, e4⟩ | ⟨hch, _⟩
          · right; left
            exact ⟨by omega, fun hKl => hskip hKl hpK, by rw [e2, b3], by rw [e3, b4],
              by rw [e1, b5], by rw [e4, b6], b7⟩
          · rw [hf, b3, hsc, b4] at hch
            simp at hch
        · have hKl : K < limit := by
            by_contra hn
            omega
          have hpeq : s.pos = K := by
            have := b2 hKl
            omega
          have hsc : scanScript env text s = S := by
            apply hisS
            rw [hpeq]
            exact (hKS hKl).1
          have hSinv := hinv b7 hKl
          rcases hcase with ⟨_, d2, _⟩ | ⟨_, e1, e2, e3, hemit⟩
          · rw [hsc, b4] at d2
            exact absurd d2 hSinv
          · right; right
            refine ⟨by omega, hKl, by rw [e2, hf], by rw [e3, hsc], by rw [e1, hpeq], ?_⟩
            rcases hemit with ⟨f, hf', _, e4⟩ | ⟨hno, _⟩
            · rw [b3] at hf'
              simp only [Option.some.injEq] at hf'
              rw [e4, b6, b5, b4, hpeq, ← hf', if_pos b7]
            · rcases hno with hn | hn
              · rw [b3] at hn
                exact absurd hn (by simp)
              · omega
      · have hsc : scanScript env text s = S := by
          rcases hrest s.pos (by omega) hlt with h | h
          · exact hisS s h
          · rw [hcom s h, c4]
        rcases hcase with ⟨_, _, e1, e2, e3, e4⟩ | ⟨hch, _⟩
        · right; right
          exact ⟨by omega, c2, by rw [e2, c3], by rw [e3, c4], by rw [e1, c5],
            by rw [e4, c6]⟩
        · rw [hf, c3, hsc, c4] at hch
          simp at hch)
  rw [heq]
  unfold closeSegment
  rcases hI with ⟨a1, _⟩ | ⟨b1, b2, b3, b4, b5, b6, b7⟩ | ⟨c1, c2, c3, c4, c5, c6⟩
  · omega
  · have hKeq : K = limit := by
      by_contra hne
      have := b2 (by omega)
      omega
    subst hKeq
    simp [b3, b4, b5, b6, hsl]
  · simp [c3, c4, c5, c6, c2]

/-- C14, amended: take a non-empty range whose scan resolves every code point to one same
font `F` (the resolver being asked, as `ShapeSpan` asks it, with the font of the code point
before as the hint) and in which every code point has the script `S` or is Common or
Inherited, `S` being neither. When the first code point has the script `S`, `ShapeSpan`
appends exactly one run, `[start, limit)` with font `F` and script `S`. When every code
point is Common or Inherited, it appends exactly one run, `[start, limit)` with font `F`
and the invalid script. When the range starts with Common or Inherited code points and the
first code point with the script `S`, not the invalid script, is scanned at the offset `k`,
it appends exactly two runs: `[start, k)` with the invalid script and `[k, limit)` with the
script `S`. -/
theorem ShapeSpan_one_run_or_split (env : Env) (text : List Nat) (start limit : Int)
    (bidiLevel : Nat) (fonts : FontCollection) (style : Style) (res : List ShapedText)
    (F : Font) (S : Script) (hsl : start < limit)
    (hfont : ∀ st ∈ ShapeSpanScan env text limit bidiLevel fonts style (limit - start).toNat
        (ShapeState.initial start res), scanFont text fonts style st = some F)
    (hscript : ∀ pos : Int, start ≤ pos → pos < limit →
      env.script (char32At text pos) = S ∨
      env.script (char32At text pos) = HB_SCRIPT_COMMON ∨
      env.script (char32At text pos) = HB_SCRIPT_INHERITED) :
    (env.script (char32At text start) = S → S ≠ HB_SCRIPT_COMMON → S ≠ HB_SCRIPT_INHERITED →
      ShapeSpan env text start limit bidiLevel (some fonts) (some style) (some res) =
        some (res ++ [ShapedText.create env text start limit bidiLevel S F style])) ∧
    ((∀ pos : Int, start ≤ pos → pos < limit →
        env.script (char32At text pos) = HB_SCRIPT_COMMON ∨
        env.script (char32At text pos) = HB_SCRIPT_INHERITED) →
      ShapeSpan env text start limit bidiLevel (some fonts) (some style) (some res) =
        some (res ++
          [ShapedText.create env text start limit bidiLevel HB_SCRIPT_INVALID F style])) ∧
    (∀ k : Int, start < k → k < limit →
      S ≠ HB_SCRIPT_COMMON → S ≠ HB_SCRIPT_INHERITED → S ≠ HB_SCRIPT_INVALID →
      (∃ sk ∈ ShapeSpanScan env text limit bidiLevel fonts style (limit - start).toNat
        (ShapeState.initial start res), sk.pos = k) →
      env.script (char32At text k) = S →
      (∀ pos : Int, start ≤ pos → pos < k →
        env.script (char32At text pos) = HB_SCRIPT_COMMON ∨
        env.script (char32At text pos) = HB_SCRIPT_INHERITED) →
      ShapeSpan env text start limit bidiLevel (some fonts) (some style) (some res) =
        some (res ++
          [ShapedText.create env text start k bidiLevel HB_SCRIPT_INVALID F style,
            ShapedText.create env text k limit bidiLevel S F style])) := by
  refine ⟨?_, ?_, ?_⟩
  · intro hfirst hSc hSi
    have h := ShapeSpan_common_runs env text start limit bidiLevel fonts style res F S start
      hsl hfont (le_refl _) (le_of_lt hsl) (fun pos h1 h2 => by omega)
      (fun pos h1 h2 => hscript pos h1 h2) hSc hSi
      (fun _ => ⟨hfirst, ShapeState.initial start res,
        ShapeSpanScan_initial env text start limit bidiLevel fonts style res hsl, rfl⟩)
      (fun h1 _ => absurd h1 (lt_irrefl _))
    rw [h]
    simp [hsl]
  · intro hall
    have h := ShapeSpan_common_runs env text start limit bidiLevel fonts style res F
      HB_SCRIPT_INVALID limit hsl hfont (le_of_lt hsl) (le_refl _) hall
      (fun pos h1 h2 => by omega) (by decide) (by decide)
      (fun h1 => absurd h1 (lt_irrefl _)) (fun _ h2 => absurd h2 (lt_irrefl _))
    rw [h]
    simp [hsl]
  · intro k hk1 hk2 hSc hSi hSv hscan hkS hbefore
    have h := ShapeSpan_common_runs env text start limit bidiLevel fonts style res F S k
      hsl hfont (le_of_lt hk1) (le_of_lt hk2) hbefore
      (fun pos h1 h2 => hscript pos (by omega) h2) hSc hSi
      (fun _ => ⟨hkS, hscan⟩) (fun _ _ => hSv)
    rw [h]
    simp [hk1, hk2]

/-- A resolver that keeps to its hint (asked for `a` with the hint of font `1` it answers
font `1`, so no single font is its answer for every hint), whose scan resolves every
code point to font `0`. The text `a`, space, `b` gives the one run `[0, 3)` with the Latin
script; the text space, `a`, space, `b` gives the two runs `[0, 1)` with the invalid script
and `[1, 4)` with the Latin script. -/
theorem ShapeSpan_one_run_or_split_witness :
    (stickyFont.FindFont 97 sampleStyle (some 1) = some 1 ∧
      (∀ st ∈ ShapeSpanScan sampleEnv [97, 32, 98] 3 0 stickyFont sampleStyle
          ((3 : Int) - 0).toNat (ShapeState.initial 0 []),
        scanFont [97, 32, 98] stickyFont sampleStyle st = some 0) ∧
      (∀ st ∈ ShapeSpanScan sampleEnv [32, 97, 32, 98] 4 0 stickyFont sampleStyle
          ((4 : Int) - 0).toNat (ShapeState.initial 0 []),
        scanFont [32, 97, 32, 98] stickyFont sampleStyle st = some 0)) ∧
    ShapeSpan sampleEnv [97, 32, 98] 0 3 0 (some stickyFont) (some sampleStyle) (some []) =
      some ([] ++ [ShapedText.create sampleEnv [97, 32, 98] 0 3 0 HB_SCRIPT_LATIN 0
        sampleStyle]) ∧
    ShapeSpan sampleEnv [32, 97, 32, 98] 0 4 0 (some stickyFont) (some sampleStyle)
        (some []) =
      some ([] ++
        [ShapedText.create sampleEnv [32, 97, 32, 98] 0 1 0 HB_SCRIPT_INVALID 0 sampleStyle,
          ShapedText.create sampleEnv [32, 97, 32, 98] 1 4 0 HB_SCRIPT_LATIN 0 sampleStyle]) :=
  have hscript : ∀ (text : List Nat) (pos : Int),
      sampleEnv.script (char32At text pos) = HB_SCRIPT_LATIN ∨
      sampleEnv.script (char32At text pos) = HB_SCRIPT_COMMON ∨
      sampleEnv.script (char32At text pos) = HB_SCRIPT_INHERITED := by
    intro text pos
    simp only [sampleEnv]
    split
    · right; left; rfl
    · left; rfl
  ⟨⟨by decide, by decide, by decide⟩,
    (ShapeSpan_one_run_or_split sampleEnv [97, 32, 98] 0 3 0 stickyFont sampleStyle [] 0
      HB_SCRIPT_LATIN (by decide) (by decide) (fun pos _ _ => hscript _ pos)).1
      (by decide) (by decide) (by decide),
    (ShapeSpan_one_run_or_split sampleEnv [32, 97, 32, 98] 0 4 0 stickyFont sampleStyle [] 0
      HB_SCRIPT_LATIN (by decide) (by decide) (fun pos _ _ => hscript _ pos)).2.2 1
      (by decide) (by decide) (by decide) (by decide) (by decide) (by decide) (by decide)
      (by
        intro pos h1 h2
        have hpos : pos = 0 := by omega
        subst hpos
        left
        decide)⟩

end Fontdiff
